import Mathlib

/-!
The cron manager of `g/os/gcron/gcron_cron.go` (package gcron).

A shallow embedding of `Cron` (registration, lookup, start/stop/close, the ordered
listing and the per-tick dispatcher `checkEntries`) together with the memory the
manager's `*Entry` pointers refer to and the goroutines the dispatcher launches.

* An `*Entry` is a reference (`Ref`) into `Cron.heap`; the registry maps names to
  references, exactly as `gmap.StringInterfaceMap` maps names to pointers.
* `go func() { defer ...; entry.Job() }()` is recorded as an `Invocation` in
  `Cron.running` until its job returns; `Cron.launched` logs every launch.
* Go `int` is taken to be 64 bits wide (`wrapInt`).
* `Step`, `step` and `run` describe the serial executions: each API call, each
  `checkEntries` pass and each deferred function runs to its end before the next begins.
* In the source the reads and writes of an entry's status are separate atomic operations
  of separate goroutines. `dispatchTests`, `dispatchSwap`, `checkEntryResume`,
  `completionAct` and `completeAct` cut the loop body at the swap of line 221 and the
  deferred function after the read of line 237, for the executions in which another call
  lands in between.
-/

namespace gcron

/-! ## Constants and external collaborators -/

/-- Status 0 (未执行) in the comment of the field `Cron.status`. -/
abbrev STATUS_READY : Int := 0

/-- Status 1 (运行中) in the comment of the field `Cron.status`. -/
abbrev STATUS_RUNNING : Int := 1

/-- Status 2 (已停止) in the comment of the field `Cron.status`. -/
abbrev STATUS_STOPPED : Int := 2

/-- Status -1 (删除关闭) in the comment of the field `Cron.status`. -/
abbrev STATUS_CLOSED : Int := -1

/-- What `gcron_cron.go` uses but does not declare, taken as parameters:
the constant `gDEFAULT_TIMES`, whether `newSchedule` accepts a pattern, and
`schedule.meet` (the schedule compiled from a pattern is identified with the pattern). -/
structure Deps where
  gDEFAULT_TIMES : Int
  newSchedule : String → Bool
  meet : String → Nat → Bool

/-- Two's-complement wrap-around of a 64-bit Go `int`. -/
def wrapInt (x : Int) : Int :=
  (x + 9223372036854775808) % 18446744073709551616 - 9223372036854775808

/-- The decimal rendering `strconv.Itoa`. -/
def Itoa (i : Int) : String := toString i

/-- The method `time.Time.Nanosecond`: the nanosecond offset within the second, for an
instant given in nanoseconds since the epoch. -/
def Nanosecond (t : Nat) : Nat := t % 1000000000

/-! ## Data model -/

/-- Address of an `Entry` object. -/
abbrev Ref := Nat

/-- The struct `Entry`, declared outside `gcron_cron.go`, with what that file reads and
writes: `schedule`, `status`, `times`, `Name`, `Job`, `Time`, and the flag read by
`IsSingleton`. A job is identified by a number, an instant is in nanoseconds. -/
structure Entry where
  schedule : String
  status : Int
  singleton : Bool
  times : Int
  Name : String
  Job : Nat
  Time : Nat
deriving DecidableEq, Repr

instance : Inhabited Entry := ⟨⟨"", 0, false, 0, "", 0, 0⟩⟩

/-- A goroutine launched by `checkEntries` whose job has not returned yet: the entry
it captured and its ordinal among the launches of that entry. -/
structure Invocation where
  entry : Ref
  ordinal : Nat
deriving DecidableEq, Repr

/-- The errors `Add` returns: the duplicate-name error built at line 49 and the error
of `newEntry`. -/
inductive CronError where
  | alreadyExists (name : String)
  | invalidPattern (pattern : String)
deriving DecidableEq, Repr

/-- The struct `Cron` (`idgen`, `status`, `entries`) with the memory its entry pointers
refer to (`heap`, allocation pointer `next`) and the goroutines of the dispatcher
(`running`: launched and not yet completed; `launched`: log of all launches). -/
structure Cron where
  idgen : Int
  status : Int
  entries : List (String × Ref)
  heap : Ref → Entry
  next : Ref
  running : List Invocation
  launched : List Ref

/-! ## The containers (`gmap`, `garray`) -/

/-- Modelled from the spec: `gmap.StringInterfaceMap.Get` is not under src; the registry
is "a concurrent mapping from entry name to Entry, supporting insert, lookup, removal". -/
def mapGet (m : List (String × Ref)) (k : String) : Option Ref :=
  (m.find? (fun kv => kv.1 = k)).map Prod.snd

/-- Modelled from the spec: `gmap.StringInterfaceMap.Set` is not under src; inserting
under a key replaces whatever was stored under it. -/
def mapSet (m : List (String × Ref)) (k : String) (v : Ref) : List (String × Ref) :=
  (k, v) :: m.filter (fun kv => kv.1 ≠ k)

/-- Modelled from the spec: `gmap.StringInterfaceMap.Remove` is not under src. -/
def mapRemove (m : List (String × Ref)) (k : String) : List (String × Ref) :=
  m.filter (fun kv => kv.1 ≠ k)

/-- Modelled from the spec: `gmap.StringInterfaceMap.BatchRemove` is not under src;
it removes every listed key. -/
def mapBatchRemove (m : List (String × Ref)) (ks : List String) : List (String × Ref) :=
  m.filter (fun kv => kv.1 ∉ ks)

/-- Modelled from the spec: `garray.SortedArray.Add` is not under src; the value is
inserted at its place in the order of the comparator, which is applied to the new
value and an element of the array. -/
def sortedArrayAdd {α : Type} (cmp : α → α → Int) : List α → α → List α
  | [], v => [v]
  | x :: xs, v => if cmp v x > 0 then x :: sortedArrayAdd cmp xs v else v :: x :: xs

/-! ## Entry methods (`gcron_entry.go`) -/

/-- Modelled from the spec: `newEntry` is not under src; it "builds a Schedule matcher
from the pattern (failure → InvalidPatternError)", the entry starts READY ("idle,
eligible for dispatch") and `createdAt` is the "timestamp of registration". -/
def newEntry (d : Deps) (now : Nat) (pattern : String) (job : Nat) (singleton : Bool)
    (times : Int) (name : List String) : Except CronError Entry :=
  if d.newSchedule pattern then
    .ok { schedule := pattern, status := STATUS_READY, singleton := singleton,
          times := times, Name := name.headD "", Job := job, Time := now }
  else .error (.invalidPattern pattern)

/-- Modelled from the spec: `Entry.SetSingleton` is not under src; it sets "the singleton flag". -/
def Entry.SetSingleton (entry : Entry) (enabled : Bool) : Entry :=
  { entry with singleton := enabled }

/-- Modelled from the spec: `Entry.SetTimes` is not under src; it sets "the run-count". -/
def Entry.SetTimes (entry : Entry) (times : Int) : Entry :=
  { entry with times := times }

/-- Modelled from the spec: `Entry.IsSingleton` is not under src; it reads the singleton flag. -/
def Entry.IsSingleton (entry : Entry) : Bool := entry.singleton

/-- Modelled from the spec: `Entry.Start` is not under src; `Start` with names "transitions
only the named Entries' individual status" (READY/STOPPED), here to READY. -/
def Entry.Start (entry : Entry) : Entry :=
  { entry with status := STATUS_READY }

/-- Modelled from the spec: `Entry.Stop` is not under src; `Stop` with names "transitions
only the named Entries' individual status" (READY/STOPPED), here to STOPPED. -/
def Entry.Stop (entry : Entry) : Entry :=
  { entry with status := STATUS_STOPPED }

/-- Apply an entry method to the object at address `r`. -/
def Cron.modify (c : Cron) (r : Ref) (f : Entry → Entry) : Cron :=
  { c with heap := Function.update c.heap r (f (c.heap r)) }

/-! ## The manager -/

/-- The constructor `New` (the state it builds; its tick callback is `tickCallback`). -/
def New : Cron :=
  { idgen := 1000000, status := STATUS_RUNNING, entries := [],
    heap := fun _ => default, next := 0, running := [], launched := [] }

/-- The method `Cron.Search`. -/
def Search (c : Cron) (name : String) : Option Ref :=
  mapGet c.entries name

/-- The method `Cron.Add`, called at instant `now`; `name` is the variadic argument. The
result is the returned pair (entry or error) and the manager afterwards. -/
def Add (d : Deps) (c : Cron) (now : Nat) (pattern : String) (job : Nat)
    (name : List String) : Except CronError Ref × Cron :=
  if 0 < name.length ∧ (Search c (name.headD "")).isSome then
    (.error (.alreadyExists (name.headD "")), c)
  else
    match newEntry d now pattern job false d.gDEFAULT_TIMES name with
    | .error err => (.error err, c)
    | .ok entry =>
      let idgen1 := if 0 < name.length then c.idgen else wrapInt (c.idgen + 1)
      let entryName := if 0 < name.length then name.headD "" else Itoa idgen1
      (.ok c.next,
        { c with
          idgen := idgen1
          entries := mapSet c.entries entryName c.next
          heap := Function.update c.heap c.next { entry with Name := entryName }
          next := c.next + 1 })

/-- The method `Cron.AddSingleton`. -/
def AddSingleton (d : Deps) (c : Cron) (now : Nat) (pattern : String) (job : Nat)
    (name : List String) : Except CronError Ref × Cron :=
  match Add d c now pattern job name with
  | (.error err, c1) => (.error err, c1)
  | (.ok entry, c1) => (.ok entry, c1.modify entry (fun e => e.SetSingleton true))

/-- The method `Cron.AddOnce`. -/
def AddOnce (d : Deps) (c : Cron) (now : Nat) (pattern : String) (job : Nat)
    (name : List String) : Except CronError Ref × Cron :=
  match Add d c now pattern job name with
  | (.error err, c1) => (.error err, c1)
  | (.ok entry, c1) => (.ok entry, c1.modify entry (fun e => e.SetTimes 1))

/-- The method `Cron.AddTimes`. -/
def AddTimes (d : Deps) (c : Cron) (now : Nat) (pattern : String) (times : Int) (job : Nat)
    (name : List String) : Except CronError Ref × Cron :=
  match Add d c now pattern job name with
  | (.error err, c1) => (.error err, c1)
  | (.ok entry, c1) => (.ok entry, c1.modify entry (fun e => e.SetTimes times))

/-- The method `Cron.Remove`. -/
def Remove (c : Cron) (name : String) : Cron :=
  { c with entries := mapRemove c.entries name }

/-- The loop `for _, v := range name` of `Start` and `Stop`: every name that `Search`
finds has the entry method `f` called on its entry. -/
def forNamed (c : Cron) (name : List String) (f : Entry → Entry) : Cron :=
  name.foldl (fun c v =>
    match Search c v with
    | some entry => c.modify entry f
    | none => c) c

/-- The method `Cron.Start`. -/
def Start (c : Cron) (name : List String) : Cron :=
  if 0 < name.length then forNamed c name Entry.Start
  else { c with status := STATUS_READY }

/-- The method `Cron.Stop`. -/
def Stop (c : Cron) (name : List String) : Cron :=
  if 0 < name.length then forNamed c name Entry.Stop
  else { c with status := STATUS_STOPPED }

/-- The method `Cron.Close`. -/
def Close (c : Cron) : Cron :=
  { c with status := STATUS_CLOSED }

/-- The method `Cron.Size`. -/
def Size (c : Cron) : Nat :=
  c.entries.length

/-- The comparator `Entries` hands to the sorted array. -/
def entriesCompare (heap : Ref → Entry) (v1 v2 : Ref) : Int :=
  if Nanosecond (heap v1).Time > Nanosecond (heap v2).Time then 1 else -1

/-- The method `Cron.Entries`: every value of the map, in the map's iteration order, is
added to a sorted array, which is then copied out. -/
def Entries (c : Cron) : List Ref :=
  c.entries.foldl (fun array kv => sortedArrayAdd (entriesCompare c.heap) array kv.2) []

/-! ## The dispatcher -/

/-- What the loop body of `checkEntries` decides for one entry: nothing (`continue`, or
the schedule is not due), its key is appended to `removeKeys`, or its job is launched. -/
inductive Verdict where
  | skip
  | remove
  | launch
deriving DecidableEq, Repr

/-- The loop body of `checkEntries` on the entry object itself (lines 210-233): the
entry as the body leaves it, and what the body decides. -/
def dispatch (d : Deps) (t : Nat) (entry : Entry) : Entry × Verdict :=
  if d.meet entry.schedule t then
    if entry.status = STATUS_STOPPED then (entry, .skip)
    else if entry.status = STATUS_CLOSED then (entry, .remove)
    else
      let running : Entry := { entry with status := STATUS_RUNNING }
      if entry.status = STATUS_RUNNING ∧ running.IsSingleton = true then (running, .skip)
      else
        let t1 := wrapInt (running.times - 1)
        let counted : Entry := { running with times := t1 }
        if t1 ≤ 0 then
          if counted.status = STATUS_CLOSED then
            ({ counted with status := STATUS_CLOSED }, .skip)
          else ({ counted with status := STATUS_CLOSED }, .launch)
        else if t1 < 2000000000 ∧ t1 > 1000000000 then
          ({ counted with times := d.gDEFAULT_TIMES }, .launch)
        else (counted, .launch)
  else (entry, .skip)

/-- The statement `go func() { defer ...; entry.Job() }()` of lines 235-248: a new
goroutine holding the entry. -/
def Cron.launch (c : Cron) (entry : Ref) : Cron :=
  { c with
    running := c.running ++ [⟨entry, c.launched.count entry + 1⟩]
    launched := c.launched ++ [entry] }

/-- One iteration of the loop of `checkEntries` over the pair `(k, v)` of the map; the
state of the loop is the manager and `removeKeys`. -/
def checkEntry (d : Deps) (t : Nat) (acc : Cron × List String) (kv : String × Ref) :
    Cron × List String :=
  match dispatch d t (acc.1.heap kv.2) with
  | (entry, .skip) => ({ acc.1 with heap := Function.update acc.1.heap kv.2 entry }, acc.2)
  | (entry, .remove) =>
    ({ acc.1 with heap := Function.update acc.1.heap kv.2 entry }, acc.2 ++ [kv.1])
  | (entry, .launch) =>
    (Cron.launch { acc.1 with heap := Function.update acc.1.heap kv.2 entry } kv.2, acc.2)

/-- The method `Cron.checkEntries`: the scan of the registry in its iteration order,
then the batched removal. -/
def checkEntries (d : Deps) (c : Cron) (t : Nat) : Cron :=
  let scanned := c.entries.foldl (checkEntry d t) (c, [])
  if 0 < scanned.2.length then
    { scanned.1 with entries := mapBatchRemove scanned.1.entries scanned.2 }
  else scanned.1

/-- The deferred function of lines 236-246, run on the entry object when its job returns. -/
def completion (c : Cron) (entry : Ref) : Cron :=
  if (c.heap entry).status = STATUS_CLOSED then Remove c (c.heap entry).Name
  else if (c.heap entry).status = STATUS_STOPPED then c
  else c.modify entry (fun e => { e with status := STATUS_READY })

/-- The job of a running invocation returns: the goroutine ends with its deferred function. -/
def complete (c : Cron) (inv : Invocation) : Cron :=
  if inv ∈ c.running then
    completion { c with running := c.running.erase inv } inv.entry
  else c

/-- What one call of the callback `New` registers with `gtimer.Add` does. -/
structure TickOutcome where
  exit : Bool
  dispatched : Bool
deriving DecidableEq, Repr

/-- The callback of lines 34-41 on the global status it reads at its first and at its second
test; `exitReturns` tells whether `gtimer.Exit` returns to the callback. -/
def tickCallback (exitReturns : Bool) (status1 status2 : Int) : TickOutcome :=
  if status1 = STATUS_CLOSED then
    if exitReturns then { exit := true, dispatched := decide (status2 = STATUS_RUNNING) }
    else { exit := true, dispatched := false }
  else { exit := false, dispatched := decide (status2 = STATUS_RUNNING) }

/-- One firing of the callback at instant `now`, with the pass it starts run to its end. -/
def tick (d : Deps) (c : Cron) (now : Nat) : Cron :=
  if (tickCallback false c.status c.status).dispatched then checkEntries d c now else c

/-! ## Deferred registration -/

/-- How a callback handed to `gtimer.AddOnce` ends: it returns, or it panics. -/
inductive CallbackResult where
  | returned (c : Cron)
  | panicked (err : CronError)

/-- What `gtimer.AddOnce` is handed: the `time.Duration` in nanoseconds and what the
function does to the manager it finds when the timer fires at instant `now`. -/
structure OneShot where
  interval : Int
  callback : Cron → Nat → CallbackResult

/-- The method `Cron.DelayAdd` (lines 96-102). -/
def DelayAdd (d : Deps) (delay : Int) (pattern : String) (job : Nat) (name : List String) :
    OneShot :=
  { interval := wrapInt (delay * 1000000000)
    callback := fun c now =>
      match Add d c now pattern job name with
      | (.error err, _) => .panicked err
      | (.ok _, c1) => .returned c1 }

/-- The method `Cron.DelayAddSingleton` (lines 105-111). -/
def DelayAddSingleton (d : Deps) (delay : Int) (pattern : String) (job : Nat)
    (name : List String) : OneShot :=
  { interval := wrapInt (delay * 1000000000)
    callback := fun c now =>
      match AddSingleton d c now pattern job name with
      | (.error err, _) => .panicked err
      | (.ok _, c1) => .returned c1 }

/-- The method `Cron.DelayAddOnce` (lines 114-120). -/
def DelayAddOnce (d : Deps) (delay : Int) (pattern : String) (job : Nat)
    (name : List String) : OneShot :=
  { interval := wrapInt (delay * 1000000000)
    callback := fun c now =>
      match AddOnce d c now pattern job name with
      | (.error err, _) => .panicked err
      | (.ok _, c1) => .returned c1 }

/-- The method `Cron.DelayAddTimes` (lines 123-129). -/
def DelayAddTimes (d : Deps) (delay : Int) (pattern : String) (times : Int) (job : Nat)
    (name : List String) : OneShot :=
  { interval := wrapInt (delay * 1000000000)
    callback := fun c now =>
      match AddTimes d c now pattern times job name with
      | (.error err, _) => .panicked err
      | (.ok _, c1) => .returned c1 }

/-! ## Executions -/

/-- The steps of a serial execution: an API call, a `checkEntries` pass, a firing of the
timer callback or the deferred function of an invocation, each run from its first line to
its last with nothing in between. -/
inductive Step where
  | check (t : Nat)
  | timer (now : Nat)
  | complete (inv : Invocation)
  | start (name : List String)
  | stop (name : List String)
  | close
  | remove (name : String)
  | add (now : Nat) (pattern : String) (job : Nat) (name : List String)
  | addSingleton (now : Nat) (pattern : String) (job : Nat) (name : List String)
  | addOnce (now : Nat) (pattern : String) (job : Nat) (name : List String)
  | addTimes (now : Nat) (pattern : String) (times : Int) (job : Nat) (name : List String)
deriving DecidableEq, Repr

/-- The manager after one step of a serial execution. -/
def step (d : Deps) (c : Cron) : Step → Cron
  | .check t => checkEntries d c t
  | .timer now => tick d c now
  | .complete inv => complete c inv
  | .start name => Start c name
  | .stop name => Stop c name
  | .close => Close c
  | .remove name => Remove c name
  | .add now pattern job name => (Add d c now pattern job name).2
  | .addSingleton now pattern job name => (AddSingleton d c now pattern job name).2
  | .addOnce now pattern job name => (AddOnce d c now pattern job name).2
  | .addTimes now pattern times job name => (AddTimes d c now pattern times job name).2

/-- The manager after a serial execution: the steps run one after another, none
overlapping another. -/
def run (d : Deps) (c : Cron) (steps : List Step) : Cron :=
  steps.foldl (step d) c

/-- The number of invocations of the entry at `r` that were launched and have not completed. -/
def inflight (c : Cron) (r : Ref) : Nat :=
  c.running.countP (fun inv => inv.entry = r)

/-- The number of invocations of the entry at `r` launched so far. -/
def launches (c : Cron) (r : Ref) : Nat :=
  c.launched.count r

/-! ## Between the atomic operations -/

/-- Lines 210-219 of the loop body, which only read the entry object: the verdict when the
iteration ends there, nothing when it goes on to the swap of line 221. -/
def dispatchTests (d : Deps) (t : Nat) (entry : Entry) : Option Verdict :=
  if d.meet entry.schedule t then
    if entry.status = STATUS_STOPPED then some .skip
    else if entry.status = STATUS_CLOSED then some .remove
    else none
  else some .skip

/-- Lines 221-233 of the loop body, on the entry object as the swap of line 221 finds it. -/
def dispatchSwap (d : Deps) (entry : Entry) : Entry × Verdict :=
  let running : Entry := { entry with status := STATUS_RUNNING }
  if entry.status = STATUS_RUNNING ∧ running.IsSingleton = true then (running, .skip)
  else
    let t1 := wrapInt (running.times - 1)
    let counted : Entry := { running with times := t1 }
    if t1 ≤ 0 then
      if counted.status = STATUS_CLOSED then
        ({ counted with status := STATUS_CLOSED }, .skip)
      else ({ counted with status := STATUS_CLOSED }, .launch)
    else if t1 < 2000000000 ∧ t1 > 1000000000 then
      ({ counted with times := d.gDEFAULT_TIMES }, .launch)
    else (counted, .launch)

/-- The iteration of the loop of `checkEntries` over the pair `(k, v)` from the swap of
line 221 on, for an iteration that went through the tests of lines 210-219 earlier; the
manager is the one the swap finds. -/
def checkEntryResume (d : Deps) (acc : Cron × List String) (kv : String × Ref) :
    Cron × List String :=
  match dispatchSwap d (acc.1.heap kv.2) with
  | (entry, .launch) =>
    (Cron.launch { acc.1 with heap := Function.update acc.1.heap kv.2 entry } kv.2, acc.2)
  | (entry, _) => ({ acc.1 with heap := Function.update acc.1.heap kv.2 entry }, acc.2)

/-- Lines 238-245 of the deferred function, on the manager they find, for the status
`seen` that line 237 read. -/
def completionAct (c : Cron) (entry : Ref) (seen : Int) : Cron :=
  if seen = STATUS_CLOSED then Remove c (c.heap entry).Name
  else if seen = STATUS_STOPPED then c
  else c.modify entry (fun e => { e with status := STATUS_READY })

/-- The end of the goroutine of `inv`, whose deferred function read the status `seen` at
line 237 and now runs lines 238-245. -/
def completeAct (c : Cron) (inv : Invocation) (seen : Int) : Cron :=
  if inv ∈ c.running then
    completionAct { c with running := c.running.erase inv } inv.entry seen
  else c

/-! ## Well-formed managers -/

/-- What every manager built through the API satisfies: the registry holds each name and
each entry object once, an entry is stored under its own `Name`, and every address in
use lies below the allocation pointer. -/
structure WF (c : Cron) : Prop where
  keys : (c.entries.map Prod.fst).Nodup
  refs : (c.entries.map Prod.snd).Nodup
  alloc : ∀ kv ∈ c.entries, kv.2 < c.next
  named : ∀ kv ∈ c.entries, (c.heap kv.2).Name = kv.1
  goroutines : ∀ inv ∈ c.running, inv.entry < c.next
  logged : ∀ r ∈ c.launched, r < c.next

/-- The scan of `checkEntries` over a part of the registry, from a loop state. -/
def scan (d : Deps) (t : Nat) (l : List (String × Ref)) (acc : Cron × List String) :
    Cron × List String :=
  l.foldl (checkEntry d t) acc

/-- The effect of the deferred function on the entry object whose job returned. -/
def Entry.finish (entry : Entry) : Entry :=
  if entry.status = STATUS_CLOSED then entry
  else if entry.status = STATUS_STOPPED then entry
  else { entry with status := STATUS_READY }

/-- An entry whose counter sits above the band that `checkEntries` resets and below the
width of `int`, and which is not closed. -/
def Unlimited (e : Entry) : Prop :=
  1000000002 ≤ e.times ∧ e.times < 9223372036854775808 ∧ e.status ≠ STATUS_CLOSED

/-- The steps that touch neither an entry object that already exists nor a goroutine:
`Close`, `Remove` and the registrations. -/
def Step.quiet : Step → Bool
  | .close => true
  | .remove _ => true
  | .add _ _ _ _ => true
  | .addSingleton _ _ _ _ => true
  | .addOnce _ _ _ _ => true
  | .addTimes _ _ _ _ _ => true
  | _ => false

/-! ## Invariants of executions -/

/-- A `checkEntries` pass, as opposed to every other step. -/
def Step.isCheck : Step → Bool
  | .check _ => true
  | _ => false

/-- In the execution of `steps` from `c`, `Start` is called with `name` only while no
invocation of the entry at `r` is running. -/
def StartsIdle (d : Deps) (name : String) (r : Ref) : Cron → List Step → Prop
  | _, [] => True
  | c, s :: steps =>
    (∀ names, s = .start names → name ∈ names → inflight c r = 0) ∧
      StartsIdle d name r (step d c s) steps

/-- The state of a singleton entry object at `r` named `name`: at most one of its
invocations is running, and while one is running its status is RUNNING, STOPPED or CLOSED. -/
structure Single (c : Cron) (name : String) (r : Ref) : Prop where
  wf : WF c
  alloc : r < c.next
  flag : (c.heap r).singleton = true
  named : (c.heap r).Name = name
  atMost : inflight c r ≤ 1
  busy : inflight c r = 1 →
    (c.heap r).status = STATUS_RUNNING ∨ (c.heap r).status = STATUS_STOPPED ∨
      (c.heap r).status = STATUS_CLOSED

/-- The state of a non-singleton entry object at `r`, registered under `name` for `N` runs
and due at every instant, after `m` passes: it was launched `min m N` times; before the
last launch it is READY or RUNNING with the runs not yet launched on its counter and is
registered; from the last launch on it is CLOSED and, while it is registered, its `N`-th
invocation is running. No other entry bears its name. -/
structure Counting (d : Deps) (c : Cron) (name : String) (r : Ref) (N m : Nat) : Prop where
  wf : WF c
  alloc : r < c.next
  named : (c.heap r).Name = name
  plain : (c.heap r).singleton = false
  due : ∀ t, d.meet (c.heap r).schedule t = true
  count : launches c r = min m N
  others : ∀ inv ∈ c.running, inv.entry ≠ r → (c.heap inv.entry).Name ≠ name
  own : ∀ kv ∈ c.entries, kv.1 = name → kv.2 = r
  before : launches c r < N →
    ((c.heap r).status = STATUS_READY ∨ (c.heap r).status = STATUS_RUNNING) ∧
    (c.heap r).times = (N : Int) - (launches c r : Int) ∧ Search c name = some r
  after : launches c r = N →
    (c.heap r).status = STATUS_CLOSED ∧
    (Search c name = some r → (⟨r, N⟩ : Invocation) ∈ c.running)

/-! ## Sample inputs -/

/-- A collaborator set with `math.MaxInt32` as `gDEFAULT_TIMES`, every pattern accepted and
every schedule due at every instant. -/
def sampleDeps : Deps :=
  { gDEFAULT_TIMES := 2147483647, newSchedule := fun _ => true, meet := fun _ _ => true }

/-- A new manager on which `Add` was called once with the explicit name "x". -/
def sampleNamed : Cron :=
  (Add sampleDeps New 1541289600000000000 "* * * * * *" 1 ["x"]).2

/-- A new manager with two entries, the second registered 0.2 seconds after the first,
in the next second of the clock. -/
def sampleTwo : Cron :=
  run sampleDeps New
    [.add 1541289600900000000 "* * * * * *" 1 ["first"],
     .add 1541289601100000000 "* * * * * *" 2 ["second"]]

/-- A new manager with the entry "a" registered for two runs, after the first pass: one
invocation is running and one run is left. -/
def sampleOverlap : Cron :=
  run sampleDeps New [.addTimes 1541289600000000000 "* * * * * *" 2 1 ["a"], .check 1]

/-- A new manager with the singleton entry "b". -/
def sampleSingleton : Cron :=
  (AddSingleton sampleDeps New 1541289600000000000 "* * * * * *" 1 ["b"]).2

/-- A new manager with the entry "a" registered for 1000000002 runs. -/
def sampleBand : Cron :=
  (AddTimes sampleDeps New 1541289600000000000 "* * * * * *" 1000000002 1 ["a"]).2

/-- The steps of a manager on which "a" is registered for one run, launched and cleaned
from the registry while its invocation is running, then registered again for three runs;
after one pass the first invocation completes, and three more passes follow. -/
def sampleStale : List Step :=
  [.addTimes 1541289600000000000 "* * * * * *" 1 1 ["a"], .check 1, .check 2,
   .addTimes 1541289602500000000 "* * * * * *" 3 2 ["a"], .check 3,
   .complete ⟨0, 1⟩, .check 4, .check 5, .check 6]

/-- A new manager with the entry "a" registered for three runs. -/
def sampleThree : Cron :=
  (AddTimes sampleDeps New 1541289600000000000 "* * * * * *" 3 1 ["a"]).2

/-- A collaborator set like `sampleDeps` whose schedules are due at the even instants only. -/
def sampleEven : Deps :=
  { gDEFAULT_TIMES := 2147483647, newSchedule := fun _ => true,
    meet := fun _ t => decide (t % 2 = 0) }

/-- A new manager with the entry "a" registered for one run, after the pass at the due
instant 0: the entry is CLOSED, registered, and its invocation is running. -/
def sampleClosed : Cron :=
  run sampleEven New [.addOnce 1541289600000000000 "* * * * * *" 1 ["a"], .check 0]

/-- A new manager on which `Add` was called once with the explicit name "1000001". -/
def sampleNumeric : Cron :=
  (Add sampleDeps New 1541289600000000000 "* * * * * *" 1 ["1000001"]).2

/-- A new manager on which "a" was registered for one run and launched, then removed by
name while its invocation is running, then registered again by `Add`. -/
def sampleReuse : Cron :=
  run sampleDeps New
    [.addOnce 1541289600000000000 "* * * * * *" 1 ["a"], .check 1, .remove "a",
     .add 1541289601500000000 "* * * * * *" 2 ["a"]]

/-- The sample manager after this execution: a pass at the due instant 1 takes "x" through
the tests of lines 210-219, then `Stop("x")` runs, then the pass goes on from the swap of
line 221. -/
def sampleStopInPass : Cron :=
  (checkEntryResume sampleDeps (Stop sampleNamed ["x"], []) ("x", 0)).1

/-- The sample manager after this execution: a pass launches "x", the job returns and the
deferred function reads the status at line 237, then `Stop("x")` runs, then the deferred
function goes on from line 238. -/
def sampleStopInDefer : Cron :=
  completeAct (Stop (checkEntries sampleDeps sampleNamed 1) ["x"]) ⟨0, 1⟩
    ((checkEntries sampleDeps sampleNamed 1).heap 0).status

/-- The manager holding the singleton "b" after this execution: a pass launches "b"; a
second pass takes "b" through the tests of lines 210-219, then `Stop("b")` runs, then the
second pass goes on from the swap of line 221. -/
def sampleSingletonRace : Cron :=
  (checkEntryResume sampleDeps
    (Stop (checkEntries sampleDeps sampleSingleton 1) ["b"], []) ("b", 0)).1

/-- The manager of `sampleOverlap` ("a" registered for two runs, one invocation running)
after this execution: the job returns and the deferred function reads the status at line
237, then a second pass runs, then the deferred function goes on from line 238. -/
def sampleUndone : Cron :=
  completeAct (checkEntries sampleDeps sampleOverlap 2) ⟨0, 1⟩ (sampleOverlap.heap 0).status

/-- The call `AddTimes(pattern, 2, job, "x")` on a new manager with a pass at the instant 1
between its call of `Add` (line 87) and its call of `SetTimes` (line 90). -/
def sampleLateCount : Cron :=
  (checkEntries sampleDeps sampleNamed 1).modify 0 (fun e => e.SetTimes 2)

/-! ## Registration -/

/-- C1: `Add` with an explicit name that is already registered returns the duplicate-name
error and no entry and leaves the manager as it was (so `Size` and every `Search` are
unchanged); on a new manager the second `Add` under the same explicit name fails and
`Size` stays 1. -/
theorem Add_registered_name_rejected (d : Deps) :
    (∀ (c : Cron) (now : Nat) (pattern : String) (job : Nat) (name : String)
        (rest : List String), Search c name ≠ none →
        Add d c now pattern job (name :: rest) = (.error (.alreadyExists name), c) ∧
        Size (Add d c now pattern job (name :: rest)).2 = Size c ∧
        Search (Add d c now pattern job (name :: rest)).2 name = Search c name ∧
        (Add d c now pattern job (name :: rest)).2.heap = c.heap) ∧
    (∀ (now1 now2 : Nat) (p1 p2 : String) (j1 j2 : Nat) (name : String),
        d.newSchedule p1 = true →
        (Add d New now1 p1 j1 [name]).1 = .ok 0 ∧
        Size (Add d New now1 p1 j1 [name]).2 = 1 ∧
        (Add d (Add d New now1 p1 j1 [name]).2 now2 p2 j2 [name]).1
          = .error (.alreadyExists name) ∧
        Size (Add d (Add d New now1 p1 j1 [name]).2 now2 p2 j2 [name]).2 = 1) := by
  have general : ∀ (c : Cron) (now : Nat) (pattern : String) (job : Nat) (name : String)
      (rest : List String), Search c name ≠ none →
      Add d c now pattern job (name :: rest) = (.error (.alreadyExists name), c) := by
    intro c now pattern job name rest h
    have hs : (Search c name).isSome = true := by
      cases hq : Search c name with
      | none => exact absurd hq h
      | some r => rfl
    simp [Add, hs]
  refine ⟨?_, ?_⟩
  · intro c now pattern job name rest h
    rw [general c now pattern job name rest h]
    exact ⟨rfl, rfl, rfl, rfl⟩
  · intro now1 now2 p1 p2 j1 j2 name hp
    have first : Add d New now1 p1 j1 [name]
        = (.ok 0, { New with
            entries := [(name, 0)]
            heap := Function.update New.heap 0
              { schedule := p1, status := STATUS_READY, singleton := false,
                times := d.gDEFAULT_TIMES, Name := name, Job := j1, Time := now1 }
            next := 1 }) := by
      simp [Add, newEntry, hp, New, Search, mapGet, mapSet]
    have reg : Search (Add d New now1 p1 j1 [name]).2 name ≠ none := by
      rw [first]; simp [Search, mapGet]
    rw [general _ now2 p2 j2 name [] reg]
    rw [first]
    simp [Size]

/-- Witness for C1 on the sample manager holding "x". -/
theorem Add_registered_name_rejected_witness :
    Search sampleNamed "x" ≠ none ∧
    Add sampleDeps sampleNamed 1541289601000000000 "* * * * * *" 2 ["x"]
      = (.error (.alreadyExists "x"), sampleNamed) :=
  ⟨by decide,
   ((Add_registered_name_rejected sampleDeps).1 sampleNamed 1541289601000000000
      "* * * * * *" 2 "x" [] (by decide)).1⟩

/-! ## Global status and the tick callback -/

/-- C6: global `Stop()` sets the status to STOPPED, and a following global `Start()` sets
it to READY (0), not RUNNING (1), so the tick callback does not run the dispatcher pass:
a firing of the timer leaves the manager as it is. -/
theorem Start_after_Stop_is_ready_not_running (d : Deps) (c : Cron) (now : Nat)
    (exitReturns : Bool) :
    (Stop c []).status = STATUS_STOPPED ∧
    (Start (Stop c []) []).status = STATUS_READY ∧
    (Start (Stop c []) []).status ≠ STATUS_RUNNING ∧
    (tickCallback exitReturns (Start (Stop c []) []).status
      (Start (Stop c []) []).status).dispatched = false ∧
    tick d (Start (Stop c []) []) now = Start (Stop c []) [] := by
  simp [Stop, Start, tickCallback, tick]

/-- C7: the tick callback starts the dispatcher pass exactly when the status it observes
is RUNNING and requests `gtimer.Exit` exactly when it is CLOSED; after `Close()` it
exits and a firing launches nothing, and on STOPPED it neither dispatches nor exits. -/
theorem tickCallback_gate (d : Deps) (c : Cron) (now : Nat) (exitReturns : Bool)
    (status status2 : Int) :
    ((tickCallback exitReturns status status).dispatched = true ↔ status = STATUS_RUNNING) ∧
    ((tickCallback exitReturns status status2).exit = true ↔ status = STATUS_CLOSED) ∧
    ((tickCallback exitReturns status status2).dispatched = true → status2 = STATUS_RUNNING) ∧
    tickCallback exitReturns (Close c).status (Close c).status
      = { exit := true, dispatched := false } ∧
    tick d (Close c) now = Close c ∧
    tickCallback exitReturns STATUS_STOPPED STATUS_STOPPED
      = { exit := false, dispatched := false } ∧
    tick d (Stop c []) now = Stop c [] ∧
    (c.status = STATUS_RUNNING → tick d c now = checkEntries d c now) := by
  refine ⟨?_, ?_, ?_, ?_, ?_, ?_, ?_, ?_⟩
  · unfold tickCallback
    by_cases h : status = STATUS_CLOSED
    · subst h; cases exitReturns <;> simp [STATUS_CLOSED, STATUS_RUNNING]
    · simp [h]
  · unfold tickCallback
    by_cases h : status = STATUS_CLOSED
    · cases exitReturns <;> simp [h]
    · simp [h]
  · unfold tickCallback
    by_cases h : status = STATUS_CLOSED
    · cases exitReturns <;> simp [h]
    · simp [h]
  · cases exitReturns <;> simp [tickCallback, Close, STATUS_CLOSED, STATUS_RUNNING]
  · simp [tick, tickCallback, Close]
  · cases exitReturns <;> simp [tickCallback, STATUS_CLOSED, STATUS_STOPPED]
  · simp [tick, tickCallback, Stop, STATUS_CLOSED, STATUS_STOPPED, STATUS_RUNNING]
  · intro h
    simp [tick, tickCallback, h, STATUS_CLOSED, STATUS_RUNNING]

/-- Witness for C7: a new manager is RUNNING, so a firing of the timer is a pass. -/
theorem tickCallback_gate_witness :
    New.status = STATUS_RUNNING ∧
    tick sampleDeps New 1541289601000000000 = checkEntries sampleDeps New 1541289601000000000 :=
  ⟨rfl,
   (tickCallback_gate sampleDeps New 1541289601000000000 false STATUS_RUNNING
      STATUS_RUNNING).2.2.2.2.2.2.2 rfl⟩

/-! ## The ordered listing -/

/-- C8: on a manager whose first entry was registered at 1541289600.9 s and whose second
entry 0.2 s later, `Entries` lists the second entry (address 1) before the first (address
0), in both iteration orders of the map: the comparator reads `Time.Nanosecond()`. -/
theorem Entries_orders_by_nanosecond_offset :
    Entries sampleTwo = [1, 0] ∧
    Entries { sampleTwo with entries := sampleTwo.entries.reverse } = [1, 0] ∧
    (sampleTwo.heap 0).Time = 1541289600900000000 ∧
    (sampleTwo.heap 1).Time = 1541289601100000000 ∧
    (sampleTwo.heap 0).Time < (sampleTwo.heap 1).Time := by
  decide

/-! ## Deferred registration -/

/-- C9 fails as stated: on the sample manager, where "x" is registered, the `Add` of "x"
deferred by five seconds fails and each of the four callbacks panics. -/
theorem Delay_callbacks_panic_on_duplicate :
    (Add sampleDeps sampleNamed 1541289605000000000 "* * * * * *" 2 ["x"]).1
      = .error (.alreadyExists "x") ∧
    (DelayAdd sampleDeps 5 "* * * * * *" 2 ["x"]).callback sampleNamed 1541289605000000000
      = .panicked (.alreadyExists "x") ∧
    (DelayAddSingleton sampleDeps 5 "* * * * * *" 2 ["x"]).callback sampleNamed
        1541289605000000000
      = .panicked (.alreadyExists "x") ∧
    (DelayAddOnce sampleDeps 5 "* * * * * *" 2 ["x"]).callback sampleNamed
        1541289605000000000
      = .panicked (.alreadyExists "x") ∧
    (DelayAddTimes sampleDeps 5 "* * * * * *" 3 2 ["x"]).callback sampleNamed
        1541289605000000000
      = .panicked (.alreadyExists "x") := by
  refine ⟨?_, ?_, ?_, ?_, ?_⟩ <;> rfl

/-- C9, amended: when the deferred `Add` fails with `err`, each of the four callbacks
panics with `err`; when it succeeds, each returns normally with the manager its `Add*`
call leaves. -/
theorem Delay_callbacks_panic_or_return (d : Deps) (c : Cron) (delay : Int) (now : Nat)
    (pattern : String) (times : Int) (job : Nat) (name : List String) :
    (∀ err, (Add d c now pattern job name).1 = .error err →
      (DelayAdd d delay pattern job name).callback c now = .panicked err ∧
      (DelayAddSingleton d delay pattern job name).callback c now = .panicked err ∧
      (DelayAddOnce d delay pattern job name).callback c now = .panicked err ∧
      (DelayAddTimes d delay pattern times job name).callback c now = .panicked err) ∧
    (∀ r, (Add d c now pattern job name).1 = .ok r →
      (DelayAdd d delay pattern job name).callback c now
        = .returned (Add d c now pattern job name).2 ∧
      (DelayAddSingleton d delay pattern job name).callback c now
        = .returned (AddSingleton d c now pattern job name).2 ∧
      (DelayAddOnce d delay pattern job name).callback c now
        = .returned (AddOnce d c now pattern job name).2 ∧
      (DelayAddTimes d delay pattern times job name).callback c now
        = .returned (AddTimes d c now pattern times job name).2) := by
  constructor
  · intro err h
    rcases hA : Add d c now pattern job name with ⟨res, c1⟩
    rw [hA] at h
    simp only at h
    subst h
    simp [DelayAdd, DelayAddSingleton, DelayAddOnce, DelayAddTimes, AddSingleton, AddOnce,
      AddTimes, hA]
  · intro r h
    rcases hA : Add d c now pattern job name with ⟨res, c1⟩
    rw [hA] at h
    simp only at h
    subst h
    simp [DelayAdd, DelayAddSingleton, DelayAddOnce, DelayAddTimes, AddSingleton, AddOnce,
      AddTimes, hA]

/-- Witness for the amended C9 on the sample manager holding "x". -/
theorem Delay_callbacks_panic_or_return_witness :
    (Add sampleDeps sampleNamed 1541289605000000000 "* * * * * *" 2 ["x"]).1
      = .error (.alreadyExists "x") ∧
    (DelayAdd sampleDeps 5 "* * * * * *" 2 ["x"]).callback sampleNamed 1541289605000000000
      = .panicked (.alreadyExists "x") :=
  ⟨by rfl,
   ((Delay_callbacks_panic_or_return sampleDeps sampleNamed 5 1541289605000000000
      "* * * * * *" 3 2 ["x"]).1 (.alreadyExists "x") (by rfl)).1⟩

/-! ## One iteration of the scan -/

theorem checkEntry_heap (d : Deps) (t : Nat) (acc : Cron × List String) (kv : String × Ref) :
    (checkEntry d t acc kv).1.heap
      = Function.update acc.1.heap kv.2 (dispatch d t (acc.1.heap kv.2)).1 := by
  unfold checkEntry
  rcases h : dispatch d t (acc.1.heap kv.2) with ⟨e, v⟩
  cases v <;> simp [Cron.launch]

theorem checkEntry_fields (d : Deps) (t : Nat) (acc : Cron × List String) (kv : String × Ref) :
    (checkEntry d t acc kv).1.entries = acc.1.entries ∧
    (checkEntry d t acc kv).1.idgen = acc.1.idgen ∧
    (checkEntry d t acc kv).1.status = acc.1.status ∧
    (checkEntry d t acc kv).1.next = acc.1.next := by
  unfold checkEntry
  rcases h : dispatch d t (acc.1.heap kv.2) with ⟨e, v⟩
  cases v <;> simp [Cron.launch]

theorem checkEntry_launched (d : Deps) (t : Nat) (acc : Cron × List String) (kv : String × Ref) :
    (checkEntry d t acc kv).1.launched
      = if (dispatch d t (acc.1.heap kv.2)).2 = .launch then acc.1.launched ++ [kv.2]
        else acc.1.launched := by
  unfold checkEntry
  rcases h : dispatch d t (acc.1.heap kv.2) with ⟨e, v⟩
  cases v <;> simp [Cron.launch]

theorem checkEntry_running (d : Deps) (t : Nat) (acc : Cron × List String) (kv : String × Ref) :
    (checkEntry d t acc kv).1.running
      = if (dispatch d t (acc.1.heap kv.2)).2 = .launch then
          acc.1.running ++ [⟨kv.2, acc.1.launched.count kv.2 + 1⟩]
        else acc.1.running := by
  unfold checkEntry
  rcases h : dispatch d t (acc.1.heap kv.2) with ⟨e, v⟩
  cases v <;> simp [Cron.launch]

theorem checkEntry_removeKeys (d : Deps) (t : Nat) (acc : Cron × List String)
    (kv : String × Ref) :
    (checkEntry d t acc kv).2
      = if (dispatch d t (acc.1.heap kv.2)).2 = .remove then acc.2 ++ [kv.1] else acc.2 := by
  unfold checkEntry
  rcases h : dispatch d t (acc.1.heap kv.2) with ⟨e, v⟩
  cases v <;> simp [Cron.launch]

/-! ## The scan -/

theorem scan_nil (d : Deps) (t : Nat) (acc : Cron × List String) : scan d t [] acc = acc := rfl

theorem scan_cons (d : Deps) (t : Nat) (kv : String × Ref) (l : List (String × Ref))
    (acc : Cron × List String) :
    scan d t (kv :: l) acc = scan d t l (checkEntry d t acc kv) := rfl

theorem scan_fields (d : Deps) (t : Nat) (l : List (String × Ref)) (acc : Cron × List String) :
    (scan d t l acc).1.entries = acc.1.entries ∧
    (scan d t l acc).1.idgen = acc.1.idgen ∧
    (scan d t l acc).1.status = acc.1.status ∧
    (scan d t l acc).1.next = acc.1.next := by
  induction l generalizing acc with
  | nil => simp [scan_nil]
  | cons kv l ih =>
    rw [scan_cons]
    obtain ⟨h1, h2, h3, h4⟩ := ih (checkEntry d t acc kv)
    obtain ⟨g1, g2, g3, g4⟩ := checkEntry_fields d t acc kv
    exact ⟨h1.trans g1, h2.trans g2, h3.trans g3, h4.trans g4⟩

/-- After the scan of a list without repeated addresses, every scanned entry is what the
loop body makes of it and every other object is untouched. -/
theorem scan_heap (d : Deps) (t : Nat) (l : List (String × Ref)) (acc : Cron × List String)
    (hnd : (l.map Prod.snd).Nodup) (r : Ref) :
    (scan d t l acc).1.heap r
      = if r ∈ l.map Prod.snd then (dispatch d t (acc.1.heap r)).1 else acc.1.heap r := by
  induction l generalizing acc with
  | nil => simp [scan_nil]
  | cons kv l ih =>
    rw [scan_cons]
    simp only [List.map_cons, List.nodup_cons] at hnd
    rw [ih _ hnd.2, checkEntry_heap]
    by_cases hr : r = kv.2
    · subst hr
      simp [hnd.1]
    · rw [Function.update_noteq hr]
      simp only [List.map_cons, List.mem_cons, hr, false_or]

/-- A property of entry objects that the loop body keeps is kept by the scan. -/
theorem scan_stable (d : Deps) (t : Nat) (P : Entry → Prop)
    (hP : ∀ e, P e → P (dispatch d t e).1) (l : List (String × Ref))
    (acc : Cron × List String) (r : Ref) (h : P (acc.1.heap r)) :
    P ((scan d t l acc).1.heap r) := by
  induction l generalizing acc with
  | nil => simpa [scan_nil] using h
  | cons kv l ih =>
    rw [scan_cons]
    apply ih
    rw [checkEntry_heap]
    by_cases hr : r = kv.2
    · subst hr
      simpa using hP _ h
    · simpa [Function.update_apply, hr] using h

theorem scan_launched_count (d : Deps) (t : Nat) (l : List (String × Ref))
    (acc : Cron × List String) (hnd : (l.map Prod.snd).Nodup) (r : Ref) :
    (scan d t l acc).1.launched.count r
      = acc.1.launched.count r
        + if r ∈ l.map Prod.snd ∧ (dispatch d t (acc.1.heap r)).2 = .launch then 1 else 0 := by
  induction l generalizing acc with
  | nil => simp [scan_nil]
  | cons kv l ih =>
    rw [scan_cons]
    simp only [List.map_cons, List.nodup_cons] at hnd
    rw [ih _ hnd.2, checkEntry_heap, checkEntry_launched]
    by_cases hr : r = kv.2
    · subst hr
      by_cases hv : (dispatch d t (acc.1.heap kv.2)).2 = .launch
      · simp [hnd.1, hv]
      · simp [hnd.1, hv]
    · have hr2 : ¬ kv.2 = r := fun h => hr h.symm
      rw [Function.update_noteq hr]
      simp only [List.map_cons, List.mem_cons, hr, false_or]
      by_cases hv : (dispatch d t (acc.1.heap kv.2)).2 = .launch
      · simp [hr2, hv, List.count_append, List.count_singleton]
      · simp [hv]

theorem scan_inflight (d : Deps) (t : Nat) (l : List (String × Ref))
    (acc : Cron × List String) (hnd : (l.map Prod.snd).Nodup) (r : Ref) :
    inflight (scan d t l acc).1 r
      = inflight acc.1 r
        + if r ∈ l.map Prod.snd ∧ (dispatch d t (acc.1.heap r)).2 = .launch then 1 else 0 := by
  induction l generalizing acc with
  | nil => simp [scan_nil]
  | cons kv l ih =>
    rw [scan_cons]
    simp only [List.map_cons, List.nodup_cons] at hnd
    rw [ih _ hnd.2, checkEntry_heap]
    unfold inflight
    rw [checkEntry_running]
    by_cases hr : r = kv.2
    · subst hr
      by_cases hv : (dispatch d t (acc.1.heap kv.2)).2 = .launch
      · simp [hnd.1, hv, List.countP_append, List.countP_cons]
      · simp [hnd.1, hv]
    · have hr2 : ¬ kv.2 = r := fun h => hr h.symm
      rw [Function.update_noteq hr]
      simp only [List.map_cons, List.mem_cons, hr, false_or]
      by_cases hv : (dispatch d t (acc.1.heap kv.2)).2 = .launch
      · simp [hr2, hv, List.countP_append, List.countP_cons]
      · simp [hv]

theorem scan_running_mono (d : Deps) (t : Nat) (l : List (String × Ref))
    (acc : Cron × List String) (inv : Invocation) (h : inv ∈ acc.1.running) :
    inv ∈ (scan d t l acc).1.running := by
  induction l generalizing acc with
  | nil => simpa [scan_nil] using h
  | cons kv l ih =>
    rw [scan_cons]
    apply ih
    rw [checkEntry_running]
    split
    · exact List.mem_append_left _ h
    · exact h

theorem scan_running_origin (d : Deps) (t : Nat) (l : List (String × Ref))
    (acc : Cron × List String) (inv : Invocation) (h : inv ∈ (scan d t l acc).1.running) :
    inv ∈ acc.1.running ∨ inv.entry ∈ l.map Prod.snd := by
  induction l generalizing acc with
  | nil => exact Or.inl (by simpa [scan_nil] using h)
  | cons kv l ih =>
    rw [scan_cons] at h
    rcases ih _ h with h1 | h1
    · rw [checkEntry_running] at h1
      split at h1
      · rcases List.mem_append.1 h1 with h2 | h2
        · exact Or.inl h2
        · right
          simp only [List.mem_singleton] at h2
          simp [h2]
      · exact Or.inl h1
    · right
      simp [h1]

theorem scan_launched_origin (d : Deps) (t : Nat) (l : List (String × Ref))
    (acc : Cron × List String) (r : Ref) (h : r ∈ (scan d t l acc).1.launched) :
    r ∈ acc.1.launched ∨ r ∈ l.map Prod.snd := by
  induction l generalizing acc with
  | nil => exact Or.inl (by simpa [scan_nil] using h)
  | cons kv l ih =>
    rw [scan_cons] at h
    rcases ih _ h with h1 | h1
    · rw [checkEntry_launched] at h1
      split at h1
      · rcases List.mem_append.1 h1 with h2 | h2
        · exact Or.inl h2
        · right
          simp only [List.mem_singleton] at h2
          simp [h2]
      · exact Or.inl h1
    · right
      simp [h1]

/-- The goroutine the scan launches for an entry carries the next ordinal of that entry. -/
theorem scan_running_new (d : Deps) (t : Nat) (l : List (String × Ref))
    (acc : Cron × List String) (hnd : (l.map Prod.snd).Nodup) (r : Ref)
    (hr : r ∈ l.map Prod.snd) (hv : (dispatch d t (acc.1.heap r)).2 = .launch) :
    (⟨r, acc.1.launched.count r + 1⟩ : Invocation) ∈ (scan d t l acc).1.running := by
  induction l generalizing acc with
  | nil => simp at hr
  | cons kv l ih =>
    rw [scan_cons]
    simp only [List.map_cons, List.nodup_cons] at hnd
    by_cases hk : r = kv.2
    · subst hk
      apply scan_running_mono
      rw [checkEntry_running]
      simp [hv]
    · have hr1 : r ∈ l.map Prod.snd := by
        simp only [List.map_cons, List.mem_cons] at hr
        rcases hr with hr | hr
        · exact absurd hr hk
        · exact hr
      have hk2 : ¬ kv.2 = r := fun h => hk h.symm
      have hheap : (checkEntry d t acc kv).1.heap r = acc.1.heap r := by
        rw [checkEntry_heap, Function.update_noteq hk]
      have hcount : (checkEntry d t acc kv).1.launched.count r = acc.1.launched.count r := by
        rw [checkEntry_launched]
        split
        · simp [List.count_append, List.count_singleton, hk2]
        · rfl
      have := ih (checkEntry d t acc kv) hnd.2 hr1 (by rw [hheap]; exact hv)
      rw [hcount] at this
      exact this

theorem scan_removeKeys (d : Deps) (t : Nat) (l : List (String × Ref))
    (acc : Cron × List String) (hnd : (l.map Prod.snd).Nodup) (k : String) :
    k ∈ (scan d t l acc).2
      ↔ k ∈ acc.2 ∨ ∃ r, (k, r) ∈ l ∧ (dispatch d t (acc.1.heap r)).2 = .remove := by
  induction l generalizing acc with
  | nil => simp [scan_nil]
  | cons kv l ih =>
    rw [scan_cons]
    simp only [List.map_cons, List.nodup_cons] at hnd
    rw [ih _ hnd.2, checkEntry_removeKeys]
    have hheap : ∀ r, (k, r) ∈ l → (checkEntry d t acc kv).1.heap r = acc.1.heap r := by
      intro r hr
      have hne : r ≠ kv.2 := by
        intro h
        apply hnd.1
        rw [← h]
        exact List.mem_map.2 ⟨(k, r), hr, rfl⟩
      rw [checkEntry_heap, Function.update_noteq hne]
    constructor
    · rintro (h | ⟨r, hr, hv⟩)
      · split at h
        · rcases List.mem_append.1 h with h1 | h1
          · exact Or.inl h1
          · simp only [List.mem_singleton] at h1
            rename_i hrem
            exact Or.inr ⟨kv.2, by rw [h1]; exact List.mem_cons_self _ _, hrem⟩
        · exact Or.inl h
      · rw [hheap r hr] at hv
        exact Or.inr ⟨r, List.mem_cons_of_mem _ hr, hv⟩
    · rintro (h | ⟨r, hr, hv⟩)
      · left
        split
        · exact List.mem_append_left _ h
        · exact h
      · rcases List.mem_cons.1 hr with h1 | h1
        · left
          have hk : kv.1 = k := by rw [← h1]
          have hr2 : kv.2 = r := by rw [← h1]
          rw [hr2, if_pos hv]
          simp [hk]
        · right
          exact ⟨r, h1, by rw [hheap r h1]; exact hv⟩

/-! ## The registry -/

theorem mapGet_mem (m : List (String × Ref)) (k : String) (r : Ref) (h : mapGet m k = some r) :
    (k, r) ∈ m := by
  unfold mapGet at h
  rcases hf : m.find? (fun kv => decide (kv.1 = k)) with _ | kv
  · rw [hf] at h; simp at h
  · rw [hf] at h
    simp only [Option.map_some', Option.some.injEq] at h
    have h1 := List.find?_some hf
    have h2 := List.mem_of_find?_eq_some hf
    simp only [decide_eq_true_eq] at h1
    have : kv = (k, r) := by
      rcases kv with ⟨a, b⟩
      simp only at h1 h
      rw [h1, h]
    rw [← this]
    exact h2

theorem mapGet_of_mem (m : List (String × Ref)) (hnd : (m.map Prod.fst).Nodup) (k : String)
    (r : Ref) (h : (k, r) ∈ m) : mapGet m k = some r := by
  induction m with
  | nil => simp at h
  | cons kv m ih =>
    simp only [List.map_cons, List.nodup_cons] at hnd
    rcases List.mem_cons.1 h with h1 | h1
    · rw [← h1]
      simp [mapGet]
    · have hne : ¬ kv.1 = k := by
        intro hk
        apply hnd.1
        rw [hk]
        exact List.mem_map.2 ⟨(k, r), h1, rfl⟩
      have := ih hnd.2 h1
      unfold mapGet at this ⊢
      rw [List.find?_cons_of_neg _ (by simpa using hne)]
      exact this

theorem mapGet_none (m : List (String × Ref)) (k : String) :
    mapGet m k = none ↔ k ∉ m.map Prod.fst := by
  induction m with
  | nil => simp [mapGet]
  | cons kv m ih =>
    unfold mapGet at ih ⊢
    by_cases hk : kv.1 = k
    · rw [List.find?_cons_of_pos _ (by simpa using hk)]
      simp [hk]
    · rw [List.find?_cons_of_neg _ (by simpa using hk)]
      rw [ih]
      have hk2 : ¬ k = kv.1 := fun h => hk h.symm
      simp [hk2]

theorem mapGet_filter (p : String → Bool) (m : List (String × Ref)) (k : String) :
    mapGet (m.filter (fun kv => p kv.1)) k = if p k = true then mapGet m k else none := by
  induction m with
  | nil => simp [mapGet]
  | cons kv m ih =>
    unfold mapGet at ih ⊢
    by_cases hp : p kv.1 = true
    · rw [List.filter_cons, if_pos hp]
      by_cases hk : kv.1 = k
      · rw [List.find?_cons_of_pos _ (by simpa using hk),
          List.find?_cons_of_pos _ (by simpa using hk)]
        rw [← hk, if_pos hp]
      · rw [List.find?_cons_of_neg _ (by simpa using hk),
          List.find?_cons_of_neg _ (by simpa using hk)]
        exact ih
    · rw [List.filter_cons, if_neg hp]
      by_cases hk : kv.1 = k
      · rw [List.find?_cons_of_pos _ (by simpa using hk)]
        rw [ih, ← hk, if_neg hp, if_neg hp]
      · rw [List.find?_cons_of_neg _ (by simpa using hk)]
        exact ih

theorem Search_Remove (c : Cron) (name k : String) :
    Search (Remove c name) k = if k = name then none else Search c k := by
  unfold Search Remove mapRemove
  have := mapGet_filter (fun s => decide (s ≠ name)) c.entries k
  simp only [decide_eq_true_eq] at this
  rw [this]
  by_cases h : k = name <;> simp [h]

/-! ## The loop body on one entry -/

theorem dispatch_keeps (d : Deps) (t : Nat) (e : Entry) :
    (dispatch d t e).1.Name = e.Name ∧ (dispatch d t e).1.singleton = e.singleton ∧
    (dispatch d t e).1.schedule = e.schedule ∧ (dispatch d t e).1.Job = e.Job ∧
    (dispatch d t e).1.Time = e.Time := by
  unfold dispatch
  simp only [Entry.IsSingleton]
  split_ifs <;> simp

/-! ## One pass -/

theorem checkEntries_eq (d : Deps) (c : Cron) (t : Nat) :
    checkEntries d c t
      = { (scan d t c.entries (c, [])).1 with
          entries := mapBatchRemove c.entries (scan d t c.entries (c, [])).2 } := by
  have hf := (scan_fields d t c.entries (c, [])).1
  unfold checkEntries
  unfold scan at hf ⊢
  generalize List.foldl (checkEntry d t) (c, []) c.entries = S at hf ⊢
  rcases S with ⟨c1, ks⟩
  simp only at hf
  cases ks with
  | nil =>
    simp only [List.length_nil, lt_self_iff_false, if_false]
    rw [← hf]
    simp [mapBatchRemove]
  | cons a b =>
    simp only [List.length_cons, Nat.zero_lt_succ, if_true]
    rw [hf]

theorem checkEntries_fields (d : Deps) (c : Cron) (t : Nat) :
    (checkEntries d c t).idgen = c.idgen ∧ (checkEntries d c t).status = c.status ∧
    (checkEntries d c t).next = c.next := by
  have hf := scan_fields d t c.entries (c, [])
  rw [checkEntries_eq]
  exact ⟨hf.2.1, hf.2.2.1, hf.2.2.2⟩

theorem checkEntries_heap (d : Deps) (c : Cron) (t : Nat)
    (hnd : (c.entries.map Prod.snd).Nodup) (r : Ref) :
    (checkEntries d c t).heap r
      = if r ∈ c.entries.map Prod.snd then (dispatch d t (c.heap r)).1 else c.heap r := by
  rw [checkEntries_eq]
  exact scan_heap d t c.entries (c, []) hnd r

theorem checkEntries_launches (d : Deps) (c : Cron) (t : Nat)
    (hnd : (c.entries.map Prod.snd).Nodup) (r : Ref) :
    launches (checkEntries d c t) r
      = launches c r
        + if r ∈ c.entries.map Prod.snd ∧ (dispatch d t (c.heap r)).2 = .launch then 1 else 0 := by
  rw [checkEntries_eq]
  exact scan_launched_count d t c.entries (c, []) hnd r

theorem checkEntries_inflight (d : Deps) (c : Cron) (t : Nat)
    (hnd : (c.entries.map Prod.snd).Nodup) (r : Ref) :
    inflight (checkEntries d c t) r
      = inflight c r
        + if r ∈ c.entries.map Prod.snd ∧ (dispatch d t (c.heap r)).2 = .launch then 1 else 0 := by
  rw [checkEntries_eq]
  exact scan_inflight d t c.entries (c, []) hnd r

theorem checkEntries_running_mono (d : Deps) (c : Cron) (t : Nat) (inv : Invocation)
    (h : inv ∈ c.running) : inv ∈ (checkEntries d c t).running := by
  rw [checkEntries_eq]
  exact scan_running_mono d t c.entries (c, []) inv h

theorem checkEntries_running_origin (d : Deps) (c : Cron) (t : Nat) (inv : Invocation)
    (h : inv ∈ (checkEntries d c t).running) :
    inv ∈ c.running ∨ inv.entry ∈ c.entries.map Prod.snd := by
  rw [checkEntries_eq] at h
  exact scan_running_origin d t c.entries (c, []) inv h

theorem checkEntries_launched_origin (d : Deps) (c : Cron) (t : Nat) (r : Ref)
    (h : r ∈ (checkEntries d c t).launched) :
    r ∈ c.launched ∨ r ∈ c.entries.map Prod.snd := by
  rw [checkEntries_eq] at h
  exact scan_launched_origin d t c.entries (c, []) r h

theorem checkEntries_running_new (d : Deps) (c : Cron) (t : Nat)
    (hnd : (c.entries.map Prod.snd).Nodup) (r : Ref) (hr : r ∈ c.entries.map Prod.snd)
    (hv : (dispatch d t (c.heap r)).2 = .launch) :
    (⟨r, launches c r + 1⟩ : Invocation) ∈ (checkEntries d c t).running := by
  rw [checkEntries_eq]
  exact scan_running_new d t c.entries (c, []) hnd r hr hv

theorem checkEntries_entries (d : Deps) (c : Cron) (t : Nat) :
    (checkEntries d c t).entries
      = c.entries.filter (fun kv => decide (kv.1 ∉ (scan d t c.entries (c, [])).2)) := by
  rw [checkEntries_eq]
  rfl

/-- After a pass over a well-formed registry, a name is found exactly when it was found
before and the loop body did not put it on `removeKeys`. -/
theorem checkEntries_Search (d : Deps) (c : Cron) (t : Nat) (hwf : WF c) (k : String) :
    Search (checkEntries d c t) k
      = match Search c k with
        | some r => if (dispatch d t (c.heap r)).2 = .remove then none else some r
        | none => none := by
  unfold Search
  rw [checkEntries_entries]
  have hfil := mapGet_filter
    (fun s => decide (s ∉ (scan d t c.entries (c, [])).2)) c.entries k
  rw [hfil]
  cases hs : mapGet c.entries k with
  | none => simp
  | some r =>
    have hmem := mapGet_mem _ _ _ hs
    have hrem := scan_removeKeys d t c.entries (c, []) hwf.refs k
    simp only [List.not_mem_nil, false_or] at hrem
    have hiff : k ∈ (scan d t c.entries (c, [])).2 ↔ (dispatch d t (c.heap r)).2 = .remove := by
      rw [hrem]
      constructor
      · rintro ⟨r1, hr1, hv⟩
        have := mapGet_of_mem _ hwf.keys _ _ hr1
        rw [hs] at this
        simp only [Option.some.injEq] at this
        rw [this]; exact hv
      · intro hv
        exact ⟨r, hmem, hv⟩
    by_cases hv : (dispatch d t (c.heap r)).2 = .remove
    · simp [hv, hiff.2 hv]
    · have : k ∉ (scan d t c.entries (c, [])).2 := fun h => hv (hiff.1 h)
      simp [hv, this]

/-! ## Well-formedness is kept by every step -/

theorem WF_New : WF New := by
  constructor <;> simp [New]

theorem WF_modify (c : Cron) (r : Ref) (f : Entry → Entry) (hf : ∀ e, (f e).Name = e.Name)
    (h : WF c) : WF (c.modify r f) := by
  refine ⟨h.keys, h.refs, h.alloc, ?_, h.goroutines, h.logged⟩
  intro kv hkv
  show (Function.update c.heap r (f (c.heap r)) kv.2).Name = kv.1
  by_cases hr : kv.2 = r
  · rw [hr, Function.update_same, hf]
    rw [← hr]
    exact h.named kv hkv
  · rw [Function.update_noteq hr]
    exact h.named kv hkv

theorem WF_filter (c : Cron) (p : String × Ref → Bool) (h : WF c) :
    WF { c with entries := c.entries.filter p } := by
  refine ⟨?_, ?_, ?_, ?_, h.goroutines, h.logged⟩
  · exact List.Nodup.sublist (List.Sublist.map _ (List.filter_sublist _)) h.keys
  · exact List.Nodup.sublist (List.Sublist.map _ (List.filter_sublist _)) h.refs
  · intro kv hkv
    exact h.alloc kv (List.mem_of_mem_filter hkv)
  · intro kv hkv
    exact h.named kv (List.mem_of_mem_filter hkv)

theorem WF_Remove (c : Cron) (name : String) (h : WF c) : WF (Remove c name) :=
  WF_filter c _ h

theorem WF_Close (c : Cron) (h : WF c) : WF (Close c) :=
  ⟨h.keys, h.refs, h.alloc, h.named, h.goroutines, h.logged⟩

theorem WF_checkEntries (d : Deps) (c : Cron) (t : Nat) (h : WF c) :
    WF (checkEntries d c t) := by
  have hnext := (checkEntries_fields d c t).2.2
  have hent := checkEntries_entries d c t
  refine ⟨?_, ?_, ?_, ?_, ?_, ?_⟩
  · rw [hent]
    exact List.Nodup.sublist (List.Sublist.map _ (List.filter_sublist _)) h.keys
  · rw [hent]
    exact List.Nodup.sublist (List.Sublist.map _ (List.filter_sublist _)) h.refs
  · intro kv hkv
    rw [hent] at hkv
    rw [hnext]
    exact h.alloc kv (List.mem_of_mem_filter hkv)
  · intro kv hkv
    rw [hent] at hkv
    have hmem := List.mem_of_mem_filter hkv
    rw [checkEntries_heap d c t h.refs]
    split
    · rw [(dispatch_keeps d t _).1]
      exact h.named kv hmem
    · exact h.named kv hmem
  · intro inv hinv
    rw [hnext]
    rcases checkEntries_running_origin d c t inv hinv with h1 | h1
    · exact h.goroutines inv h1
    · obtain ⟨kv, hkv, hk⟩ := List.mem_map.1 h1
      rw [← hk]
      exact h.alloc kv hkv
  · intro r hr
    rw [hnext]
    rcases checkEntries_launched_origin d c t r hr with h1 | h1
    · exact h.logged r h1
    · obtain ⟨kv, hkv, hk⟩ := List.mem_map.1 h1
      rw [← hk]
      exact h.alloc kv hkv

theorem WF_tick (d : Deps) (c : Cron) (now : Nat) (h : WF c) : WF (tick d c now) := by
  unfold tick
  split
  · exact WF_checkEntries d c now h
  · exact h

theorem WF_erase (c : Cron) (inv : Invocation) (h : WF c) :
    WF { c with running := c.running.erase inv } :=
  ⟨h.keys, h.refs, h.alloc, h.named,
    fun i hi => h.goroutines i (List.mem_of_mem_erase hi), h.logged⟩

theorem WF_completion (c : Cron) (r : Ref) (h : WF c) : WF (completion c r) := by
  unfold completion
  split
  · exact WF_Remove c _ h
  · split
    · exact h
    · exact WF_modify c r _ (fun e => rfl) h

theorem WF_complete (c : Cron) (inv : Invocation) (h : WF c) : WF (complete c inv) := by
  unfold complete
  split
  · exact WF_completion _ _ (WF_erase c inv h)
  · exact h

theorem forNamed_nil (c : Cron) (f : Entry → Entry) : forNamed c [] f = c := rfl

theorem forNamed_cons (c : Cron) (v : String) (name : List String) (f : Entry → Entry) :
    forNamed c (v :: name) f
      = forNamed (match Search c v with
          | some entry => c.modify entry f
          | none => c) name f := rfl

theorem WF_forNamed (c : Cron) (name : List String) (f : Entry → Entry)
    (hf : ∀ e, (f e).Name = e.Name) (h : WF c) : WF (forNamed c name f) := by
  induction name generalizing c with
  | nil => exact h
  | cons v name ih =>
    rw [forNamed_cons]
    apply ih
    split
    · exact WF_modify c _ _ hf h
    · exact h

theorem WF_Start (c : Cron) (name : List String) (h : WF c) : WF (Start c name) := by
  unfold Start
  split
  · exact WF_forNamed c name _ (fun e => rfl) h
  · exact ⟨h.keys, h.refs, h.alloc, h.named, h.goroutines, h.logged⟩

theorem WF_Stop (c : Cron) (name : List String) (h : WF c) : WF (Stop c name) := by
  unfold Stop
  split
  · exact WF_forNamed c name _ (fun e => rfl) h
  · exact ⟨h.keys, h.refs, h.alloc, h.named, h.goroutines, h.logged⟩

/-- The two ways `Add` ends: with an error and the manager as it was, or with the new
entry object at the allocation pointer, stored under its name. -/
theorem Add_cases (d : Deps) (c : Cron) (now : Nat) (pattern : String) (job : Nat)
    (name : List String) :
    (∃ err, Add d c now pattern job name = (.error err, c)) ∨
    (∃ nm, Add d c now pattern job name
        = (.ok c.next,
            { c with
              idgen := if 0 < name.length then c.idgen else wrapInt (c.idgen + 1)
              entries := mapSet c.entries nm c.next
              heap := Function.update c.heap c.next
                { schedule := pattern, status := STATUS_READY, singleton := false,
                  times := d.gDEFAULT_TIMES, Name := nm, Job := job, Time := now }
              next := c.next + 1 }) ∧
      nm = (if 0 < name.length then name.headD "" else Itoa (wrapInt (c.idgen + 1))) ∧
      d.newSchedule pattern = true ∧
      ¬ (0 < name.length ∧ (Search c (name.headD "")).isSome = true)) := by
  unfold Add
  split
  · exact Or.inl ⟨_, rfl⟩
  · rename_i hdup
    unfold newEntry
    by_cases hp : d.newSchedule pattern = true
    · right
      refine ⟨_, ?_, rfl, hp, hdup⟩
      by_cases hn : 0 < name.length <;> simp [hp, hn]
    · left
      simp only [hp]
      exact ⟨_, rfl⟩

theorem WF_Add (d : Deps) (c : Cron) (now : Nat) (pattern : String) (job : Nat)
    (name : List String) (h : WF c) : WF (Add d c now pattern job name).2 := by
  rcases Add_cases d c now pattern job name with ⟨err, he⟩ | ⟨nm, he, -, -, -⟩
  · rw [he]; exact h
  · rw [he]
    have hsub : (c.entries.filter (fun kv => decide (kv.1 ≠ nm))).Sublist c.entries :=
      List.filter_sublist _
    refine ⟨?_, ?_, ?_, ?_, ?_, ?_⟩
    · show ((mapSet c.entries nm c.next).map Prod.fst).Nodup
      unfold mapSet
      rw [List.map_cons, List.nodup_cons]
      refine ⟨?_, List.Nodup.sublist (List.Sublist.map _ hsub) h.keys⟩
      intro hmem
      obtain ⟨kv, hkv, hk⟩ := List.mem_map.1 hmem
      have := (List.mem_filter.1 hkv).2
      simp only [ne_eq, decide_not, Bool.not_eq_true', decide_eq_false_iff_not] at this
      exact this hk
    · show ((mapSet c.entries nm c.next).map Prod.snd).Nodup
      unfold mapSet
      rw [List.map_cons, List.nodup_cons]
      refine ⟨?_, List.Nodup.sublist (List.Sublist.map _ hsub) h.refs⟩
      intro hmem
      obtain ⟨kv, hkv, hk⟩ := List.mem_map.1 hmem
      have := h.alloc kv (List.mem_of_mem_filter hkv)
      simp only at hk
      rw [hk] at this
      exact Nat.lt_irrefl _ this
    · intro kv hkv
      show kv.2 < c.next + 1
      change kv ∈ mapSet c.entries nm c.next at hkv
      unfold mapSet at hkv
      rcases List.mem_cons.1 hkv with h1 | h1
      · rw [h1]; exact Nat.lt_succ_self _
      · exact Nat.lt_succ_of_lt (h.alloc kv (List.mem_of_mem_filter h1))
    · intro kv hkv
      change kv ∈ mapSet c.entries nm c.next at hkv
      show (Function.update c.heap c.next _ kv.2).Name = kv.1
      unfold mapSet at hkv
      rcases List.mem_cons.1 hkv with h1 | h1
      · rw [h1]; simp
      · have hlt := h.alloc kv (List.mem_of_mem_filter h1)
        have hne : kv.2 ≠ c.next := Nat.ne_of_lt hlt
        rw [Function.update_noteq hne]
        exact h.named kv (List.mem_of_mem_filter h1)
    · intro inv hinv
      exact Nat.lt_succ_of_lt (h.goroutines inv hinv)
    · intro r hr
      exact Nat.lt_succ_of_lt (h.logged r hr)

theorem WF_AddSingleton (d : Deps) (c : Cron) (now : Nat) (pattern : String) (job : Nat)
    (name : List String) (h : WF c) : WF (AddSingleton d c now pattern job name).2 := by
  have hA := WF_Add d c now pattern job name h
  unfold AddSingleton
  rcases hq : Add d c now pattern job name with ⟨res, c1⟩
  rw [hq] at hA
  cases res with
  | error err => exact hA
  | ok r => exact WF_modify c1 r (fun e => e.SetSingleton true) (fun e => rfl) hA

theorem WF_AddOnce (d : Deps) (c : Cron) (now : Nat) (pattern : String) (job : Nat)
    (name : List String) (h : WF c) : WF (AddOnce d c now pattern job name).2 := by
  have hA := WF_Add d c now pattern job name h
  unfold AddOnce
  rcases hq : Add d c now pattern job name with ⟨res, c1⟩
  rw [hq] at hA
  cases res with
  | error err => exact hA
  | ok r => exact WF_modify c1 r (fun e => e.SetTimes 1) (fun e => rfl) hA

theorem WF_AddTimes (d : Deps) (c : Cron) (now : Nat) (pattern : String) (times : Int)
    (job : Nat) (name : List String) (h : WF c) :
    WF (AddTimes d c now pattern times job name).2 := by
  have hA := WF_Add d c now pattern job name h
  unfold AddTimes
  rcases hq : Add d c now pattern job name with ⟨res, c1⟩
  rw [hq] at hA
  cases res with
  | error err => exact hA
  | ok r => exact WF_modify c1 r (fun e => e.SetTimes times) (fun e => rfl) hA

theorem WF_step (d : Deps) (c : Cron) (s : Step) (h : WF c) : WF (step d c s) := by
  cases s with
  | check t => exact WF_checkEntries d c t h
  | timer now => exact WF_tick d c now h
  | complete inv => exact WF_complete c inv h
  | start name => exact WF_Start c name h
  | stop name => exact WF_Stop c name h
  | close => exact WF_Close c h
  | remove name => exact WF_Remove c name h
  | add now pattern job name => exact WF_Add d c now pattern job name h
  | addSingleton now pattern job name => exact WF_AddSingleton d c now pattern job name h
  | addOnce now pattern job name => exact WF_AddOnce d c now pattern job name h
  | addTimes now pattern times job name => exact WF_AddTimes d c now pattern times job name h

theorem run_nil (d : Deps) (c : Cron) : run d c [] = c := rfl

theorem run_cons (d : Deps) (c : Cron) (s : Step) (steps : List Step) :
    run d c (s :: steps) = run d (step d c s) steps := rfl

theorem run_append (d : Deps) (c : Cron) (l1 l2 : List Step) :
    run d c (l1 ++ l2) = run d (run d c l1) l2 := by
  unfold run
  rw [List.foldl_append]

theorem WF_run (d : Deps) (c : Cron) (steps : List Step) (h : WF c) : WF (run d c steps) := by
  induction steps generalizing c with
  | nil => exact h
  | cons s steps ih =>
    rw [run_cons]
    exact ih _ (WF_step d c s h)

/-! ## What a step does to one entry object -/

theorem forNamed_fields (c : Cron) (name : List String) (f : Entry → Entry) :
    (forNamed c name f).entries = c.entries ∧ (forNamed c name f).idgen = c.idgen ∧
    (forNamed c name f).status = c.status ∧ (forNamed c name f).next = c.next ∧
    (forNamed c name f).running = c.running ∧ (forNamed c name f).launched = c.launched := by
  induction name generalizing c with
  | nil => simp [forNamed_nil]
  | cons v name ih =>
    rw [forNamed_cons]
    cases hs : Search c v with
    | none => exact ih c
    | some e =>
      obtain ⟨h1, h2, h3, h4, h5, h6⟩ := ih (c.modify e f)
      exact ⟨h1, h2, h3, h4, h5, h6⟩

theorem forNamed_stable (P : Entry → Prop) (f : Entry → Entry) (hf : ∀ e, P e → P (f e))
    (c : Cron) (name : List String) (r : Ref) (h : P (c.heap r)) :
    P ((forNamed c name f).heap r) := by
  induction name generalizing c with
  | nil => exact h
  | cons v name ih =>
    rw [forNamed_cons]
    apply ih
    cases hs : Search c v with
    | none => exact h
    | some e =>
      show P (Function.update c.heap e (f (c.heap e)) r)
      by_cases hr : r = e
      · subst hr
        rw [Function.update_same]
        exact hf _ h
      · rw [Function.update_noteq hr]
        exact h

theorem forNamed_heap_miss (c : Cron) (name : List String) (f : Entry → Entry) (r : Ref)
    (hmiss : ∀ v ∈ name, Search c v ≠ some r) : (forNamed c name f).heap r = c.heap r := by
  induction name generalizing c with
  | nil => rfl
  | cons v name ih =>
    rw [forNamed_cons]
    cases hs : Search c v with
    | none =>
      exact ih c (fun w hw => hmiss w (List.mem_cons_of_mem _ hw))
    | some e =>
      have hne : r ≠ e := by
        intro h
        apply hmiss v (List.mem_cons_self _ _)
        rw [hs, h]
      have := ih (c.modify e f) (fun w hw => hmiss w (List.mem_cons_of_mem _ hw))
      rw [this]
      show Function.update c.heap e (f (c.heap e)) r = c.heap r
      rw [Function.update_noteq hne]

theorem completion_heap (c : Cron) (x r : Ref) :
    (completion c x).heap r = if r = x then (c.heap x).finish else c.heap r := by
  unfold completion Entry.finish
  by_cases hr : r = x
  · subst hr
    rw [if_pos rfl]
    split_ifs <;> simp [Remove, Cron.modify]
  · rw [if_neg hr]
    split_ifs <;> simp [Remove, Cron.modify, Function.update_noteq hr]

theorem completion_fields (c : Cron) (x : Ref) :
    (completion c x).idgen = c.idgen ∧ (completion c x).status = c.status ∧
    (completion c x).next = c.next ∧ (completion c x).running = c.running ∧
    (completion c x).launched = c.launched := by
  unfold completion
  split_ifs <;> simp [Remove, Cron.modify]

theorem complete_heap (c : Cron) (inv : Invocation) (r : Ref) :
    (complete c inv).heap r
      = if inv ∈ c.running ∧ r = inv.entry then (c.heap r).finish else c.heap r := by
  unfold complete
  by_cases hin : inv ∈ c.running
  · rw [if_pos hin, completion_heap]
    by_cases hr : r = inv.entry
    · simp [hin, hr]
    · simp [hr]
  · simp [hin]

theorem complete_fields (c : Cron) (inv : Invocation) :
    (complete c inv).idgen = c.idgen ∧ (complete c inv).status = c.status ∧
    (complete c inv).next = c.next ∧ (complete c inv).launched = c.launched := by
  unfold complete
  split
  · obtain ⟨h1, h2, h3, -, h5⟩ := completion_fields { c with running := c.running.erase inv } inv.entry
    exact ⟨h1, h2, h3, h5⟩
  · exact ⟨rfl, rfl, rfl, rfl⟩

theorem Add_old (d : Deps) (c : Cron) (now : Nat) (pattern : String) (job : Nat)
    (name : List String) (r : Ref) (hr : r < c.next) :
    (Add d c now pattern job name).2.heap r = c.heap r ∧
    r < (Add d c now pattern job name).2.next ∧
    (Add d c now pattern job name).2.running = c.running ∧
    (Add d c now pattern job name).2.launched = c.launched := by
  rcases Add_cases d c now pattern job name with ⟨err, he⟩ | ⟨nm, he, -, -, -⟩
  · rw [he]; exact ⟨rfl, hr, rfl, rfl⟩
  · rw [he]
    refine ⟨?_, Nat.lt_succ_of_lt hr, rfl, rfl⟩
    show Function.update c.heap c.next _ r = c.heap r
    rw [Function.update_noteq (Nat.ne_of_lt hr)]

theorem Add_result (d : Deps) (c : Cron) (now : Nat) (pattern : String) (job : Nat)
    (name : List String) (r : Ref) (c1 : Cron)
    (h : Add d c now pattern job name = (.ok r, c1)) :
    r = c.next ∧ c1.next = c.next + 1 ∧
    c1.heap r = { schedule := pattern, status := STATUS_READY, singleton := false,
                  times := d.gDEFAULT_TIMES, Name := (c1.heap r).Name, Job := job, Time := now } ∧
    c1.entries = mapSet c.entries (c1.heap r).Name r ∧
    c1.running = c.running ∧ c1.launched = c.launched ∧ c1.status = c.status ∧
    (∀ x, x ≠ r → c1.heap x = c.heap x) := by
  rcases Add_cases d c now pattern job name with ⟨err, he⟩ | ⟨nm, he, -, -, -⟩
  · rw [he] at h
    simp at h
  · rw [he] at h
    simp only [Prod.mk.injEq, Except.ok.injEq] at h
    obtain ⟨h1, h2⟩ := h
    subst h1 h2
    refine ⟨rfl, rfl, ?_, ?_, rfl, rfl, rfl, ?_⟩
    · simp
    · simp
    · intro x hx
      show Function.update c.heap c.next _ x = c.heap x
      rw [Function.update_noteq hx]

/-- A property of one entry object that the loop body of `checkEntries`, the deferred
function and the entry methods `Start` and `Stop` keep is kept by every step of the
manager, for an object that is already allocated. -/
theorem step_stable (d : Deps) (P : Entry → Prop)
    (hdispatch : ∀ t e, P e → P (dispatch d t e).1)
    (hfinish : ∀ e, P e → P e.finish)
    (hstart : ∀ e, P e → P e.Start)
    (hstop : ∀ e, P e → P e.Stop)
    (c : Cron) (s : Step) (r : Ref) (hr : r < c.next) (h : P (c.heap r)) :
    P ((step d c s).heap r) ∧ r < (step d c s).next := by
  have hcheck : ∀ t, P ((checkEntries d c t).heap r) ∧ r < (checkEntries d c t).next := by
    intro t
    rw [(checkEntries_fields d c t).2.2]
    refine ⟨?_, hr⟩
    rw [checkEntries_eq]
    exact scan_stable d t P (hdispatch t) c.entries (c, []) r h
  have hadd : ∀ now pattern job name (f : Entry → Entry),
      P (((Add d c now pattern job name).2.modify c.next f).heap r) := by
    intro now pattern job name f
    simp only [Cron.modify, Function.update_noteq (Nat.ne_of_lt hr)]
    rw [(Add_old d c now pattern job name r hr).1]
    exact h
  cases s with
  | check t => exact hcheck t
  | timer now =>
    show P ((tick d c now).heap r) ∧ r < (tick d c now).next
    unfold tick
    split
    · exact hcheck now
    · exact ⟨h, hr⟩
  | complete inv =>
    show P ((complete c inv).heap r) ∧ r < (complete c inv).next
    rw [(complete_fields c inv).2.2.1, complete_heap]
    refine ⟨?_, hr⟩
    split
    · exact hfinish _ h
    · exact h
  | start name =>
    show P ((Start c name).heap r) ∧ r < (Start c name).next
    unfold Start
    split
    · rw [(forNamed_fields c name _).2.2.2.1]
      exact ⟨forNamed_stable P _ hstart c name r h, hr⟩
    · exact ⟨h, hr⟩
  | stop name =>
    show P ((Stop c name).heap r) ∧ r < (Stop c name).next
    unfold Stop
    split
    · rw [(forNamed_fields c name _).2.2.2.1]
      exact ⟨forNamed_stable P _ hstop c name r h, hr⟩
    · exact ⟨h, hr⟩
  | close => exact ⟨h, hr⟩
  | remove name => exact ⟨h, hr⟩
  | add now pattern job name =>
    have := Add_old d c now pattern job name r hr
    show P ((Add d c now pattern job name).2.heap r) ∧ r < (Add d c now pattern job name).2.next
    rw [this.1]
    exact ⟨h, this.2.1⟩
  | addSingleton now pattern job name =>
    have hold := Add_old d c now pattern job name r hr
    have hm := hadd now pattern job name (fun e => e.SetSingleton true)
    show P ((AddSingleton d c now pattern job name).2.heap r)
      ∧ r < (AddSingleton d c now pattern job name).2.next
    unfold AddSingleton
    rcases Add_cases d c now pattern job name with ⟨err, he⟩ | ⟨nm, he, -, -, -⟩
    · rw [he]; exact ⟨h, hr⟩
    · rw [he] at hm hold ⊢
      exact ⟨hm, hold.2.1⟩
  | addOnce now pattern job name =>
    have hold := Add_old d c now pattern job name r hr
    have hm := hadd now pattern job name (fun e => e.SetTimes 1)
    show P ((AddOnce d c now pattern job name).2.heap r)
      ∧ r < (AddOnce d c now pattern job name).2.next
    unfold AddOnce
    rcases Add_cases d c now pattern job name with ⟨err, he⟩ | ⟨nm, he, -, -, -⟩
    · rw [he]; exact ⟨h, hr⟩
    · rw [he] at hm hold ⊢
      exact ⟨hm, hold.2.1⟩
  | addTimes now pattern times job name =>
    have hold := Add_old d c now pattern job name r hr
    have hm := hadd now pattern job name (fun e => e.SetTimes times)
    show P ((AddTimes d c now pattern times job name).2.heap r)
      ∧ r < (AddTimes d c now pattern times job name).2.next
    unfold AddTimes
    rcases Add_cases d c now pattern job name with ⟨err, he⟩ | ⟨nm, he, -, -, -⟩
    · rw [he]; exact ⟨h, hr⟩
    · rw [he] at hm hold ⊢
      exact ⟨hm, hold.2.1⟩

theorem run_stable (d : Deps) (P : Entry → Prop)
    (hdispatch : ∀ t e, P e → P (dispatch d t e).1)
    (hfinish : ∀ e, P e → P e.finish)
    (hstart : ∀ e, P e → P e.Start)
    (hstop : ∀ e, P e → P e.Stop)
    (c : Cron) (steps : List Step) (r : Ref) (hr : r < c.next) (h : P (c.heap r)) :
    P ((run d c steps).heap r) ∧ r < (run d c steps).next := by
  induction steps generalizing c with
  | nil => exact ⟨h, hr⟩
  | cons s steps ih =>
    rw [run_cons]
    obtain ⟨h1, h2⟩ := step_stable d P hdispatch hfinish hstart hstop c s r hr h
    exact ih _ h2 h1

/-! ## The loop body, case by case -/

theorem wrapInt_id (x : Int) (h1 : -9223372036854775808 ≤ x) (h2 : x < 9223372036854775808) :
    wrapInt x = x := by
  unfold wrapInt
  omega

theorem dispatch_not_due (d : Deps) (t : Nat) (e : Entry) (h : d.meet e.schedule t = false) :
    dispatch d t e = (e, .skip) := by
  unfold dispatch
  simp [h]

theorem dispatch_stopped (d : Deps) (t : Nat) (e : Entry) (h : e.status = STATUS_STOPPED) :
    dispatch d t e = (e, .skip) := by
  unfold dispatch
  simp [h]

theorem dispatch_closed (d : Deps) (t : Nat) (e : Entry) (hdue : d.meet e.schedule t = true)
    (h : e.status = STATUS_CLOSED) : dispatch d t e = (e, .remove) := by
  unfold dispatch
  simp [h, hdue, STATUS_CLOSED, STATUS_STOPPED]

theorem dispatch_singleton_running (d : Deps) (t : Nat) (e : Entry)
    (hdue : d.meet e.schedule t = true) (h : e.status = STATUS_RUNNING)
    (hs : e.singleton = true) : dispatch d t e = (e, .skip) := by
  unfold dispatch
  rcases e with ⟨a1, a2, a3, a4, a5, a6, a7⟩
  simp only at h hs hdue
  subst h hs
  simp [hdue, STATUS_CLOSED, STATUS_STOPPED, STATUS_RUNNING, Entry.IsSingleton]

theorem dispatch_last (d : Deps) (t : Nat) (e : Entry) (hdue : d.meet e.schedule t = true)
    (h1 : e.status ≠ STATUS_STOPPED) (h2 : e.status ≠ STATUS_CLOSED)
    (h3 : ¬ (e.status = STATUS_RUNNING ∧ e.singleton = true))
    (hw : wrapInt (e.times - 1) ≤ 0) :
    dispatch d t e
      = ({ e with status := STATUS_CLOSED, times := wrapInt (e.times - 1) }, .launch) := by
  unfold dispatch
  simp [hdue, h1, h2, h3, hw, STATUS_CLOSED, STATUS_RUNNING, Entry.IsSingleton]

theorem dispatch_band (d : Deps) (t : Nat) (e : Entry) (hdue : d.meet e.schedule t = true)
    (h1 : e.status ≠ STATUS_STOPPED) (h2 : e.status ≠ STATUS_CLOSED)
    (h3 : ¬ (e.status = STATUS_RUNNING ∧ e.singleton = true))
    (hlo : 1000000000 < wrapInt (e.times - 1)) (hhi : wrapInt (e.times - 1) < 2000000000) :
    dispatch d t e
      = ({ e with status := STATUS_RUNNING, times := d.gDEFAULT_TIMES }, .launch) := by
  have hw : ¬ wrapInt (e.times - 1) ≤ 0 := by omega
  unfold dispatch
  simp [hdue, h1, h2, h3, hw, hlo, hhi, Entry.IsSingleton]

theorem dispatch_plain (d : Deps) (t : Nat) (e : Entry) (hdue : d.meet e.schedule t = true)
    (h1 : e.status ≠ STATUS_STOPPED) (h2 : e.status ≠ STATUS_CLOSED)
    (h3 : ¬ (e.status = STATUS_RUNNING ∧ e.singleton = true))
    (hw : 0 < wrapInt (e.times - 1))
    (hband : ¬ (wrapInt (e.times - 1) < 2000000000 ∧ 1000000000 < wrapInt (e.times - 1))) :
    dispatch d t e
      = ({ e with status := STATUS_RUNNING, times := wrapInt (e.times - 1) }, .launch) := by
  have hw1 : ¬ wrapInt (e.times - 1) ≤ 0 := by omega
  unfold dispatch
  simp only [Entry.IsSingleton]
  rw [if_pos hdue, if_neg h1, if_neg h2, if_neg h3, if_neg hw1, if_neg (by simpa using hband)]

theorem dispatch_unlimited (d : Deps) (hlo : 1000000001 < d.gDEFAULT_TIMES)
    (hhi : d.gDEFAULT_TIMES < 9223372036854775808) (t : Nat) (e : Entry) (h : Unlimited e) :
    Unlimited (dispatch d t e).1 ∧ (dispatch d t e).2 ≠ .remove := by
  obtain ⟨h1, h2, h3⟩ := h
  have hw : wrapInt (e.times - 1) = e.times - 1 := wrapInt_id _ (by omega) (by omega)
  by_cases hdue : d.meet e.schedule t = true
  · by_cases hst : e.status = STATUS_STOPPED
    · rw [dispatch_stopped d t e hst]
      exact ⟨⟨h1, h2, h3⟩, by simp⟩
    · by_cases hsr : e.status = STATUS_RUNNING ∧ e.singleton = true
      · rw [dispatch_singleton_running d t e hdue hsr.1 hsr.2]
        exact ⟨⟨h1, h2, h3⟩, by simp⟩
      · by_cases hb : wrapInt (e.times - 1) < 2000000000
        · rw [dispatch_band d t e hdue hst h3 hsr (by omega) hb]
          exact ⟨⟨by simp; omega, by simp; omega, by simp [STATUS_RUNNING, STATUS_CLOSED]⟩, by simp⟩
        · rw [dispatch_plain d t e hdue hst h3 hsr (by omega) (by omega)]
          exact ⟨⟨by simp; omega, by simp; omega, by simp [STATUS_RUNNING, STATUS_CLOSED]⟩, by simp⟩
  · rw [dispatch_not_due d t e (by simpa using hdue)]
    exact ⟨⟨h1, h2, h3⟩, by simp⟩



/-! ## Unlimited entries -/

theorem finish_unlimited (e : Entry) (h : Unlimited e) : Unlimited e.finish := by
  obtain ⟨h1, h2, h3⟩ := h
  unfold Entry.finish
  split_ifs
  · exact ⟨h1, h2, h3⟩
  · exact ⟨h1, h2, h3⟩
  · exact ⟨h1, h2, by simp [STATUS_READY, STATUS_CLOSED]⟩

theorem AddSingleton_times (d : Deps) (c : Cron) (now : Nat) (pattern : String) (job : Nat)
    (name : List String) (r : Ref) (c1 : Cron)
    (h : AddSingleton d c now pattern job name = (.ok r, c1)) :
    r < c1.next ∧ (c1.heap r).times = d.gDEFAULT_TIMES ∧ (c1.heap r).singleton = true ∧
    (c1.heap r).status = STATUS_READY := by
  unfold AddSingleton at h
  rcases hq : Add d c now pattern job name with ⟨res, c0⟩
  rw [hq] at h
  cases res with
  | error err => simp at h
  | ok r0 =>
    simp only [Prod.mk.injEq, Except.ok.injEq] at h
    obtain ⟨h1, h2⟩ := h
    subst h1 h2
    obtain ⟨g1, g2, g3, -⟩ := Add_result d c now pattern job name r0 c0 hq
    have hheap : (c0.modify r0 fun e => e.SetSingleton true).heap r0
        = (c0.heap r0).SetSingleton true := by
      simp [Cron.modify]
    refine ⟨?_, ?_, ?_, ?_⟩
    · show r0 < c0.next
      rw [g2, g1]
      exact Nat.lt_succ_self _
    · rw [hheap, g3]
      rfl
    · rw [hheap]
      rfl
    · rw [hheap, g3]
      rfl

/-- C4: take `gDEFAULT_TIMES` above the lower edge of the band (and within `int`). An entry
whose counter is at that constant and whose status is not CLOSED, which is how `Add`
registers an entry and how `AddSingleton` does, keeps through any sequence of steps of the
manager a positive counter and a status that is not CLOSED; the loop body never puts it
on `removeKeys` nor closes it, its deferred function removes nothing, and a pass over a
well-formed registry keeps it registered. Whenever the decremented counter of a
dispatched entry lies strictly between 1000000000 and 2000000000 it is reset to the
constant. -/
theorem unlimited_counter_never_exhausted (d : Deps)
    (hlo : 1000000001 < d.gDEFAULT_TIMES) (hhi : d.gDEFAULT_TIMES < 9223372036854775808)
    (c : Cron) (r : Ref) (hr : r < c.next)
    (htimes : (c.heap r).times = d.gDEFAULT_TIMES)
    (hstatus : (c.heap r).status ≠ STATUS_CLOSED) (steps : List Step) :
    0 < ((run d c steps).heap r).times ∧
    ((run d c steps).heap r).status ≠ STATUS_CLOSED ∧
    (∀ t, (dispatch d t ((run d c steps).heap r)).2 ≠ .remove ∧
      0 < (dispatch d t ((run d c steps).heap r)).1.times ∧
      (dispatch d t ((run d c steps).heap r)).1.status ≠ STATUS_CLOSED) ∧
    (completion (run d c steps) r).entries = (run d c steps).entries ∧
    (WF c → ∀ t nm, Search (run d c steps) nm = some r →
      Search (checkEntries d (run d c steps) t) nm = some r) ∧
    (∀ t (e : Entry), d.meet e.schedule t = true → e.status ≠ STATUS_STOPPED →
      e.status ≠ STATUS_CLOSED → ¬ (e.status = STATUS_RUNNING ∧ e.singleton = true) →
      1000000000 < wrapInt (e.times - 1) → wrapInt (e.times - 1) < 2000000000 →
      (dispatch d t e).1.times = d.gDEFAULT_TIMES ∧ (dispatch d t e).2 = .launch) ∧
    (∀ (c0 : Cron) (now : Nat) (pattern : String) (job : Nat) (name : List String)
      (r1 : Ref) (c1 : Cron), Add d c0 now pattern job name = (.ok r1, c1) →
      r1 < c1.next ∧ (c1.heap r1).times = d.gDEFAULT_TIMES ∧
      (c1.heap r1).singleton = false ∧ (c1.heap r1).status ≠ STATUS_CLOSED ∧
      (WF c0 → WF c1)) ∧
    (∀ (c0 : Cron) (now : Nat) (pattern : String) (job : Nat) (name : List String)
      (r1 : Ref) (c1 : Cron), AddSingleton d c0 now pattern job name = (.ok r1, c1) →
      r1 < c1.next ∧ (c1.heap r1).times = d.gDEFAULT_TIMES ∧
      (c1.heap r1).singleton = true ∧ (c1.heap r1).status ≠ STATUS_CLOSED ∧
      (WF c0 → WF c1)) := by
  have h0 : Unlimited (c.heap r) := ⟨by rw [htimes]; omega, by rw [htimes]; omega, hstatus⟩
  have hrun := (run_stable d Unlimited
    (fun t e h => (dispatch_unlimited d hlo hhi t e h).1) finish_unlimited
    (fun e h => ⟨h.1, h.2.1, by simp [Entry.Start, STATUS_READY, STATUS_CLOSED]⟩)
    (fun e h => ⟨h.1, h.2.1, by simp [Entry.Stop, STATUS_STOPPED, STATUS_CLOSED]⟩)
    c steps r hr h0).1
  refine ⟨?_, hrun.2.2, ?_, ?_, ?_, ?_, ?_, ?_⟩
  · have := hrun.1
    omega
  · intro t
    have hd := dispatch_unlimited d hlo hhi t _ hrun
    refine ⟨hd.2, ?_, hd.1.2.2⟩
    have := hd.1.1
    omega
  · unfold completion
    rw [if_neg hrun.2.2]
    split <;> rfl
  · intro hwf t nm hs
    rw [checkEntries_Search d _ t (WF_run d c steps hwf) nm, hs]
    simp only
    rw [if_neg (dispatch_unlimited d hlo hhi t _ hrun).2]
  · intro t e hdue h1 h2 h3 h4 h5
    rw [dispatch_band d t e hdue h1 h2 h3 h4 h5]
    exact ⟨rfl, rfl⟩
  · intro c0 now pattern job name r1 c1 hadd
    obtain ⟨g1, g2, g3, -⟩ := Add_result d c0 now pattern job name r1 c1 hadd
    refine ⟨by rw [g2, g1]; exact Nat.lt_succ_self _, by rw [g3], by rw [g3], ?_, ?_⟩
    · rw [g3]
      simp [STATUS_READY, STATUS_CLOSED]
    · intro hwf
      have := WF_Add d c0 now pattern job name hwf
      rw [hadd] at this
      exact this
  · intro c0 now pattern job name r1 c1 hadd
    obtain ⟨g1, g2, g3, g4⟩ := AddSingleton_times d c0 now pattern job name r1 c1 hadd
    refine ⟨g1, g2, g3, ?_, ?_⟩
    · rw [g4]
      simp [STATUS_READY, STATUS_CLOSED]
    · intro hwf
      have := WF_AddSingleton d c0 now pattern job name hwf
      rw [hadd] at this
      exact this

/-- Witness for C4: the singleton "b", registered by `AddSingleton`, after two passes and
one completion. -/
theorem unlimited_counter_never_exhausted_witness :
    (1000000001 < sampleDeps.gDEFAULT_TIMES ∧
      sampleDeps.gDEFAULT_TIMES < 9223372036854775808 ∧
      0 < sampleSingleton.next ∧
      (sampleSingleton.heap 0).times = sampleDeps.gDEFAULT_TIMES ∧
      (sampleSingleton.heap 0).singleton = true ∧
      (sampleSingleton.heap 0).status ≠ STATUS_CLOSED) ∧
    0 < ((run sampleDeps sampleSingleton [.check 1, .check 2, .complete ⟨0, 1⟩]).heap 0).times ∧
    ((run sampleDeps sampleSingleton [.check 1, .check 2, .complete ⟨0, 1⟩]).heap 0).status
      ≠ STATUS_CLOSED :=
  ⟨⟨by decide, by decide, by decide, by decide, by decide, by decide⟩,
   (unlimited_counter_never_exhausted sampleDeps (by decide) (by decide) sampleSingleton 0
      (by decide) (by decide) (by decide) [.check 1, .check 2, .complete ⟨0, 1⟩]).1,
   (unlimited_counter_never_exhausted sampleDeps (by decide) (by decide) sampleSingleton 0
      (by decide) (by decide) (by decide) [.check 1, .check 2, .complete ⟨0, 1⟩]).2.1⟩



/-! ## Steps that leave the existing entries alone -/

theorem AddWith_old (d : Deps) (c : Cron) (now : Nat) (pattern : String) (job : Nat)
    (name : List String) (f : Entry → Entry) (r : Ref) (hr : r < c.next) :
    (match Add d c now pattern job name with
      | (.error err, c1) => ((.error err : Except CronError Ref), c1)
      | (.ok entry, c1) => (.ok entry, c1.modify entry f)).2.heap r = c.heap r ∧
    r < (match Add d c now pattern job name with
      | (.error err, c1) => ((.error err : Except CronError Ref), c1)
      | (.ok entry, c1) => (.ok entry, c1.modify entry f)).2.next ∧
    (match Add d c now pattern job name with
      | (.error err, c1) => ((.error err : Except CronError Ref), c1)
      | (.ok entry, c1) => (.ok entry, c1.modify entry f)).2.running = c.running ∧
    (match Add d c now pattern job name with
      | (.error err, c1) => ((.error err : Except CronError Ref), c1)
      | (.ok entry, c1) => (.ok entry, c1.modify entry f)).2.launched = c.launched := by
  rcases Add_cases d c now pattern job name with ⟨err, he⟩ | ⟨nm, he, -, -, -⟩
  · rw [he]; exact ⟨rfl, hr, rfl, rfl⟩
  · rw [he]
    refine ⟨?_, Nat.lt_succ_of_lt hr, rfl, rfl⟩
    simp only [Cron.modify, Function.update_noteq (Nat.ne_of_lt hr)]

theorem quiet_step (d : Deps) (c : Cron) (s : Step) (hq : s.quiet = true) (r : Ref)
    (hr : r < c.next) :
    (step d c s).heap r = c.heap r ∧ r < (step d c s).next ∧
    (step d c s).running = c.running ∧ (step d c s).launched = c.launched := by
  cases s with
  | check t => simp [Step.quiet] at hq
  | timer now => simp [Step.quiet] at hq
  | complete inv => simp [Step.quiet] at hq
  | start name => simp [Step.quiet] at hq
  | stop name => simp [Step.quiet] at hq
  | close => exact ⟨rfl, hr, rfl, rfl⟩
  | remove name => exact ⟨rfl, hr, rfl, rfl⟩
  | add now pattern job name => exact Add_old d c now pattern job name r hr
  | addSingleton now pattern job name => exact AddWith_old d c now pattern job name _ r hr
  | addOnce now pattern job name => exact AddWith_old d c now pattern job name _ r hr
  | addTimes now pattern times job name => exact AddWith_old d c now pattern job name _ r hr

theorem Search_mem (c : Cron) (k : String) (r : Ref) (h : Search c k = some r) :
    (k, r) ∈ c.entries := mapGet_mem _ _ _ h

theorem Search_name (c : Cron) (hwf : WF c) (k : String) (r : Ref) (h : Search c k = some r) :
    (c.heap r).Name = k := hwf.named (k, r) (Search_mem c k r h)

theorem Search_ref_mem (c : Cron) (k : String) (r : Ref) (h : Search c k = some r) :
    r ∈ c.entries.map Prod.snd := List.mem_map.2 ⟨(k, r), Search_mem c k r h, rfl⟩

theorem ref_mem_Search (c : Cron) (hwf : WF c) (r : Ref) (h : r ∈ c.entries.map Prod.snd) :
    Search c (c.heap r).Name = some r := by
  obtain ⟨kv, hkv, hk⟩ := List.mem_map.1 h
  have hn := hwf.named kv hkv
  rw [hk] at hn
  rw [hn]
  apply mapGet_of_mem _ hwf.keys
  rw [← hk]
  exact hkv



/-! ## Stopped entries -/

theorem Stop_of_stopped (e : Entry) (h : e.status = STATUS_STOPPED) : e.Stop = e := by
  rcases e with ⟨a1, a2, a3, a4, a5, a6, a7⟩
  simp only at h
  subst h
  rfl

theorem finish_of_stopped (e : Entry) (h : e.status = STATUS_STOPPED) : e.finish = e := by
  unfold Entry.finish
  simp [h, STATUS_STOPPED, STATUS_CLOSED]

/-- A step other than `Start` naming the entry leaves a stopped, allocated entry object as it
is and launches nothing for it. -/
theorem stopped_step (d : Deps) (c : Cron) (hwf : WF c) (name : String) (r : Ref)
    (hr : r < c.next) (hst : (c.heap r).status = STATUS_STOPPED)
    (hname : (c.heap r).Name = name) (s : Step)
    (hno : ∀ names, s = .start names → name ∉ names) :
    (step d c s).heap r = c.heap r ∧ launches (step d c s) r = launches c r ∧
    r < (step d c s).next := by
  have hcheck : ∀ t, (checkEntries d c t).heap r = c.heap r ∧
      launches (checkEntries d c t) r = launches c r ∧ r < (checkEntries d c t).next := by
    intro t
    have hd := dispatch_stopped d t _ hst
    rw [checkEntries_heap d c t hwf.refs, checkEntries_launches d c t hwf.refs,
      (checkEntries_fields d c t).2.2, hd]
    refine ⟨by simp, by simp, hr⟩
  cases s with
  | check t => exact hcheck t
  | timer now =>
    show (tick d c now).heap r = c.heap r ∧ launches (tick d c now) r = launches c r ∧
      r < (tick d c now).next
    unfold tick
    split
    · exact hcheck now
    · exact ⟨rfl, rfl, hr⟩
  | complete inv =>
    show (complete c inv).heap r = c.heap r ∧ launches (complete c inv) r = launches c r ∧
      r < (complete c inv).next
    unfold launches
    rw [complete_heap, (complete_fields c inv).2.2.1, (complete_fields c inv).2.2.2,
      finish_of_stopped _ hst]
    exact ⟨by simp, rfl, hr⟩
  | start names =>
    show (Start c names).heap r = c.heap r ∧ launches (Start c names) r = launches c r ∧
      r < (Start c names).next
    unfold Start launches
    split
    · have hf := forNamed_fields c names Entry.Start
      rw [hf.2.2.2.1, hf.2.2.2.2.2]
      refine ⟨forNamed_heap_miss c names _ r ?_, rfl, hr⟩
      intro v hv hs
      have := Search_name c hwf v r hs
      rw [hname] at this
      rw [← this] at hv
      exact hno names rfl hv
    · exact ⟨rfl, rfl, hr⟩
  | stop names =>
    show (Stop c names).heap r = c.heap r ∧ launches (Stop c names) r = launches c r ∧
      r < (Stop c names).next
    unfold Stop launches
    split
    · have hf := forNamed_fields c names Entry.Stop
      rw [hf.2.2.2.1, hf.2.2.2.2.2]
      refine ⟨?_, rfl, hr⟩
      exact forNamed_stable (fun e => e = c.heap r) Entry.Stop
        (fun e he => by rw [he]; exact Stop_of_stopped _ hst) c names r rfl
    · exact ⟨rfl, rfl, hr⟩
  | close =>
    obtain ⟨h1, h2, -, h4⟩ := quiet_step d c .close rfl r hr
    exact ⟨h1, by unfold launches; rw [h4], h2⟩
  | remove nm =>
    obtain ⟨h1, h2, -, h4⟩ := quiet_step d c (.remove nm) rfl r hr
    exact ⟨h1, by unfold launches; rw [h4], h2⟩
  | add now pattern job nm =>
    obtain ⟨h1, h2, -, h4⟩ := quiet_step d c (.add now pattern job nm) rfl r hr
    exact ⟨h1, by unfold launches; rw [h4], h2⟩
  | addSingleton now pattern job nm =>
    obtain ⟨h1, h2, -, h4⟩ := quiet_step d c (.addSingleton now pattern job nm) rfl r hr
    exact ⟨h1, by unfold launches; rw [h4], h2⟩
  | addOnce now pattern job nm =>
    obtain ⟨h1, h2, -, h4⟩ := quiet_step d c (.addOnce now pattern job nm) rfl r hr
    exact ⟨h1, by unfold launches; rw [h4], h2⟩
  | addTimes now pattern times job nm =>
    obtain ⟨h1, h2, -, h4⟩ := quiet_step d c (.addTimes now pattern times job nm) rfl r hr
    exact ⟨h1, by unfold launches; rw [h4], h2⟩

theorem stopped_run (d : Deps) (c : Cron) (hwf : WF c) (name : String) (r : Ref)
    (hr : r < c.next) (hst : (c.heap r).status = STATUS_STOPPED)
    (hname : (c.heap r).Name = name) (steps : List Step)
    (hno : ∀ s ∈ steps, ∀ names, s = .start names → name ∉ names) :
    (run d c steps).heap r = c.heap r ∧ launches (run d c steps) r = launches c r := by
  induction steps generalizing c with
  | nil => exact ⟨rfl, rfl⟩
  | cons s steps ih =>
    rw [run_cons]
    obtain ⟨h1, h2, h3⟩ := stopped_step d c hwf name r hr hst hname s
      (hno s (List.mem_cons_self _ _))
    have := ih (step d c s) (WF_step d c s hwf) h3 (by rw [h1]; exact hst)
      (by rw [h1]; exact hname) (fun s1 hs1 => hno s1 (List.mem_cons_of_mem _ hs1))
    rw [this.1, this.2, h1, h2]
    exact ⟨rfl, rfl⟩

theorem Stop_single (c : Cron) (name : String) (r : Ref) (h : Search c name = some r) :
    Stop c [name] = c.modify r Entry.Stop := by
  simp [Stop, forNamed, h]

/-- In a serial execution a stopped entry is skipped: after `Stop(name)` on a registered
entry, through any sequence of steps run one after another in which `Start` is never called
with that name, the entry's status stays STOPPED, its counter keeps its value and no
invocation of it is launched. -/
theorem stopped_entry_is_skipped (d : Deps) (c : Cron) (hwf : WF c) (name : String) (r : Ref)
    (hreg : Search c name = some r) (steps : List Step)
    (hno : ∀ s ∈ steps, ∀ names, s = .start names → name ∉ names) :
    ((Stop c [name]).heap r).status = STATUS_STOPPED ∧
    ((run d (Stop c [name]) steps).heap r).status = STATUS_STOPPED ∧
    ((run d (Stop c [name]) steps).heap r).times = (c.heap r).times ∧
    launches (run d (Stop c [name]) steps) r = launches c r := by
  have hr : r < c.next := hwf.alloc (name, r) (Search_mem c name r hreg)
  have hnm := Search_name c hwf name r hreg
  have hstop := Stop_single c name r hreg
  have hheap : (Stop c [name]).heap r = (c.heap r).Stop := by
    rw [hstop]
    simp [Cron.modify]
  have hrun := stopped_run d (Stop c [name]) (WF_Stop c [name] hwf) name r
    (by rw [hstop]; exact hr) (by rw [hheap]; rfl) (by rw [hheap]; exact hnm) steps hno
  rw [hrun.1, hrun.2, hheap]
  refine ⟨rfl, rfl, rfl, ?_⟩
  rw [hstop]
  rfl

/-- The serial case at an input: "x" is stopped on the sample manager, then three passes
run one after another. -/
theorem stopped_entry_is_skipped_witness :
    (WF sampleNamed ∧ Search sampleNamed "x" = some 0 ∧
      ∀ s ∈ [Step.check 1, Step.check 2, Step.check 3], ∀ names,
        s = .start names → "x" ∉ names) ∧
    launches (run sampleDeps (Stop sampleNamed ["x"]) [.check 1, .check 2, .check 3]) 0
      = launches sampleNamed 0 :=
  ⟨⟨WF_Add _ _ _ _ _ _ WF_New, by decide, by simp⟩,
   (stopped_entry_is_skipped sampleDeps sampleNamed (WF_Add _ _ _ _ _ _ WF_New) "x" 0
      (by decide) [.check 1, .check 2, .check 3] (by simp)).2.2.2⟩

/-- C5 fails in the code. The entry "x" of the sample manager is READY and due. A pass takes
it through the tests of lines 210-219; `Stop("x")` then stores STOPPED; the pass goes on
with the swap of line 221, which stores RUNNING over it, and launches "x"; the two due
passes that follow launch it again, and `Start("x")` was never called. In the same way,
when the deferred function of a running invocation has read RUNNING at line 237 and
`Stop("x")` then stores STOPPED, line 244 stores READY over it and the next due pass
launches "x". -/
theorem Stop_is_overwritten_in_progress :
    (Search sampleNamed "x" = some 0 ∧
      dispatchTests sampleDeps 1 (sampleNamed.heap 0) = none ∧
      ((Stop sampleNamed ["x"]).heap 0).status = STATUS_STOPPED ∧
      (sampleStopInPass.heap 0).status = STATUS_RUNNING ∧
      launches sampleStopInPass 0 = 1 ∧
      launches (run sampleDeps sampleStopInPass [.check 2, .check 3]) 0 = 3) ∧
    (((checkEntries sampleDeps sampleNamed 1).heap 0).status = STATUS_RUNNING ∧
      ((Stop (checkEntries sampleDeps sampleNamed 1) ["x"]).heap 0).status = STATUS_STOPPED ∧
      (sampleStopInDefer.heap 0).status = STATUS_READY ∧
      launches sampleStopInDefer 0 = 1 ∧
      launches (run sampleDeps sampleStopInDefer [.check 2]) 0 = 2) := by
  decide



/-! ## Overlapping invocations -/

/-- What the loop body does with an entry, in three cases: it leaves the object as it is
and launches nothing; or it launches, which happens only for a due entry that is neither
stopped nor closed nor a running singleton, and leaves the status RUNNING or CLOSED. -/
theorem dispatch_cases (d : Deps) (t : Nat) (e : Entry) :
    ((dispatch d t e).1 = e ∧ (dispatch d t e).2 ≠ .launch) ∨
    ((dispatch d t e).2 = .launch ∧ d.meet e.schedule t = true ∧
      e.status ≠ STATUS_STOPPED ∧ e.status ≠ STATUS_CLOSED ∧
      ¬ (e.status = STATUS_RUNNING ∧ e.singleton = true) ∧
      ((dispatch d t e).1.status = STATUS_RUNNING ∨
        (dispatch d t e).1.status = STATUS_CLOSED)) := by
  by_cases hdue : d.meet e.schedule t = true
  · by_cases hst : e.status = STATUS_STOPPED
    · rw [dispatch_stopped d t e hst]
      exact Or.inl ⟨rfl, by simp⟩
    · by_cases hcl : e.status = STATUS_CLOSED
      · rw [dispatch_closed d t e hdue hcl]
        exact Or.inl ⟨rfl, by simp⟩
      · by_cases hsr : e.status = STATUS_RUNNING ∧ e.singleton = true
        · rw [dispatch_singleton_running d t e hdue hsr.1 hsr.2]
          exact Or.inl ⟨rfl, by simp⟩
        · right
          by_cases hw : wrapInt (e.times - 1) ≤ 0
          · rw [dispatch_last d t e hdue hst hcl hsr hw]
            exact ⟨rfl, hdue, hst, hcl, hsr, Or.inr rfl⟩
          · by_cases hb : wrapInt (e.times - 1) < 2000000000 ∧ 1000000000 < wrapInt (e.times - 1)
            · rw [dispatch_band d t e hdue hst hcl hsr hb.2 hb.1]
              exact ⟨rfl, hdue, hst, hcl, hsr, Or.inl rfl⟩
            · rw [dispatch_plain d t e hdue hst hcl hsr (by omega) hb]
              exact ⟨rfl, hdue, hst, hcl, hsr, Or.inl rfl⟩
  · rw [dispatch_not_due d t e (by simpa using hdue)]
    exact Or.inl ⟨rfl, by simp⟩

/-- A due entry that is neither stopped nor closed nor a running singleton is launched,
whatever its counter. -/
theorem dispatch_launches (d : Deps) (t : Nat) (e : Entry) (hdue : d.meet e.schedule t = true)
    (h1 : e.status ≠ STATUS_STOPPED) (h2 : e.status ≠ STATUS_CLOSED)
    (h3 : ¬ (e.status = STATUS_RUNNING ∧ e.singleton = true)) :
    (dispatch d t e).2 = .launch := by
  by_cases hw : wrapInt (e.times - 1) ≤ 0
  · rw [dispatch_last d t e hdue h1 h2 h3 hw]
  · by_cases hb : wrapInt (e.times - 1) < 2000000000 ∧ 1000000000 < wrapInt (e.times - 1)
    · rw [dispatch_band d t e hdue h1 h2 h3 hb.2 hb.1]
    · rw [dispatch_plain d t e hdue h1 h2 h3 (by omega) hb]

/-- C10 fails as stated: the non-singleton entry "a", registered for two runs, has one
invocation running and one run left; the first of two further due passes launches its
last invocation and closes it, the second launches nothing. -/
theorem overlap_stops_at_last_run :
    (sampleOverlap.heap 0).singleton = false ∧
    Search sampleOverlap "a" = some 0 ∧
    (⟨0, 1⟩ : Invocation) ∈ (run sampleDeps sampleOverlap [.check 2, .check 3]).running ∧
    launches sampleOverlap 0 = 1 ∧
    launches (run sampleDeps sampleOverlap [.check 2]) 0 = 2 ∧
    launches (run sampleDeps sampleOverlap [.check 2, .check 3]) 0 = 2 := by
  decide

/-- C10, amended: for a registered non-singleton entry that is neither stopped nor closed
and has at least two runs left, each of two successive due passes launches a new
invocation of it, whatever is still running. -/
theorem overlap_launches_twice (d : Deps) (c : Cron) (hwf : WF c) (name : String) (r : Ref)
    (hreg : Search c name = some r) (hplain : (c.heap r).singleton = false)
    (hst : (c.heap r).status ≠ STATUS_STOPPED) (hcl : (c.heap r).status ≠ STATUS_CLOSED)
    (hleft : 2 ≤ (c.heap r).times) (hint : (c.heap r).times < 9223372036854775808)
    (t1 t2 : Nat) (hdue1 : d.meet (c.heap r).schedule t1 = true)
    (hdue2 : d.meet (c.heap r).schedule t2 = true) :
    launches (checkEntries d c t1) r = launches c r + 1 ∧
    inflight (checkEntries d c t1) r = inflight c r + 1 ∧
    launches (checkEntries d (checkEntries d c t1) t2) r = launches c r + 2 ∧
    inflight (checkEntries d (checkEntries d c t1) t2) r = inflight c r + 2 := by
  have hmem := Search_ref_mem c name r hreg
  have hsr : ¬ ((c.heap r).status = STATUS_RUNNING ∧ (c.heap r).singleton = true) := by
    rw [hplain]; simp
  have hv1 := dispatch_launches d t1 _ hdue1 hst hcl hsr
  have hw : wrapInt ((c.heap r).times - 1) = (c.heap r).times - 1 :=
    wrapInt_id _ (by omega) (by omega)
  have hstatus1 : (dispatch d t1 (c.heap r)).1.status = STATUS_RUNNING := by
    by_cases hb : wrapInt ((c.heap r).times - 1) < 2000000000
        ∧ 1000000000 < wrapInt ((c.heap r).times - 1)
    · rw [dispatch_band d t1 _ hdue1 hst hcl hsr hb.2 hb.1]
    · rw [dispatch_plain d t1 _ hdue1 hst hcl hsr (by omega) hb]
  have hwf1 := WF_checkEntries d c t1 hwf
  have hheap1 : (checkEntries d c t1).heap r = (dispatch d t1 (c.heap r)).1 := by
    rw [checkEntries_heap d c t1 hwf.refs, if_pos hmem]
  have hreg1 : Search (checkEntries d c t1) name = some r := by
    rw [checkEntries_Search d c t1 hwf name, hreg]
    simp only
    rw [if_neg (by rw [hv1]; simp)]
  have hmem1 := Search_ref_mem _ name r hreg1
  have hkeep := dispatch_keeps d t1 (c.heap r)
  have hv2 : (dispatch d t2 ((checkEntries d c t1).heap r)).2 = .launch := by
    apply dispatch_launches
    · rw [hheap1, hkeep.2.2.1]; exact hdue2
    · rw [hheap1, hstatus1]; simp [STATUS_RUNNING, STATUS_STOPPED]
    · rw [hheap1, hstatus1]; simp [STATUS_RUNNING, STATUS_CLOSED]
    · rw [hheap1, hkeep.2.1, hplain]; simp
  have hl1 : launches (checkEntries d c t1) r = launches c r + 1 := by
    rw [checkEntries_launches d c t1 hwf.refs, if_pos ⟨hmem, hv1⟩]
  have hi1 : inflight (checkEntries d c t1) r = inflight c r + 1 := by
    rw [checkEntries_inflight d c t1 hwf.refs, if_pos ⟨hmem, hv1⟩]
  refine ⟨hl1, hi1, ?_, ?_⟩
  · rw [checkEntries_launches d _ t2 hwf1.refs, if_pos ⟨hmem1, hv2⟩, hl1]
  · rw [checkEntries_inflight d _ t2 hwf1.refs, if_pos ⟨hmem1, hv2⟩, hi1]

/-- Witness for the amended C10: "x" on the sample manager has its full counter. -/
theorem overlap_launches_twice_witness :
    (WF sampleNamed ∧ Search sampleNamed "x" = some 0 ∧
      (sampleNamed.heap 0).singleton = false ∧
      (sampleNamed.heap 0).status ≠ STATUS_STOPPED ∧
      (sampleNamed.heap 0).status ≠ STATUS_CLOSED ∧
      2 ≤ (sampleNamed.heap 0).times ∧ (sampleNamed.heap 0).times < 9223372036854775808 ∧
      sampleDeps.meet (sampleNamed.heap 0).schedule 1 = true ∧
      sampleDeps.meet (sampleNamed.heap 0).schedule 2 = true) ∧
    launches (checkEntries sampleDeps (checkEntries sampleDeps sampleNamed 1) 2) 0
      = launches sampleNamed 0 + 2 :=
  ⟨⟨WF_Add _ _ _ _ _ _ WF_New, by decide, by decide, by decide, by decide, by decide,
     by decide, by decide, by decide⟩,
   (overlap_launches_twice sampleDeps sampleNamed (WF_Add _ _ _ _ _ _ WF_New) "x" 0
      (by decide) (by decide) (by decide) (by decide) (by decide) (by decide) 1 2
      (by decide) (by decide)).2.2.1⟩



/-! ## Singleton entries -/

theorem countP_erase_le (p : Invocation → Bool) (l : List Invocation) (a : Invocation) :
    (l.erase a).countP p = l.countP p - if a ∈ l ∧ p a = true then 1 else 0 := by
  induction l with
  | nil => simp
  | cons b l ih =>
    by_cases hba : b = a
    · subst hba
      rw [List.erase_cons_head, List.countP_cons]
      by_cases hp : p b = true <;> simp [hp]
    · have hab : ¬ a = b := fun h => hba h.symm
      rw [List.erase_cons_tail (by simpa using hba), List.countP_cons, List.countP_cons, ih]
      simp only [List.mem_cons, hab, false_or]
      by_cases hin : a ∈ l ∧ p a = true
      · rw [if_pos hin]
        have hpos : 0 < l.countP p := List.countP_pos_iff.2 ⟨a, hin.1, hin.2⟩
        omega
      · rw [if_neg hin]
        omega

theorem complete_inflight (c : Cron) (inv : Invocation) (r : Ref) :
    inflight (complete c inv) r
      = inflight c r - if inv ∈ c.running ∧ inv.entry = r then 1 else 0 := by
  unfold complete inflight
  by_cases hin : inv ∈ c.running
  · rw [if_pos hin, (completion_fields _ _).2.2.2.1]
    show (c.running.erase inv).countP _ = _
    rw [countP_erase_le]
    simp [hin]
  · simp [hin]

/-- C3 fails in the code. On the manager holding the singleton entry "b", a due pass
launches "b" and leaves it RUNNING. A second due pass takes it through the tests of lines
210-219; `Stop("b")` then stores STOPPED; the swap of line 221 returns STOPPED, not RUNNING,
so the singleton test of line 222 lets the pass through and a second invocation is
launched while the first is running. And with whole steps only: a due pass, then
`Start("b")`, which stores READY over RUNNING, then a second due pass leave two invocations
of "b" running. -/
theorem singleton_runs_twice_at_once :
    ((sampleSingleton.heap 0).singleton = true ∧
      Search sampleSingleton "b" = some 0 ∧
      inflight (checkEntries sampleDeps sampleSingleton 1) 0 = 1 ∧
      ((checkEntries sampleDeps sampleSingleton 1).heap 0).status = STATUS_RUNNING) ∧
    (dispatchTests sampleDeps 2 ((checkEntries sampleDeps sampleSingleton 1).heap 0) = none ∧
      ((Stop (checkEntries sampleDeps sampleSingleton 1) ["b"]).heap 0).status
        = STATUS_STOPPED ∧
      (dispatchSwap sampleDeps
        ((Stop (checkEntries sampleDeps sampleSingleton 1) ["b"]).heap 0)).2 = .launch ∧
      inflight sampleSingletonRace 0 = 2) ∧
    (inflight (run sampleDeps sampleSingleton [.check 1]) 0 = 1 ∧
      inflight (run sampleDeps sampleSingleton [.check 1, .start ["b"], .check 2]) 0 = 2) := by
  decide

theorem AddSingleton_result (d : Deps) (c : Cron) (now : Nat) (pattern : String) (job : Nat)
    (name : List String) (r : Ref) (c1 : Cron)
    (h : AddSingleton d c now pattern job name = (.ok r, c1)) :
    r = c.next ∧ c1.next = c.next + 1 ∧ (c1.heap r).singleton = true ∧
    (c1.heap r).status = STATUS_READY ∧ c1.running = c.running ∧ c1.launched = c.launched := by
  unfold AddSingleton at h
  rcases hq : Add d c now pattern job name with ⟨res, c0⟩
  rw [hq] at h
  cases res with
  | error err => simp at h
  | ok r0 =>
    simp only [Prod.mk.injEq, Except.ok.injEq] at h
    obtain ⟨h1, h2⟩ := h
    subst h1 h2
    obtain ⟨g1, g2, g3, -, g5, g6, -, -⟩ := Add_result d c now pattern job name r0 c0 hq
    refine ⟨g1, g2, ?_, ?_, g5, g6⟩
    · simp [Cron.modify, Entry.SetSingleton]
    · simp only [Cron.modify, Function.update_same, Entry.SetSingleton]
      rw [g3]

theorem Single_step (d : Deps) (c : Cron) (name : String) (r : Ref) (h : Single c name r)
    (s : Step) (hidle : ∀ names, s = .start names → name ∈ names → inflight c r = 0) :
    Single (step d c s) name r := by
  have hwf' := WF_step d c s h.wf
  have hcheck : ∀ t, Single (checkEntries d c t) name r := by
    intro t
    have hw := WF_checkEntries d c t h.wf
    have hheap := checkEntries_heap d c t h.wf.refs r
    have hinf := checkEntries_inflight d c t h.wf.refs r
    have hkeep := dispatch_keeps d t (c.heap r)
    have hnext : r < (checkEntries d c t).next := by
      rw [(checkEntries_fields d c t).2.2]; exact h.alloc
    by_cases hmem : r ∈ c.entries.map Prod.snd
    · rw [if_pos hmem] at hheap
      rcases dispatch_cases d t (c.heap r) with ⟨hsame, hnl⟩ | ⟨hl, -, hst, hcl, hsr, hnew⟩
      · rw [if_neg (fun hh => hnl hh.2)] at hinf
        rw [hsame] at hheap
        exact ⟨hw, hnext, by rw [hheap]; exact h.flag, by rw [hheap]; exact h.named,
          by rw [hinf]; exact h.atMost, by rw [hinf, hheap]; exact h.busy⟩
      · rw [if_pos ⟨hmem, hl⟩] at hinf
        have hzero : inflight c r = 0 := by
          have hle := h.atMost
          by_cases hone : inflight c r = 1
          · rcases h.busy hone with hb | hb | hb
            · exact absurd ⟨hb, h.flag⟩ hsr
            · exact absurd hb hst
            · exact absurd hb hcl
          · omega
        refine ⟨hw, hnext, by rw [hheap, hkeep.2.1]; exact h.flag,
          by rw [hheap, hkeep.1]; exact h.named, by rw [hinf, hzero], ?_⟩
        intro _
        rw [hheap]
        rcases hnew with hn | hn
        · exact Or.inl hn
        · exact Or.inr (Or.inr hn)
    · rw [if_neg hmem] at hheap
      rw [if_neg (fun hh => hmem hh.1)] at hinf
      exact ⟨hw, hnext, by rw [hheap]; exact h.flag, by rw [hheap]; exact h.named,
        by rw [hinf]; exact h.atMost, by rw [hinf, hheap]; exact h.busy⟩
  have hquiet : ∀ q : Step, q.quiet = true → Single (step d c q) name r := by
    intro q hq
    obtain ⟨h1, h2, h3, -⟩ := quiet_step d c q hq r h.alloc
    have hinf : inflight (step d c q) r = inflight c r := by unfold inflight; rw [h3]
    exact ⟨WF_step d c q h.wf, h2, by rw [h1]; exact h.flag, by rw [h1]; exact h.named,
      by rw [hinf]; exact h.atMost, by rw [hinf, h1]; exact h.busy⟩
  cases s with
  | check t => exact hcheck t
  | timer now =>
    show Single (tick d c now) name r
    unfold tick
    split
    · exact hcheck now
    · exact h
  | complete inv =>
    have hheap := complete_heap c inv r
    have hinf := complete_inflight c inv r
    have hnext : r < (complete c inv).next := by
      rw [(complete_fields c inv).2.2.1]; exact h.alloc
    show Single (complete c inv) name r
    by_cases hhit : inv ∈ c.running ∧ inv.entry = r
    · rw [if_pos hhit] at hinf
      rw [if_pos ⟨hhit.1, hhit.2.symm⟩] at hheap
      have hle := h.atMost
      have hfin : (c.heap r).finish.singleton = true ∧ (c.heap r).finish.Name = name := by
        unfold Entry.finish
        split_ifs
        · exact ⟨h.flag, h.named⟩
        · exact ⟨h.flag, h.named⟩
        · exact ⟨h.flag, h.named⟩
      refine ⟨hwf', hnext, by rw [hheap]; exact hfin.1, by rw [hheap]; exact hfin.2,
        by rw [hinf]; omega, ?_⟩
      intro hone
      rw [hinf] at hone
      omega
    · rw [if_neg hhit] at hinf
      rw [if_neg (fun hh => hhit ⟨hh.1, hh.2.symm⟩)] at hheap
      exact ⟨hwf', hnext, by rw [hheap]; exact h.flag, by rw [hheap]; exact h.named,
        by rw [hinf]; exact h.atMost, by rw [hinf, hheap]; exact h.busy⟩
  | start names =>
    show Single (Start c names) name r
    have hw : WF (Start c names) := WF_Start c names h.wf
    unfold Start at hw ⊢
    split
    · rename_i hlen
      rw [if_pos hlen] at hw
      have hf := forNamed_fields c names Entry.Start
      have hinf : inflight (forNamed c names Entry.Start) r = inflight c r := by
        unfold inflight; rw [hf.2.2.2.2.1]
      have hnext : r < (forNamed c names Entry.Start).next := by
        rw [hf.2.2.2.1]; exact h.alloc
      by_cases hin : name ∈ names
      · have hzero := hidle names rfl hin
        have hst := forNamed_stable (fun e => e.singleton = true ∧ e.Name = name) Entry.Start
          (fun e he => he) c names r ⟨h.flag, h.named⟩
        refine ⟨hw, hnext, hst.1, hst.2, by rw [hinf, hzero]; exact Nat.zero_le _, ?_⟩
        intro hone
        rw [hinf, hzero] at hone
        exact absurd hone (by decide)
      · have hheap : (forNamed c names Entry.Start).heap r = c.heap r := by
          apply forNamed_heap_miss
          intro v hv hs
          have := Search_name c h.wf v r hs
          rw [h.named] at this
          rw [← this] at hv
          exact hin hv
        exact ⟨hw, hnext, by rw [hheap]; exact h.flag, by rw [hheap]; exact h.named,
          by rw [hinf]; exact h.atMost, by rw [hinf, hheap]; exact h.busy⟩
    · rename_i hlen
      rw [if_neg hlen] at hw
      exact ⟨hw, h.alloc, h.flag, h.named, h.atMost, h.busy⟩
  | stop names =>
    show Single (Stop c names) name r
    have hw : WF (Stop c names) := WF_Stop c names h.wf
    unfold Stop at hw ⊢
    split
    · rename_i hlen
      rw [if_pos hlen] at hw
      have hf := forNamed_fields c names Entry.Stop
      have hinf : inflight (forNamed c names Entry.Stop) r = inflight c r := by
        unfold inflight; rw [hf.2.2.2.2.1]
      have hnext : r < (forNamed c names Entry.Stop).next := by
        rw [hf.2.2.2.1]; exact h.alloc
      have hst := forNamed_stable
        (fun e => e.singleton = true ∧ e.Name = name ∧
          (inflight c r = 1 → e.status = STATUS_RUNNING ∨ e.status = STATUS_STOPPED ∨
            e.status = STATUS_CLOSED)) Entry.Stop
        (fun e he => ⟨he.1, he.2.1, fun _ => Or.inr (Or.inl rfl)⟩) c names r
        ⟨h.flag, h.named, h.busy⟩
      exact ⟨hw, hnext, hst.1, hst.2.1, by rw [hinf]; exact h.atMost,
        by rw [hinf]; exact hst.2.2⟩
    · rename_i hlen
      rw [if_neg hlen] at hw
      exact ⟨hw, h.alloc, h.flag, h.named, h.atMost, h.busy⟩
  | close => exact hquiet .close rfl
  | remove nm => exact hquiet (.remove nm) rfl
  | add now pattern job nm => exact hquiet (.add now pattern job nm) rfl
  | addSingleton now pattern job nm => exact hquiet (.addSingleton now pattern job nm) rfl
  | addOnce now pattern job nm => exact hquiet (.addOnce now pattern job nm) rfl
  | addTimes now pattern times job nm => exact hquiet (.addTimes now pattern times job nm) rfl

theorem Single_run (d : Deps) (c : Cron) (name : String) (r : Ref) (h : Single c name r)
    (steps : List Step) (hidle : StartsIdle d name r c steps) :
    Single (run d c steps) name r := by
  induction steps generalizing c with
  | nil => exact h
  | cons s steps ih =>
    rw [run_cons]
    exact ih _ (Single_step d c name r h s hidle.1) hidle.2

/-- In a serial execution a singleton runs alone as long as it is started while idle: for
an entry registered by `AddSingleton` on a well-formed manager, over every sequence of
steps run one after another (passes, timer firings, completions, `Stop`, `Start` and the
other API calls) in which `Start` is called with the entry's name only while none of its
invocations is running, at most one invocation of the entry is running. -/
theorem singleton_at_most_one_running (d : Deps) (c : Cron) (hwf : WF c) (now : Nat)
    (pattern : String) (job : Nat) (name : List String) (r : Ref) (c1 : Cron)
    (hadd : AddSingleton d c now pattern job name = (.ok r, c1)) (steps : List Step)
    (hidle : StartsIdle d (c1.heap r).Name r c1 steps) :
    inflight c1 r = 0 ∧ inflight (run d c1 steps) r ≤ 1 := by
  obtain ⟨hr, hnext, hflag, hready, hrun, -⟩ :=
    AddSingleton_result d c now pattern job name r c1 hadd
  have hwf1 : WF c1 := by
    have := WF_AddSingleton d c now pattern job name hwf
    rw [hadd] at this
    exact this
  have hzero : inflight c1 r = 0 := by
    unfold inflight
    rw [hrun, List.countP_eq_zero]
    intro inv hinv
    have := hwf.goroutines inv hinv
    simp only [decide_eq_true_eq]
    intro he
    rw [he, hr] at this
    exact Nat.lt_irrefl _ this
  have h0 : Single c1 (c1.heap r).Name r :=
    ⟨hwf1, by rw [hnext, hr]; exact Nat.lt_succ_self _, hflag, rfl,
      by rw [hzero]; exact Nat.zero_le _, fun h => by rw [hzero] at h; exact absurd h (by decide)⟩
  exact ⟨hzero, (Single_run d c1 _ r h0 steps hidle).atMost⟩

/-- The serial case at an input: the singleton "b" through a pass, a skipped pass, a stop,
the completion of its invocation, a start and another pass, run one after another. -/
theorem singleton_at_most_one_running_witness :
    (WF New ∧
      AddSingleton sampleDeps New 1541289600000000000 "* * * * * *" 1 ["b"]
        = (.ok 0, sampleSingleton) ∧
      StartsIdle sampleDeps (sampleSingleton.heap 0).Name 0 sampleSingleton
        [.check 1, .check 2, .stop ["b"], .complete ⟨0, 1⟩, .start ["b"], .check 3]) ∧
    inflight (run sampleDeps sampleSingleton
      [.check 1, .check 2, .stop ["b"], .complete ⟨0, 1⟩, .start ["b"], .check 3]) 0 ≤ 1 :=
  ⟨⟨WF_New, rfl, by simp [StartsIdle]; decide⟩,
   (singleton_at_most_one_running sampleDeps New WF_New 1541289600000000000 "* * * * * *" 1
      ["b"] 0 sampleSingleton rfl
      [.check 1, .check 2, .stop ["b"], .complete ⟨0, 1⟩, .start ["b"], .check 3]
      (by simp [StartsIdle]; decide)).2⟩



/-! ## Entries with a finite run count -/

theorem Counting_check (d : Deps) (c : Cron) (name : String) (r : Ref) (N m : Nat)
    (hN1 : 1 ≤ N) (hN2 : N ≤ 1000000001) (h : Counting d c name r N m) (t : Nat) :
    Counting d (checkEntries d c t) name r N (m + 1) := by
  have hw := WF_checkEntries d c t h.wf
  have hheapAll := checkEntries_heap d c t h.wf.refs
  have hheap := hheapAll r
  have hl := checkEntries_launches d c t h.wf.refs r
  have hkeep := dispatch_keeps d t (c.heap r)
  have hnext : r < (checkEntries d c t).next := by
    rw [(checkEntries_fields d c t).2.2]; exact h.alloc
  have hsearch := checkEntries_Search d c t h.wf name
  have hcount := h.count
  have hnamed : ((checkEntries d c t).heap r).Name = name := by
    rw [hheap]; split
    · rw [hkeep.1]; exact h.named
    · exact h.named
  have hplain : ((checkEntries d c t).heap r).singleton = false := by
    rw [hheap]; split
    · rw [hkeep.2.1]; exact h.plain
    · exact h.plain
  have hdue : ∀ t1, d.meet ((checkEntries d c t).heap r).schedule t1 = true := by
    intro t1
    rw [hheap]; split
    · rw [hkeep.2.2.1]; exact h.due t1
    · exact h.due t1
  have hothers : ∀ inv ∈ (checkEntries d c t).running, inv.entry ≠ r →
      ((checkEntries d c t).heap inv.entry).Name ≠ name := by
    intro inv hinv hne
    have hnm : ((checkEntries d c t).heap inv.entry).Name = (c.heap inv.entry).Name := by
      rw [hheapAll inv.entry]; split
      · exact (dispatch_keeps d t _).1
      · rfl
    rw [hnm]
    rcases checkEntries_running_origin d c t inv hinv with h1 | h1
    · exact h.others inv h1 hne
    · obtain ⟨kv, hkv, hk⟩ := List.mem_map.1 h1
      intro hcontra
      have hn := h.wf.named kv hkv
      rw [hk, hcontra] at hn
      have := h.own kv hkv hn.symm
      rw [hk] at this
      exact hne this
  have hown : ∀ kv ∈ (checkEntries d c t).entries, kv.1 = name → kv.2 = r := by
    intro kv hkv
    rw [checkEntries_entries] at hkv
    exact h.own kv (List.mem_of_mem_filter hkv)
  have hsr : ¬ ((c.heap r).status = STATUS_RUNNING ∧ (c.heap r).singleton = true) := by
    rw [h.plain]; simp
  by_cases hlt : launches c r < N
  · obtain ⟨hstat, htimes, hreg⟩ := h.before hlt
    have hmem := Search_ref_mem c name r hreg
    have hst : (c.heap r).status ≠ STATUS_STOPPED := by
      rcases hstat with hs | hs <;> rw [hs] <;> simp [STATUS_READY, STATUS_RUNNING, STATUS_STOPPED]
    have hcl : (c.heap r).status ≠ STATUS_CLOSED := by
      rcases hstat with hs | hs <;> rw [hs] <;> simp [STATUS_READY, STATUS_RUNNING, STATUS_CLOSED]
    have hv := dispatch_launches d t _ (h.due t) hst hcl hsr
    have hwrap : wrapInt ((c.heap r).times - 1) = (N : Int) - (launches c r : Int) - 1 := by
      rw [htimes]
      exact wrapInt_id _ (by omega) (by omega)
    rw [if_pos hmem] at hheap
    rw [if_pos ⟨hmem, hv⟩] at hl
    have hreg' : Search (checkEntries d c t) name = some r := by
      rw [hsearch, hreg]
      simp only
      rw [if_neg (by rw [hv]; simp)]
    have hm : launches c r = m := by
      rw [hcount] at hlt ⊢
      omega
    refine ⟨hw, hnext, hnamed, hplain, hdue, by rw [hl, hm]; omega, hothers, hown, ?_, ?_⟩
    · intro hlt'
      rw [hl] at hlt'
      have hpos : 0 < wrapInt ((c.heap r).times - 1) := by rw [hwrap]; omega
      have hnb : ¬ (wrapInt ((c.heap r).times - 1) < 2000000000
          ∧ 1000000000 < wrapInt ((c.heap r).times - 1)) := by rw [hwrap]; omega
      rw [hheap, dispatch_plain d t _ (h.due t) hst hcl hsr hpos hnb]
      refine ⟨Or.inr rfl, ?_, hreg'⟩
      show wrapInt ((c.heap r).times - 1) = _
      rw [hwrap, hl]
      omega
    · intro heq
      rw [hl] at heq
      have hle : wrapInt ((c.heap r).times - 1) ≤ 0 := by rw [hwrap]; omega
      rw [hheap, dispatch_last d t _ (h.due t) hst hcl hsr hle]
      refine ⟨rfl, fun _ => ?_⟩
      have := checkEntries_running_new d c t h.wf.refs r hmem hv
      rw [heq] at this
      exact this
  · have heq : launches c r = N := by
      rw [hcount] at hlt ⊢
      omega
    obtain ⟨hclosed, hrun⟩ := h.after heq
    have hd := dispatch_closed d t _ (h.due t) hclosed
    rw [hd] at hheap hl
    have hheap' : (checkEntries d c t).heap r = c.heap r := by
      rw [hheap]; split <;> rfl
    have hl' : launches (checkEntries d c t) r = launches c r := by
      rw [hl, if_neg (by simp)]
      rfl
    refine ⟨hw, hnext, hnamed, hplain, hdue, by rw [hl', hcount]; omega, hothers, hown, ?_, ?_⟩
    · intro hlt'
      rw [hl'] at hlt'
      exact absurd hlt' hlt
    · intro _
      rw [hheap']
      refine ⟨hclosed, fun hs => ?_⟩
      apply checkEntries_running_mono
      apply hrun
      rw [hsearch] at hs
      cases hq : Search c name with
      | none => rw [hq] at hs; simp at hs
      | some r0 =>
        rw [hq] at hs
        simp only at hs
        split at hs
        · simp at hs
        · exact hs



theorem finish_keeps (e : Entry) :
    e.finish.Name = e.Name ∧ e.finish.singleton = e.singleton ∧
    e.finish.schedule = e.schedule ∧ e.finish.times = e.times := by
  unfold Entry.finish
  split_ifs <;> simp

theorem completion_entries (c : Cron) (x : Ref) :
    (completion c x).entries
      = if (c.heap x).status = STATUS_CLOSED then mapRemove c.entries (c.heap x).Name
        else c.entries := by
  unfold completion
  split_ifs <;> simp [Remove, Cron.modify]

theorem complete_Search (c : Cron) (inv : Invocation) (k : String) :
    Search (complete c inv) k
      = if inv ∈ c.running ∧ (c.heap inv.entry).status = STATUS_CLOSED
          ∧ k = (c.heap inv.entry).Name then none else Search c k := by
  unfold complete
  by_cases hin : inv ∈ c.running
  · rw [if_pos hin]
    have he := completion_entries { c with running := c.running.erase inv } inv.entry
    simp only at he
    by_cases hc : (c.heap inv.entry).status = STATUS_CLOSED
    · rw [if_pos hc] at he
      have hs := Search_Remove c (c.heap inv.entry).Name k
      unfold Search at hs ⊢
      rw [he]
      unfold Remove at hs
      simp only at hs
      rw [hs]
      by_cases hk : k = (c.heap inv.entry).Name
      · rw [if_pos hk, if_pos ⟨hin, hc, hk⟩]
      · rw [if_neg hk, if_neg (fun hh => hk hh.2.2)]
    · rw [if_neg hc] at he
      rw [if_neg (fun hh => hc hh.2.1)]
      unfold Search
      rw [he]
  · rw [if_neg hin, if_neg (fun hh => hin hh.1)]

theorem complete_entries_sub (c : Cron) (inv : Invocation) (kv : String × Ref)
    (h : kv ∈ (complete c inv).entries) : kv ∈ c.entries := by
  unfold complete at h
  split at h
  · rw [completion_entries] at h
    split at h
    · exact List.mem_of_mem_filter h
    · exact h
  · exact h

theorem complete_running (c : Cron) (inv : Invocation) :
    (complete c inv).running = if inv ∈ c.running then c.running.erase inv else c.running := by
  unfold complete
  split
  · rw [(completion_fields _ _).2.2.2.1]
  · rfl

theorem Counting_complete (d : Deps) (c : Cron) (name : String) (r : Ref) (N m : Nat)
    (h : Counting d c name r N m) (inv : Invocation) :
    Counting d (complete c inv) name r N m := by
  by_cases hin : inv ∈ c.running
  swap
  · have : complete c inv = c := by unfold complete; rw [if_neg hin]
    rw [this]; exact h
  have hw := WF_complete c inv h.wf
  have hheapAll := complete_heap c inv
  have hheap := hheapAll r
  have hfields := complete_fields c inv
  have hl : launches (complete c inv) r = launches c r := by
    unfold launches; rw [hfields.2.2.2]
  have hrunning := complete_running c inv
  rw [if_pos hin] at hrunning
  have hsearch := complete_Search c inv name
  have hfk := finish_keeps (c.heap r)
  have hnext : r < (complete c inv).next := by rw [hfields.2.2.1]; exact h.alloc
  have hnamed : ((complete c inv).heap r).Name = name := by
    rw [hheap]; split
    · rw [hfk.1]; exact h.named
    · exact h.named
  have hplain : ((complete c inv).heap r).singleton = false := by
    rw [hheap]; split
    · rw [hfk.2.1]; exact h.plain
    · exact h.plain
  have hdue : ∀ t1, d.meet ((complete c inv).heap r).schedule t1 = true := by
    intro t1
    rw [hheap]; split
    · rw [hfk.2.2.1]; exact h.due t1
    · exact h.due t1
  have hothers : ∀ i ∈ (complete c inv).running, i.entry ≠ r →
      ((complete c inv).heap i.entry).Name ≠ name := by
    intro i hi hne
    rw [hrunning] at hi
    have hnm : ((complete c inv).heap i.entry).Name = (c.heap i.entry).Name := by
      rw [hheapAll i.entry]; split
      · exact (finish_keeps _).1
      · rfl
    rw [hnm]
    exact h.others i (List.mem_of_mem_erase hi) hne
  have hown : ∀ kv ∈ (complete c inv).entries, kv.1 = name → kv.2 = r :=
    fun kv hkv => h.own kv (complete_entries_sub c inv kv hkv)
  by_cases hx : inv.entry = r
  · rw [if_pos ⟨hin, hx.symm⟩] at hheap
    rw [hx] at hsearch
    refine ⟨hw, hnext, hnamed, hplain, hdue, by rw [hl]; exact h.count, hothers, hown, ?_, ?_⟩
    · intro hlt
      rw [hl] at hlt ⊢
      obtain ⟨hstat, htimes, hreg⟩ := h.before hlt
      have hcl : (c.heap r).status ≠ STATUS_CLOSED := by
        rcases hstat with hs | hs <;> rw [hs] <;>
          simp [STATUS_READY, STATUS_RUNNING, STATUS_CLOSED]
      have hst : (c.heap r).status ≠ STATUS_STOPPED := by
        rcases hstat with hs | hs <;> rw [hs] <;>
          simp [STATUS_READY, STATUS_RUNNING, STATUS_STOPPED]
      refine ⟨?_, ?_, ?_⟩
      · left
        rw [hheap]
        unfold Entry.finish
        rw [if_neg hcl, if_neg hst]
      · rw [hheap, hfk.2.2.2]; exact htimes
      · rw [hsearch, if_neg (fun hh => hcl hh.2.1)]; exact hreg
    · intro heq
      rw [hl] at heq
      obtain ⟨hclosed, -⟩ := h.after heq
      refine ⟨?_, ?_⟩
      · rw [hheap]
        unfold Entry.finish
        rw [if_pos hclosed]; exact hclosed
      · intro hs
        rw [hsearch, if_pos ⟨hin, hclosed, h.named.symm⟩] at hs
        simp at hs
  · have hxr : ¬ r = inv.entry := fun hh => hx hh.symm
    rw [if_neg (fun hh => hxr hh.2)] at hheap
    have hnx : (c.heap inv.entry).Name ≠ name := h.others inv hin hx
    rw [if_neg (fun hh => hnx hh.2.2.symm)] at hsearch
    refine ⟨hw, hnext, hnamed, hplain, hdue, by rw [hl]; exact h.count, hothers, hown, ?_, ?_⟩
    · intro hlt
      rw [hl] at hlt ⊢
      rw [hheap, hsearch]
      exact h.before hlt
    · intro heq
      rw [hl] at heq
      obtain ⟨hclosed, hrun⟩ := h.after heq
      rw [hheap, hsearch, hrunning]
      refine ⟨hclosed, fun hs => ?_⟩
      have hne : (⟨r, N⟩ : Invocation) ≠ inv := by
        intro hh
        apply hx
        rw [← hh]
      exact (List.mem_erase_of_ne hne).2 (hrun hs)

theorem Counting_run (d : Deps) (c : Cron) (name : String) (r : Ref) (N m : Nat)
    (hN1 : 1 ≤ N) (hN2 : N ≤ 1000000001) (h : Counting d c name r N m) (steps : List Step)
    (hsteps : ∀ s ∈ steps, (∃ t, s = .check t) ∨ (∃ inv, s = .complete inv)) :
    Counting d (run d c steps) name r N (m + steps.countP Step.isCheck) := by
  induction steps generalizing c m with
  | nil => exact h
  | cons s steps ih =>
    rw [run_cons]
    have hrest : ∀ s1 ∈ steps, (∃ t, s1 = .check t) ∨ (∃ inv, s1 = .complete inv) :=
      fun s1 hs1 => hsteps s1 (List.mem_cons_of_mem _ hs1)
    rcases hsteps s (List.mem_cons_self _ _) with ⟨t, ht⟩ | ⟨inv, hi⟩
    · subst ht
      have := ih (step d c (.check t)) (m + 1) (Counting_check d c name r N m hN1 hN2 h t) hrest
      rw [List.countP_cons]
      simp only [Step.isCheck, if_true]
      rw [show m + (List.countP Step.isCheck steps + 1)
        = m + 1 + List.countP Step.isCheck steps by omega]
      exact this
    · subst hi
      have := ih (step d c (.complete inv)) m (Counting_complete d c name r N m h inv) hrest
      rw [List.countP_cons]
      simp only [Step.isCheck]
      exact this



theorem AddTimes_result (d : Deps) (c : Cron) (now : Nat) (pattern : String) (times : Int)
    (job : Nat) (name : List String) (r : Ref) (c1 : Cron)
    (h : AddTimes d c now pattern times job name = (.ok r, c1)) :
    r = c.next ∧ c1.next = c.next + 1 ∧
    c1.heap r = { schedule := pattern, status := STATUS_READY, singleton := false,
                  times := times, Name := (c1.heap r).Name, Job := job, Time := now } ∧
    c1.entries = mapSet c.entries (c1.heap r).Name r ∧
    c1.running = c.running ∧ c1.launched = c.launched ∧
    (∀ x, x ≠ r → c1.heap x = c.heap x) := by
  unfold AddTimes at h
  rcases hq : Add d c now pattern job name with ⟨res, c0⟩
  rw [hq] at h
  cases res with
  | error err => simp at h
  | ok r0 =>
    simp only [Prod.mk.injEq, Except.ok.injEq] at h
    obtain ⟨h1, h2⟩ := h
    subst h1 h2
    obtain ⟨g1, g2, g3, g4, g5, g6, -, g8⟩ := Add_result d c now pattern job name r0 c0 hq
    have hheap : (c0.modify r0 fun e => e.SetTimes times).heap r0 = (c0.heap r0).SetTimes times := by
      simp [Cron.modify]
    have hnm : ((c0.modify r0 fun e => e.SetTimes times).heap r0).Name = (c0.heap r0).Name := by
      rw [hheap]; rfl
    refine ⟨g1, g2, ?_, ?_, g5, g6, ?_⟩
    · rw [hnm, hheap, g3]
      rfl
    · rw [hnm]
      exact g4
    · intro x hx
      show Function.update c0.heap r0 _ x = c.heap x
      rw [Function.update_noteq hx]
      exact g8 x hx

/-- An entry above the band that is registered, not stopped, not a singleton and always due
is launched by every pass and stays registered. -/
theorem unlimited_launched_every_pass (d : Deps) (hlo : 1000000001 < d.gDEFAULT_TIMES)
    (hhi : d.gDEFAULT_TIMES < 9223372036854775808) (c : Cron) (hwf : WF c) (name : String)
    (r : Ref) (hreg : Search c name = some r) (hun : Unlimited (c.heap r))
    (hst : (c.heap r).status ≠ STATUS_STOPPED) (hplain : (c.heap r).singleton = false)
    (hdue : ∀ t, d.meet (c.heap r).schedule t = true) (k t : Nat) :
    launches (run d c (List.replicate k (.check t))) r = launches c r + k ∧
    Search (run d c (List.replicate k (.check t))) name = some r := by
  induction k generalizing c with
  | zero => exact ⟨rfl, hreg⟩
  | succ k ih =>
    rw [List.replicate_succ, run_cons]
    show launches (run d (checkEntries d c t) _) r = _ ∧ Search (run d (checkEntries d c t) _) name = _
    have hmem := Search_ref_mem c name r hreg
    have hsr : ¬ ((c.heap r).status = STATUS_RUNNING ∧ (c.heap r).singleton = true) := by
      rw [hplain]; simp
    have hv := dispatch_launches d t _ (hdue t) hst hun.2.2 hsr
    have hdu := dispatch_unlimited d hlo hhi t _ hun
    have hkeep := dispatch_keeps d t (c.heap r)
    have hheap : (checkEntries d c t).heap r = (dispatch d t (c.heap r)).1 := by
      rw [checkEntries_heap d c t hwf.refs, if_pos hmem]
    have hreg1 : Search (checkEntries d c t) name = some r := by
      rw [checkEntries_Search d c t hwf name, hreg]
      simp only
      rw [if_neg hdu.2]
    have hst1 : ((checkEntries d c t).heap r).status ≠ STATUS_STOPPED := by
      rw [hheap]
      rcases dispatch_cases d t (c.heap r) with ⟨-, hnl⟩ | ⟨-, -, -, -, -, hnew⟩
      · exact absurd hv hnl
      · rcases hnew with hn | hn <;> rw [hn] <;>
          simp [STATUS_RUNNING, STATUS_CLOSED, STATUS_STOPPED]
    have hl1 : launches (checkEntries d c t) r = launches c r + 1 := by
      rw [checkEntries_launches d c t hwf.refs, if_pos ⟨hmem, hv⟩]
    have := ih (checkEntries d c t) (WF_checkEntries d c t hwf) hreg1
      (by rw [hheap]; exact hdu.1) hst1 (by rw [hheap, hkeep.2.1]; exact hplain)
      (fun t1 => by rw [hheap, hkeep.2.2.1]; exact hdue t1)
    rw [this.1, hl1]
    exact ⟨by omega, this.2⟩

/-- C2 fails as stated. With `math.MaxInt32` as `gDEFAULT_TIMES`, the entry "a" registered
for 1000000002 runs has its counter reset to the constant by the first pass, has been
launched 1000000003 times after as many passes and is still registered. When "a" is
registered for three runs while the invocation of an earlier entry "a" is running, the
completion of that invocation removes the new entry after a single launch. When "a" is
registered for two runs and the deferred function of its first invocation reads RUNNING at
line 237 before the second pass closes the entry and stores READY at line 244 after it, a
third pass launches a third invocation. And when a pass runs between the registration of
line 87 and the `SetTimes` of line 90 of `AddTimes` for two runs, three invocations are
launched. -/
theorem finite_count_is_not_exact :
    ((sampleBand.heap 0).times = 1000000002 ∧
      ((run sampleDeps sampleBand [.check 1]).heap 0).times = 2147483647 ∧
      launches (run sampleDeps sampleBand (List.replicate 1000000003 (.check 1))) 0
        = 1000000003 ∧
      Search (run sampleDeps sampleBand (List.replicate 1000000003 (.check 1))) "a"
        = some 0) ∧
    (Search (run sampleDeps New (sampleStale.take 4)) "a" = some 1 ∧
      ((run sampleDeps New (sampleStale.take 4)).heap 1).times = 3 ∧
      launches (run sampleDeps New sampleStale) 1 = 1 ∧
      inflight (run sampleDeps New sampleStale) 1 = 1 ∧
      Search (run sampleDeps New sampleStale) "a" = none) ∧
    ((sampleOverlap.heap 0).status = STATUS_RUNNING ∧
      launches sampleOverlap 0 = 1 ∧
      ((checkEntries sampleDeps sampleOverlap 2).heap 0).status = STATUS_CLOSED ∧
      launches (checkEntries sampleDeps sampleOverlap 2) 0 = 2 ∧
      (sampleUndone.heap 0).status = STATUS_READY ∧
      launches (run sampleDeps sampleUndone [.check 3]) 0 = 3) ∧
    (((checkEntries sampleDeps sampleNamed 1).heap 0).times = 2147483646 ∧
      (sampleLateCount.heap 0).times = 2 ∧
      launches sampleLateCount 0 = 1 ∧
      launches (run sampleDeps sampleLateCount [.check 2, .check 3, .check 4]) 0 = 3) := by
  refine ⟨?_, by decide, by decide, by decide⟩
  · have hwf : WF sampleBand := WF_AddTimes _ _ _ _ _ _ _ WF_New
    have h := unlimited_launched_every_pass sampleDeps (by decide) (by decide) sampleBand hwf
      "a" 0 (by decide) ⟨by decide, by decide, by decide⟩ (by decide) (by decide)
      (fun _ => rfl) 1000000003 1
    have h0 : launches sampleBand 0 = 0 := by decide
    rw [h0, Nat.zero_add] at h
    exact ⟨by decide, by decide, h⟩

/-- C2, amended, for serial executions: on a well-formed manager on which no invocation of
an entry of the same name is running, an entry registered by `AddTimes` for `N` runs with
1 ≤ N ≤ 1000000001 (`AddOnce` is `AddTimes` with 1) and due at every instant has, after
any sequence of passes and deferred functions that follow the registration call and run
one after another, none starting before the one before it has ended, been launched
min(passes, N) times; it is registered as long as fewer than `N` launches were made, and
once the `N`-th invocation has completed it is no longer registered. -/
theorem finite_count_runs_exactly_N (d : Deps) (c : Cron) (hwf : WF c) (now : Nat)
    (pattern : String) (N : Nat) (job : Nat) (name : List String) (r : Ref) (c1 : Cron)
    (hN1 : 1 ≤ N) (hN2 : N ≤ 1000000001)
    (hadd : AddTimes d c now pattern (N : Int) job name = (.ok r, c1))
    (hdue : ∀ t, d.meet pattern t = true)
    (hfresh : ∀ inv ∈ c.running, (c.heap inv.entry).Name ≠ (c1.heap r).Name)
    (steps : List Step)
    (hsteps : ∀ s ∈ steps, (∃ t, s = .check t) ∨ (∃ inv, s = .complete inv)) :
    AddOnce d c now pattern job name = AddTimes d c now pattern 1 job name ∧
    launches (run d c1 steps) r = min (steps.countP Step.isCheck) N ∧
    (launches (run d c1 steps) r < N →
      Search (run d c1 steps) (c1.heap r).Name = some r) ∧
    (launches (run d c1 steps) r = N → (⟨r, N⟩ : Invocation) ∉ (run d c1 steps).running →
      Search (run d c1 steps) (c1.heap r).Name = none) := by
  obtain ⟨hr, hnext, hheap, hent, hrun, hlog, hother⟩ :=
    AddTimes_result d c now pattern N job name r c1 hadd
  have hwf1 : WF c1 := by
    have := WF_AddTimes d c now pattern N job name hwf
    rw [hadd] at this
    exact this
  have hl0 : launches c1 r = 0 := by
    unfold launches
    rw [hlog, List.count_eq_zero]
    intro hmem
    have := hwf.logged r hmem
    rw [hr] at this
    exact Nat.lt_irrefl _ this
  have hreg : Search c1 (c1.heap r).Name = some r := by
    unfold Search
    rw [hent]
    simp [mapGet, mapSet]
  have h0 : Counting d c1 (c1.heap r).Name r N 0 := by
    refine ⟨hwf1, by rw [hnext, hr]; exact Nat.lt_succ_self _, rfl, by rw [hheap],
      fun t => by rw [hheap]; exact hdue t, by rw [hl0]; simp, ?_, ?_, ?_, ?_⟩
    · intro inv hinv hne
      rw [hrun] at hinv
      rw [hother inv.entry hne]
      exact hfresh inv hinv
    · intro kv hkv hk
      rw [hent] at hkv
      unfold mapSet at hkv
      rcases List.mem_cons.1 hkv with h1 | h1
      · rw [h1]
      · have := (List.mem_filter.1 h1).2
        simp only [ne_eq, decide_not, Bool.not_eq_true', decide_eq_false_iff_not] at this
        exact absurd hk this
    · intro _
      refine ⟨Or.inl (by rw [hheap]), ?_, hreg⟩
      rw [hl0, hheap]
      simp
    · intro heq
      rw [hl0] at heq
      omega
  have hK := Counting_run d c1 (c1.heap r).Name r N 0 hN1 hN2 h0 steps hsteps
  rw [Nat.zero_add] at hK
  refine ⟨rfl, hK.count, fun hlt => (hK.before hlt).2.2, ?_⟩
  intro heq hnot
  cases hs : Search (run d c1 steps) (c1.heap r).Name with
  | none => rfl
  | some r0 =>
    have hr0 : r0 = r := hK.own (_, r0) (Search_mem _ _ _ hs) rfl
    rw [hr0] at hs
    exact absurd ((hK.after heq).2 hs) hnot

/-- Witness for the amended C2: "a" registered for three runs on a new manager; after
three passes and the completion of the third invocation, run one after another, it has
been launched three times. -/
theorem finite_count_runs_exactly_N_witness :
    (WF New ∧ 1 ≤ 3 ∧ 3 ≤ 1000000001 ∧
      AddTimes sampleDeps New 1541289600000000000 "* * * * * *" ((3 : Nat) : Int) 1 ["a"]
        = (.ok 0, sampleThree) ∧
      (∀ t, sampleDeps.meet "* * * * * *" t = true) ∧
      (∀ inv ∈ New.running, (New.heap inv.entry).Name ≠ (sampleThree.heap 0).Name) ∧
      (∀ s ∈ [Step.check 1, Step.check 2, Step.check 3, Step.complete ⟨0, 3⟩],
        (∃ t, s = .check t) ∨ (∃ inv, s = .complete inv))) ∧
    launches (run sampleDeps sampleThree [.check 1, .check 2, .check 3, .complete ⟨0, 3⟩]) 0
      = min ([Step.check 1, Step.check 2, Step.check 3, Step.complete ⟨0, 3⟩].countP
          Step.isCheck) 3 :=
  ⟨⟨WF_New, by decide, by decide, rfl, fun _ => rfl, by simp [New], by simp⟩,
   (finite_count_runs_exactly_N sampleDeps New WF_New 1541289600000000000 "* * * * * *" 3 1
      ["a"] 0 sampleThree (by decide) (by decide) rfl (fun _ => rfl) (by simp [New])
      [.check 1, .check 2, .check 3, .complete ⟨0, 3⟩] (by simp)).2.1⟩


/-! ## Registration under a new name -/

theorem filter_ne_of_mapGet_none (m : List (String × Ref)) (k : String)
    (h : mapGet m k = none) : m.filter (fun kv => decide (kv.1 ≠ k)) = m := by
  rw [List.filter_eq_self]
  intro kv hkv
  have hk := (mapGet_none m k).1 h
  simp only [ne_eq, decide_not, Bool.not_eq_true', decide_eq_false_iff_not]
  intro heq
  apply hk
  rw [← heq]
  exact List.mem_map.2 ⟨kv, hkv, rfl⟩

/-- C13: for a valid pattern, `Add` with an explicit name that is not registered returns
the new entry object, which carries that name, is not a singleton and has its counter at
`gDEFAULT_TIMES`; `Search` finds it under the name and `Size` has grown by one. With no
name the entry is stored under the decimal string of the id generator's next value, which
is "1000001" on a new manager. -/
theorem Add_registers_entry (d : Deps) (c : Cron) (now : Nat) (pattern : String) (job : Nat)
    (hp : d.newSchedule pattern = true) :
    (∀ (name : String) (rest : List String), Search c name = none →
      (Add d c now pattern job (name :: rest)).1 = .ok c.next ∧
      ((Add d c now pattern job (name :: rest)).2.heap c.next).Name = name ∧
      ((Add d c now pattern job (name :: rest)).2.heap c.next).singleton = false ∧
      ((Add d c now pattern job (name :: rest)).2.heap c.next).times = d.gDEFAULT_TIMES ∧
      Search (Add d c now pattern job (name :: rest)).2 name = some c.next ∧
      Size (Add d c now pattern job (name :: rest)).2 = Size c + 1) ∧
    ((Add d c now pattern job []).1 = .ok c.next ∧
      (Add d c now pattern job []).2.idgen = wrapInt (c.idgen + 1) ∧
      ((Add d c now pattern job []).2.heap c.next).Name = Itoa (wrapInt (c.idgen + 1)) ∧
      ((Add d c now pattern job []).2.heap c.next).singleton = false ∧
      ((Add d c now pattern job []).2.heap c.next).times = d.gDEFAULT_TIMES ∧
      Search (Add d c now pattern job []).2 (Itoa (wrapInt (c.idgen + 1))) = some c.next) ∧
    ((Add d New now pattern job []).1 = .ok 0 ∧
      ((Add d New now pattern job []).2.heap 0).Name = "1000001" ∧
      Search (Add d New now pattern job []).2 "1000001" = some 0 ∧
      Size (Add d New now pattern job []).2 = 1) := by
  have hnoname : ∀ c0 : Cron, Add d c0 now pattern job []
      = (.ok c0.next,
          { c0 with
            idgen := wrapInt (c0.idgen + 1)
            entries := mapSet c0.entries (Itoa (wrapInt (c0.idgen + 1))) c0.next
            heap := Function.update c0.heap c0.next
              { schedule := pattern, status := STATUS_READY, singleton := false,
                times := d.gDEFAULT_TIMES, Name := Itoa (wrapInt (c0.idgen + 1)), Job := job,
                Time := now }
            next := c0.next + 1 }) := by
    intro c0
    simp [Add, newEntry, hp]
  refine ⟨?_, ?_, ?_⟩
  · intro name rest hnone
    have hA : Add d c now pattern job (name :: rest)
        = (.ok c.next,
            { c with
              entries := mapSet c.entries name c.next
              heap := Function.update c.heap c.next
                { schedule := pattern, status := STATUS_READY, singleton := false,
                  times := d.gDEFAULT_TIMES, Name := name, Job := job, Time := now }
              next := c.next + 1 }) := by
      simp [Add, newEntry, hp, hnone]
    rw [hA]
    refine ⟨rfl, by simp, by simp, by simp, by simp [Search, mapGet, mapSet], ?_⟩
    show (mapSet c.entries name c.next).length = c.entries.length + 1
    unfold mapSet
    rw [filter_ne_of_mapGet_none c.entries name hnone]
    rfl
  · rw [hnoname c]
    exact ⟨rfl, rfl, by simp, by simp, by simp, by simp [Search, mapGet, mapSet]⟩
  · rw [hnoname New]
    have hid : Itoa (wrapInt (New.idgen + 1)) = "1000001" := by decide
    rw [hid]
    exact ⟨rfl, by simp [New], by simp [Search, mapGet, mapSet, New],
      by simp [Size, mapSet, New]⟩

/-- Witness for C13: "y" is not registered on the sample manager holding "x". -/
theorem Add_registers_entry_witness :
    (sampleDeps.newSchedule "* * * * * *" = true ∧ Search sampleNamed "y" = none) ∧
    Search (Add sampleDeps sampleNamed 1541289601000000000 "* * * * * *" 2 ["y"]).2 "y"
      = some sampleNamed.next ∧
    Size (Add sampleDeps sampleNamed 1541289601000000000 "* * * * * *" 2 ["y"]).2
      = Size sampleNamed + 1 :=
  ⟨⟨rfl, by decide⟩,
   ((Add_registers_entry sampleDeps sampleNamed 1541289601000000000 "* * * * * *" 2 rfl).1
      "y" [] (by decide)).2.2.2.2.1,
   ((Add_registers_entry sampleDeps sampleNamed 1541289601000000000 "* * * * * *" 2 rfl).1
      "y" [] (by decide)).2.2.2.2.2⟩

/-- C18: on the manager holding the entry registered under the explicit name "1000001",
`Add` without a name succeeds, generates the same name and replaces that entry: `Size`
stays 1 and `Search` returns the new object (address 1), no longer the first (address 0). -/
theorem Add_generated_name_replaces :
    Search sampleNumeric "1000001" = some 0 ∧ Size sampleNumeric = 1 ∧
    (Add sampleDeps sampleNumeric 1541289601000000000 "* * * * * *" 2 []).1 = .ok 1 ∧
    ((Add sampleDeps sampleNumeric 1541289601000000000 "* * * * * *" 2 []).2.heap 1).Name
      = "1000001" ∧
    Size (Add sampleDeps sampleNumeric 1541289601000000000 "* * * * * *" 2 []).2 = 1 ∧
    Search (Add sampleDeps sampleNumeric 1541289601000000000 "* * * * * *" 2 []).2 "1000001"
      = some 1 :=
  ⟨by decide, by decide, rfl, by decide, by decide, by decide⟩


/-! ## Lookup and removal -/

theorem length_filter_ne (m : List (String × Ref)) (k : String) (r : Ref)
    (hnd : (m.map Prod.fst).Nodup) (h : (k, r) ∈ m) :
    (m.filter (fun kv => decide (kv.1 ≠ k))).length + 1 = m.length := by
  induction m with
  | nil => simp at h
  | cons kv m ih =>
    simp only [List.map_cons, List.nodup_cons] at hnd
    by_cases hk : kv.1 = k
    · have hnone : mapGet m k = none := by
        rw [mapGet_none, ← hk]
        exact hnd.1
      rw [List.filter_cons, if_neg (by simpa using hk), filter_ne_of_mapGet_none m k hnone]
      rfl
    · rw [List.filter_cons, if_pos (by simpa using hk)]
      rcases List.mem_cons.1 h with h1 | h1
      · exact absurd (by rw [← h1]) hk
      · simp only [List.length_cons]
        rw [ih hnd.2 h1]

/-- C14: `Search` reads the registry and nothing else. After `Remove(name)`, `Search(name)`
finds nothing, every other name is found as before, every entry object (status, counter)
and the global status are as before, and `Size` is unchanged if the name was not registered
and one less if it was. -/
theorem Remove_frame (c : Cron) (name : String) :
    Search c name = mapGet c.entries name ∧
    Search (Remove c name) name = none ∧
    (∀ m, m ≠ name → Search (Remove c name) m = Search c m) ∧
    (Remove c name).heap = c.heap ∧ (Remove c name).status = c.status ∧
    (Remove c name).idgen = c.idgen ∧ (Remove c name).running = c.running ∧
    (Remove c name).launched = c.launched ∧
    (Search c name = none → Size (Remove c name) = Size c) ∧
    (WF c → Search c name ≠ none → Size (Remove c name) + 1 = Size c) := by
  refine ⟨rfl, ?_, ?_, rfl, rfl, rfl, rfl, rfl, ?_, ?_⟩
  · rw [Search_Remove, if_pos rfl]
  · intro m hm
    rw [Search_Remove, if_neg hm]
  · intro hnone
    show (mapRemove c.entries name).length = c.entries.length
    unfold mapRemove
    rw [filter_ne_of_mapGet_none c.entries name hnone]
  · intro hwf hsome
    cases hs : Search c name with
    | none => exact absurd hs hsome
    | some r =>
      exact length_filter_ne c.entries name r hwf.keys (Search_mem c name r hs)

/-- Witness for C14: "x" is removed from the sample manager. -/
theorem Remove_frame_witness :
    (WF sampleNamed ∧ Search sampleNamed "x" ≠ none) ∧
    Size (Remove sampleNamed "x") + 1 = Size sampleNamed :=
  ⟨⟨WF_Add _ _ _ _ _ _ WF_New, by decide⟩,
   (Remove_frame sampleNamed "x").2.2.2.2.2.2.2.2.2 (WF_Add _ _ _ _ _ _ WF_New) (by decide)⟩

/-! ## The deferred function -/

/-- C16: the deferred function of a launched invocation acts on the status of its entry
object: CLOSED, the entry's name is removed from the registry and no object changes;
STOPPED, nothing changes; any other status, the status becomes READY and the registry and
every other object are as before. No counter changes, and the goroutine that ends is the
only change to the running ones. -/
theorem completion_acts_on_status (c : Cron) (r : Ref) :
    ((c.heap r).status = STATUS_CLOSED →
      (completion c r).entries = mapRemove c.entries (c.heap r).Name ∧
      Search (completion c r) (c.heap r).Name = none ∧
      (completion c r).heap = c.heap) ∧
    ((c.heap r).status = STATUS_STOPPED → completion c r = c) ∧
    ((c.heap r).status ≠ STATUS_CLOSED → (c.heap r).status ≠ STATUS_STOPPED →
      ((completion c r).heap r).status = STATUS_READY ∧
      (completion c r).entries = c.entries ∧
      (∀ x, x ≠ r → (completion c r).heap x = c.heap x)) ∧
    (∀ x, ((completion c r).heap x).times = (c.heap x).times) ∧
    (completion c r).status = c.status ∧
    (∀ inv, inv ∈ c.running → inv.entry = r →
      (complete c inv).entries = (completion c r).entries ∧
      (complete c inv).heap = (completion c r).heap ∧
      (complete c inv).running = c.running.erase inv) := by
  refine ⟨?_, ?_, ?_, ?_, (completion_fields c r).2.1, ?_⟩
  · intro h
    have he : (completion c r).entries = mapRemove c.entries (c.heap r).Name := by
      rw [completion_entries, if_pos h]
    refine ⟨he, ?_, ?_⟩
    · have hs := Search_Remove c (c.heap r).Name (c.heap r).Name
      rw [if_pos rfl] at hs
      unfold Search
      rw [he]
      exact hs
    · unfold completion
      rw [if_pos h]
      rfl
  · intro h
    unfold completion
    rw [if_neg (by rw [h]; simp [STATUS_STOPPED, STATUS_CLOSED]), if_pos h]
  · intro h1 h2
    refine ⟨?_, ?_, ?_⟩
    · rw [completion_heap, if_pos rfl]
      unfold Entry.finish
      rw [if_neg h1, if_neg h2]
    · rw [completion_entries, if_neg h1]
    · intro x hx
      rw [completion_heap, if_neg hx]
  · intro x
    rw [completion_heap]
    split
    · rename_i hx
      rw [(finish_keeps _).2.2.2, hx]
    · rfl
  · intro inv hin hr
    subst hr
    have hc : complete c inv = completion { c with running := c.running.erase inv } inv.entry := by
      unfold complete
      rw [if_pos hin]
    refine ⟨?_, ?_, ?_⟩
    · rw [hc, completion_entries, completion_entries]
    · funext x
      rw [hc, completion_heap, completion_heap]
    · rw [complete_running, if_pos hin]

/-- Witness for C16: the invocation of the closed entry "a" completes. -/
theorem completion_acts_on_status_witness :
    (sampleClosed.heap 0).status = STATUS_CLOSED ∧
    Search (completion sampleClosed 0) (sampleClosed.heap 0).Name = none :=
  ⟨by decide, ((completion_acts_on_status sampleClosed 0).1 (by decide)).2.1⟩


/-! ## The global status after `Close` -/

theorem Add_status (d : Deps) (c : Cron) (now : Nat) (pattern : String) (job : Nat)
    (name : List String) : (Add d c now pattern job name).2.status = c.status := by
  rcases Add_cases d c now pattern job name with ⟨err, he⟩ | ⟨nm, he, -, -, -⟩ <;> rw [he]

theorem AddWith_status (d : Deps) (c : Cron) (now : Nat) (pattern : String) (job : Nat)
    (name : List String) (f : Entry → Entry) :
    (match Add d c now pattern job name with
      | (.error err, c1) => ((.error err : Except CronError Ref), c1)
      | (.ok entry, c1) => (.ok entry, c1.modify entry f)).2.status = c.status := by
  rcases Add_cases d c now pattern job name with ⟨err, he⟩ | ⟨nm, he, -, -, -⟩
  · rw [he]
  · rw [he]
    rfl

/-- Every step other than `Start()` and `Stop()` without names leaves a CLOSED global
status CLOSED. -/
theorem step_closed (d : Deps) (c : Cron) (hc : c.status = STATUS_CLOSED) (s : Step)
    (h1 : s ≠ .start []) (h2 : s ≠ .stop []) : (step d c s).status = STATUS_CLOSED := by
  cases s with
  | check t => exact (checkEntries_fields d c t).2.1.trans hc
  | timer now =>
    show (tick d c now).status = STATUS_CLOSED
    unfold tick
    split
    · exact (checkEntries_fields d c now).2.1.trans hc
    · exact hc
  | complete inv => exact (complete_fields c inv).2.1.trans hc
  | start names =>
    show (Start c names).status = STATUS_CLOSED
    unfold Start
    cases names with
    | nil => exact absurd rfl h1
    | cons v rest =>
      rw [if_pos (by simp)]
      exact (forNamed_fields c (v :: rest) _).2.2.1.trans hc
  | stop names =>
    show (Stop c names).status = STATUS_CLOSED
    unfold Stop
    cases names with
    | nil => exact absurd rfl h2
    | cons v rest =>
      rw [if_pos (by simp)]
      exact (forNamed_fields c (v :: rest) _).2.2.1.trans hc
  | close => rfl
  | remove nm => exact hc
  | add now pattern job nm => exact (Add_status d c now pattern job nm).trans hc
  | addSingleton now pattern job nm => exact (AddWith_status d c now pattern job nm _).trans hc
  | addOnce now pattern job nm => exact (AddWith_status d c now pattern job nm _).trans hc
  | addTimes now pattern times job nm =>
    exact (AddWith_status d c now pattern job nm _).trans hc

/-- C12 fails as stated: after `Close()` on a new manager, `Start()` sets the global status
to READY and `Stop()` sets it to STOPPED. -/
theorem Close_is_overwritten_by_Start_and_Stop :
    (Close New).status = STATUS_CLOSED ∧
    (Start (Close New) []).status = STATUS_READY ∧
    (Start (Close New) []).status ≠ STATUS_CLOSED ∧
    (Stop (Close New) []).status = STATUS_STOPPED ∧
    (Stop (Close New) []).status ≠ STATUS_CLOSED := by
  decide

/-- C12, amended: `Close()` sets the global status to CLOSED, and it stays CLOSED through
every sequence of steps (`Close`, `Add*`, `Remove`, `Start` and `Stop` with names, passes,
timer firings, completions) that contains neither `Start()` nor `Stop()` without names;
`Search`, `Size` and `Entries` only read the manager. -/
theorem Close_stays_closed (d : Deps) (c : Cron) (steps : List Step)
    (hsteps : ∀ s ∈ steps, s ≠ .start [] ∧ s ≠ .stop []) :
    (Close c).status = STATUS_CLOSED ∧ (run d (Close c) steps).status = STATUS_CLOSED := by
  have key : ∀ (l : List Step) (c0 : Cron), c0.status = STATUS_CLOSED →
      (∀ s ∈ l, s ≠ .start [] ∧ s ≠ .stop []) → (run d c0 l).status = STATUS_CLOSED := by
    intro l
    induction l with
    | nil => intro c0 h0 _; exact h0
    | cons s l ih =>
      intro c0 h0 hl
      rw [run_cons]
      have hs := hl s (List.mem_cons_self _ _)
      exact ih _ (step_closed d c0 h0 s hs.1 hs.2) (fun s1 hs1 => hl s1 (List.mem_cons_of_mem _ hs1))
  exact ⟨rfl, key steps (Close c) rfl hsteps⟩

/-- Witness for the amended C12: after `Close()`, a named start, a registration, a removal,
a timer firing and a second `Close()` leave the status CLOSED. -/
theorem Close_stays_closed_witness :
    (∀ s ∈ [Step.start ["x"], Step.add 1541289602000000000 "* * * * * *" 2 ["y"],
        Step.remove "x", Step.timer 1541289603000000000, Step.close],
      s ≠ .start [] ∧ s ≠ .stop []) ∧
    (run sampleDeps (Close sampleNamed)
      [.start ["x"], .add 1541289602000000000 "* * * * * *" 2 ["y"], .remove "x",
       .timer 1541289603000000000, .close]).status = STATUS_CLOSED :=
  ⟨by decide,
   (Close_stays_closed sampleDeps sampleNamed
      [.start ["x"], .add 1541289602000000000 "* * * * * *" 2 ["y"], .remove "x",
       .timer 1541289603000000000, .close] (by decide)).2⟩

/-! ## Removal by name -/

/-- C20: "a" was registered for one run (object 0) and launched, removed by name while the
invocation runs, and registered again (object 1, never launched). When the invocation of
object 0 completes, its deferred function removes "a", under which object 1 is stored. -/
theorem completion_removes_reused_name :
    (⟨0, 1⟩ : Invocation) ∈ sampleReuse.running ∧
    (sampleReuse.heap 0).Name = "a" ∧ (sampleReuse.heap 0).status = STATUS_CLOSED ∧
    Search sampleReuse "a" = some 1 ∧ Size sampleReuse = 1 ∧
    (sampleReuse.heap 1).status = STATUS_READY ∧ launches sampleReuse 1 = 0 ∧
    Search (step sampleDeps sampleReuse (.complete ⟨0, 1⟩)) "a" = none ∧
    Size (step sampleDeps sampleReuse (.complete ⟨0, 1⟩)) = 0 := by
  decide


/-! ## `Start` and `Stop` with names -/

theorem forNamed_hit_status (c : Cron) (name : List String) (f : Entry → Entry) (s0 : Int)
    (hf : ∀ e, (f e).status = s0) (w : String) (hw : w ∈ name) (r : Ref)
    (hs : Search c w = some r) : ((forNamed c name f).heap r).status = s0 := by
  induction name generalizing c with
  | nil => simp at hw
  | cons v name ih =>
    rw [forNamed_cons]
    rcases List.mem_cons.1 hw with h1 | h1
    · subst h1
      rw [hs]
      apply forNamed_stable (fun e => e.status = s0) f (fun e _ => hf e)
      show (Function.update c.heap r (f (c.heap r)) r).status = s0
      rw [Function.update_same]
      exact hf _
    · cases hq : Search c v with
      | none => exact ih c h1 hs
      | some e => exact ih (c.modify e f) h1 hs

theorem forNamed_unregistered (c : Cron) (name : List String) (f : Entry → Entry)
    (h : ∀ w ∈ name, Search c w = none) : forNamed c name f = c := by
  induction name with
  | nil => rfl
  | cons v name ih =>
    rw [forNamed_cons, h v (List.mem_cons_self _ _)]
    exact ih (fun w hw => h w (List.mem_cons_of_mem _ hw))

/-- The loop over the names with an entry method that sets the status to `s0` and nothing
else: the manager's own fields and the goroutines are untouched, an entry object changes in
its status at most, the objects found under none of the names do not change, and the
objects found under one of the names end with status `s0`. -/
theorem forNamed_frame (c : Cron) (name : List String) (f : Entry → Entry) (s0 : Int)
    (hf : ∀ e, f e = { e with status := s0 }) :
    (forNamed c name f).entries = c.entries ∧ (forNamed c name f).status = c.status ∧
    (forNamed c name f).idgen = c.idgen ∧ (forNamed c name f).running = c.running ∧
    (forNamed c name f).launched = c.launched ∧
    (∀ r, ((forNamed c name f).heap r).times = (c.heap r).times ∧
      ((forNamed c name f).heap r).singleton = (c.heap r).singleton ∧
      ((forNamed c name f).heap r).Name = (c.heap r).Name ∧
      ((forNamed c name f).heap r).schedule = (c.heap r).schedule) ∧
    (∀ r, (∀ w ∈ name, Search c w ≠ some r) → (forNamed c name f).heap r = c.heap r) ∧
    (WF c → ∀ m r, Search c m = some r → m ∉ name → (forNamed c name f).heap r = c.heap r) ∧
    (∀ w ∈ name, ∀ r, Search c w = some r → ((forNamed c name f).heap r).status = s0) ∧
    ((∀ w ∈ name, Search c w = none) → forNamed c name f = c) := by
  have hfields := forNamed_fields c name f
  refine ⟨hfields.1, hfields.2.2.1, hfields.2.1, hfields.2.2.2.2.1, hfields.2.2.2.2.2,
    ?_, ?_, ?_, ?_, forNamed_unregistered c name f⟩
  · intro r
    exact forNamed_stable
      (fun e => e.times = (c.heap r).times ∧ e.singleton = (c.heap r).singleton ∧
        e.Name = (c.heap r).Name ∧ e.schedule = (c.heap r).schedule) f
      (fun e he => by rw [hf e]; exact he) c name r ⟨rfl, rfl, rfl, rfl⟩
  · intro r hmiss
    exact forNamed_heap_miss c name f r hmiss
  · intro hwf m r hm hnot
    apply forNamed_heap_miss
    intro w hw hs
    have h1 := Search_name c hwf w r hs
    have h2 := Search_name c hwf m r hm
    rw [h1] at h2
    rw [h2] at hw
    exact hnot hw
  · intro w hw r hs
    exact forNamed_hit_status c name f s0 (fun e => by rw [hf e]) w hw r hs

/-- C15: `Start` and `Stop` with a non-empty list of names leave the global status, the
registry, the id generator and the goroutines as they are and change no counter; the
objects of registered entries that are not named are unchanged, the named registered
entries end READY after `Start` and STOPPED after `Stop`, and when none of the names is
registered the manager is unchanged. -/
theorem named_Start_Stop_frame (c : Cron) (v : String) (rest : List String) :
    ((Start c (v :: rest)).entries = c.entries ∧ (Start c (v :: rest)).status = c.status ∧
      (Start c (v :: rest)).running = c.running ∧
      (∀ r, ((Start c (v :: rest)).heap r).times = (c.heap r).times) ∧
      (∀ r, (∀ w ∈ v :: rest, Search c w ≠ some r) → (Start c (v :: rest)).heap r = c.heap r) ∧
      (WF c → ∀ m r, Search c m = some r → m ∉ v :: rest →
        (Start c (v :: rest)).heap r = c.heap r) ∧
      (∀ w ∈ v :: rest, ∀ r, Search c w = some r →
        ((Start c (v :: rest)).heap r).status = STATUS_READY) ∧
      ((∀ w ∈ v :: rest, Search c w = none) → Start c (v :: rest) = c)) ∧
    ((Stop c (v :: rest)).entries = c.entries ∧ (Stop c (v :: rest)).status = c.status ∧
      (Stop c (v :: rest)).running = c.running ∧
      (∀ r, ((Stop c (v :: rest)).heap r).times = (c.heap r).times) ∧
      (∀ r, (∀ w ∈ v :: rest, Search c w ≠ some r) → (Stop c (v :: rest)).heap r = c.heap r) ∧
      (WF c → ∀ m r, Search c m = some r → m ∉ v :: rest →
        (Stop c (v :: rest)).heap r = c.heap r) ∧
      (∀ w ∈ v :: rest, ∀ r, Search c w = some r →
        ((Stop c (v :: rest)).heap r).status = STATUS_STOPPED) ∧
      ((∀ w ∈ v :: rest, Search c w = none) → Stop c (v :: rest) = c)) := by
  have hlen : 0 < (v :: rest).length := by simp
  have hstart : Start c (v :: rest) = forNamed c (v :: rest) Entry.Start := by
    unfold Start; rw [if_pos hlen]
  have hstop : Stop c (v :: rest) = forNamed c (v :: rest) Entry.Stop := by
    unfold Stop; rw [if_pos hlen]
  rw [hstart, hstop]
  obtain ⟨a1, a2, -, a4, -, a6, a7, a8, a9, a10⟩ :=
    forNamed_frame c (v :: rest) Entry.Start STATUS_READY (fun _ => rfl)
  obtain ⟨b1, b2, -, b4, -, b6, b7, b8, b9, b10⟩ :=
    forNamed_frame c (v :: rest) Entry.Stop STATUS_STOPPED (fun _ => rfl)
  exact ⟨⟨a1, a2, a4, fun r => (a6 r).1, a7, a8, a9, a10⟩,
    ⟨b1, b2, b4, fun r => (b6 r).1, b7, b8, b9, b10⟩⟩

/-- Witness for C15: on the manager holding "first" and "second", `Stop("second", "none")`
leaves the object of "first" alone. -/
theorem named_Start_Stop_frame_witness :
    (WF sampleTwo ∧ Search sampleTwo "first" = some 0 ∧ "first" ∉ ["second", "none"]) ∧
    (Stop sampleTwo ["second", "none"]).heap 0 = sampleTwo.heap 0 :=
  ⟨⟨WF_run _ _ _ WF_New, by decide, by decide⟩,
   (named_Start_Stop_frame sampleTwo "second" ["none"]).2.2.2.2.2.2.1 (WF_run _ _ _ WF_New)
      "first" 0 (by decide) (by decide)⟩


/-! ## Entries a pass does not launch -/

/-- An entry object that the loop body leaves as it is and does not launch is, after the
scan of any list, as it was, with as many launches and running invocations as before. -/
theorem scan_quiet (d : Deps) (t : Nat) (l : List (String × Ref)) (acc : Cron × List String)
    (r : Ref) (h : (dispatch d t (acc.1.heap r)).1 = acc.1.heap r)
    (hv : (dispatch d t (acc.1.heap r)).2 ≠ .launch) :
    (scan d t l acc).1.heap r = acc.1.heap r ∧
    (scan d t l acc).1.launched.count r = acc.1.launched.count r ∧
    inflight (scan d t l acc).1 r = inflight acc.1 r := by
  induction l generalizing acc with
  | nil => exact ⟨rfl, rfl, rfl⟩
  | cons kv l ih =>
    rw [scan_cons]
    have hheap : (checkEntry d t acc kv).1.heap r = acc.1.heap r := by
      rw [checkEntry_heap]
      by_cases hr : r = kv.2
      · subst hr
        rw [Function.update_same]
        exact h
      · rw [Function.update_noteq hr]
    have hcount : (checkEntry d t acc kv).1.launched.count r = acc.1.launched.count r := by
      rw [checkEntry_launched]
      split
      · rename_i hl
        have hne : ¬ kv.2 = r := by
          intro hk
          rw [hk] at hl
          exact hv hl
        simp [List.count_append, List.count_singleton, hne]
      · rfl
    have hinf : inflight (checkEntry d t acc kv).1 r = inflight acc.1 r := by
      unfold inflight
      rw [checkEntry_running]
      split
      · rename_i hl
        have hne : ¬ kv.2 = r := by
          intro hk
          rw [hk] at hl
          exact hv hl
        simp [List.countP_append, List.countP_cons, hne]
      · rfl
    obtain ⟨i1, i2, i3⟩ := ih (checkEntry d t acc kv) (by rw [hheap]; exact h)
      (by rw [hheap]; exact hv)
    exact ⟨i1.trans hheap, i2.trans hcount, i3.trans hinf⟩

theorem checkEntries_quiet (d : Deps) (c : Cron) (t : Nat) (r : Ref)
    (h : (dispatch d t (c.heap r)).1 = c.heap r) (hv : (dispatch d t (c.heap r)).2 ≠ .launch) :
    (checkEntries d c t).heap r = c.heap r ∧ launches (checkEntries d c t) r = launches c r ∧
    inflight (checkEntries d c t) r = inflight c r := by
  rw [checkEntries_eq]
  exact scan_quiet d t c.entries (c, []) r h hv

theorem scan_removeKeys_mono (d : Deps) (t : Nat) (l : List (String × Ref))
    (acc : Cron × List String) (k : String) (h : k ∈ acc.2) : k ∈ (scan d t l acc).2 := by
  induction l generalizing acc with
  | nil => exact h
  | cons kv l ih =>
    rw [scan_cons]
    apply ih
    rw [checkEntry_removeKeys]
    split
    · exact List.mem_append_left _ h
    · exact h

/-- An entry of the scanned list whose object the loop body puts on `removeKeys` without
changing it has its key on `removeKeys` after the scan. -/
theorem scan_marks (d : Deps) (t : Nat) (l : List (String × Ref)) (acc : Cron × List String)
    (k : String) (r : Ref) (hmem : (k, r) ∈ l)
    (h : dispatch d t (acc.1.heap r) = (acc.1.heap r, .remove)) :
    k ∈ (scan d t l acc).2 := by
  induction l generalizing acc with
  | nil => simp at hmem
  | cons kv l ih =>
    rw [scan_cons]
    rcases List.mem_cons.1 hmem with h1 | h1
    · apply scan_removeKeys_mono
      rw [checkEntry_removeKeys, ← h1]
      simp only
      rw [h]
      simp
    · apply ih _ h1
      have hheap : (checkEntry d t acc kv).1.heap r = acc.1.heap r := by
        rw [checkEntry_heap]
        by_cases hr : r = kv.2
        · subst hr
          rw [Function.update_same, h]
        · rw [Function.update_noteq hr]
      rw [hheap]
      exact h

/-- The loop body leaves alone and does not launch an entry that is CLOSED, STOPPED, or a
RUNNING singleton. -/
theorem dispatch_idle (d : Deps) (t : Nat) (e : Entry)
    (h : e.status = STATUS_CLOSED ∨ e.status = STATUS_STOPPED ∨
      (e.status = STATUS_RUNNING ∧ e.singleton = true)) :
    (dispatch d t e).1 = e ∧ (dispatch d t e).2 ≠ .launch := by
  rcases dispatch_cases d t e with h1 | ⟨-, -, hst, hcl, hsr, -⟩
  · exact h1
  · rcases h with h | h | h
    · exact absurd h hcl
    · exact absurd h hst
    · exact absurd h hsr

/-- C11 fails as stated: with schedules due at the even instants only, the entry "a" is
CLOSED and registered; after the pass at the odd instant 1 it is still registered. -/
theorem closed_entry_survives_idle_pass :
    (sampleClosed.heap 0).status = STATUS_CLOSED ∧
    Search sampleClosed "a" = some 0 ∧
    sampleEven.meet (sampleClosed.heap 0).schedule 1 = false ∧
    Search (checkEntries sampleEven sampleClosed 1) "a" = some 0 ∧
    Size (checkEntries sampleEven sampleClosed 1) = 1 := by
  decide

/-- C11, amended: a pass launches no invocation of a registered entry whose status is
CLOSED at its start and leaves the object as it is; if the entry's schedule is due at the
instant of the pass, its name is no longer in the registry afterwards, and if it is not
due, the entry is still registered (on a well-formed manager). -/
theorem closed_entry_cleanup (d : Deps) (c : Cron) (t : Nat) (k : String) (r : Ref)
    (hmem : (k, r) ∈ c.entries) (hcl : (c.heap r).status = STATUS_CLOSED) :
    launches (checkEntries d c t) r = launches c r ∧
    inflight (checkEntries d c t) r = inflight c r ∧
    (checkEntries d c t).heap r = c.heap r ∧
    (d.meet (c.heap r).schedule t = true →
      Search (checkEntries d c t) k = none ∧
      ∀ r1, (k, r1) ∉ (checkEntries d c t).entries) ∧
    (d.meet (c.heap r).schedule t = false → WF c →
      Search (checkEntries d c t) k = some r) := by
  have hidle := dispatch_idle d t (c.heap r) (Or.inl hcl)
  obtain ⟨q1, q2, q3⟩ := checkEntries_quiet d c t r hidle.1 hidle.2
  refine ⟨q2, q3, q1, ?_, ?_⟩
  · intro hdue
    have hd := dispatch_closed d t _ hdue hcl
    have hk : k ∈ (scan d t c.entries (c, [])).2 := scan_marks d t c.entries (c, []) k r hmem hd
    have hent := checkEntries_entries d c t
    have hnone : Search (checkEntries d c t) k = none := by
      unfold Search
      rw [hent]
      have hfil := mapGet_filter
        (fun s => decide (s ∉ (scan d t c.entries (c, [])).2)) c.entries k
      rw [hfil]
      simp [hk]
    refine ⟨hnone, ?_⟩
    intro r1 hr1
    rw [hent] at hr1
    have := (List.mem_filter.1 hr1).2
    simp only [decide_not, Bool.not_eq_true', decide_eq_false_iff_not] at this
    exact this hk
  · intro hnd hwf
    have hs : Search c k = some r := mapGet_of_mem _ hwf.keys _ _ hmem
    rw [checkEntries_Search d c t hwf k, hs]
    simp only
    rw [dispatch_not_due d t _ hnd]
    simp

/-- Witness for the amended C11: the closed entry "a" at the due instant 2. -/
theorem closed_entry_cleanup_witness :
    (("a", 0) ∈ sampleClosed.entries ∧ (sampleClosed.heap 0).status = STATUS_CLOSED ∧
      sampleEven.meet (sampleClosed.heap 0).schedule 2 = true) ∧
    Search (checkEntries sampleEven sampleClosed 2) "a" = none :=
  ⟨⟨by decide, by decide, by decide⟩,
   ((closed_entry_cleanup sampleEven sampleClosed 2 "a" 0 (by decide) (by decide)).2.2.2.1
      (by decide)).1⟩


/-! ## A running singleton -/

theorem AddSingleton_registered (d : Deps) (c : Cron) (now : Nat) (pattern : String)
    (job : Nat) (name : List String) (r : Ref) (c1 : Cron)
    (h : AddSingleton d c now pattern job name = (.ok r, c1)) :
    Search c1 (c1.heap r).Name = some r ∧ (c1.heap r).schedule = pattern := by
  unfold AddSingleton at h
  rcases hq : Add d c now pattern job name with ⟨res, c0⟩
  rw [hq] at h
  cases res with
  | error err => simp at h
  | ok r0 =>
    simp only [Prod.mk.injEq, Except.ok.injEq] at h
    obtain ⟨h1, h2⟩ := h
    subst h1 h2
    obtain ⟨-, -, g3, g4, -, -, -, -⟩ := Add_result d c now pattern job name r0 c0 hq
    have hheap : (c0.modify r0 fun e => e.SetSingleton true).heap r0
        = (c0.heap r0).SetSingleton true := by
      simp [Cron.modify]
    have hnm : ((c0.modify r0 fun e => e.SetSingleton true).heap r0).Name = (c0.heap r0).Name := by
      rw [hheap]; rfl
    refine ⟨?_, ?_⟩
    · rw [hnm]
      show mapGet c0.entries (c0.heap r0).Name = some r0
      rw [g4]
      simp [mapGet, mapSet]
    · rw [hheap, g3]
      rfl

theorem step_check (d : Deps) (c : Cron) (t : Nat) :
    step d c (.check t) = checkEntries d c t := rfl

theorem dispatch_running_singleton_skip (d : Deps) (t : Nat) (e : Entry)
    (hs : e.singleton = true) (hr : e.status = STATUS_RUNNING) :
    dispatch d t e = (e, .skip) := by
  by_cases hdue : d.meet e.schedule t = true
  · exact dispatch_singleton_running d t e hdue hr hs
  · exact dispatch_not_due d t e (by simpa using hdue)

/-- C17: a pass leaves a singleton entry whose status is RUNNING as it is (status RUNNING,
counter unchanged), launches nothing for it and, on a well-formed manager, keeps it
registered. A singleton entry registered on a well-formed manager and due at the first of
three passes, with no completion in between, is launched exactly once by the three passes. -/
theorem running_singleton_consumes_no_run (d : Deps) :
    (∀ (c : Cron) (t : Nat) (r : Ref), (c.heap r).singleton = true →
      (c.heap r).status = STATUS_RUNNING →
      (checkEntries d c t).heap r = c.heap r ∧
      ((checkEntries d c t).heap r).status = STATUS_RUNNING ∧
      ((checkEntries d c t).heap r).times = (c.heap r).times ∧
      launches (checkEntries d c t) r = launches c r ∧
      inflight (checkEntries d c t) r = inflight c r ∧
      (WF c → ∀ k, Search c k = some r → Search (checkEntries d c t) k = some r)) ∧
    (∀ (c : Cron) (now : Nat) (pattern : String) (job : Nat) (name : List String) (r : Ref)
      (c1 : Cron) (t1 t2 t3 : Nat), WF c →
      AddSingleton d c now pattern job name = (.ok r, c1) → d.meet pattern t1 = true →
      launches c1 r = 0 ∧
      launches (run d c1 [.check t1, .check t2, .check t3]) r = 1 ∧
      inflight (run d c1 [.check t1, .check t2, .check t3]) r = 1) := by
  constructor
  · intro c t r hs hr
    have hd := dispatch_running_singleton_skip d t _ hs hr
    obtain ⟨q1, q2, q3⟩ := checkEntries_quiet d c t r (by rw [hd]) (by rw [hd]; simp)
    refine ⟨q1, by rw [q1]; exact hr, by rw [q1], q2, q3, ?_⟩
    intro hwf k hk
    rw [checkEntries_Search d c t hwf k, hk]
    simp only
    rw [hd]
    simp
  · intro c now pattern job name r c1 t1 t2 t3 hwf hadd hdue
    obtain ⟨hr, hnext, hflag, hready, hrun, hlog⟩ :=
      AddSingleton_result d c now pattern job name r c1 hadd
    obtain ⟨hreg, hsched⟩ := AddSingleton_registered d c now pattern job name r c1 hadd
    have hwf1 : WF c1 := by
      have := WF_AddSingleton d c now pattern job name hwf
      rw [hadd] at this
      exact this
    have hl0 : launches c1 r = 0 := by
      unfold launches
      rw [hlog, List.count_eq_zero]
      intro hmem
      have := hwf.logged r hmem
      rw [hr] at this
      exact Nat.lt_irrefl _ this
    have hi0 : inflight c1 r = 0 := by
      unfold inflight
      rw [hrun, List.countP_eq_zero]
      intro inv hinv
      have := hwf.goroutines inv hinv
      simp only [decide_eq_true_eq]
      intro he
      rw [he, hr] at this
      exact Nat.lt_irrefl _ this
    have hmem := Search_ref_mem c1 _ r hreg
    have hv : (dispatch d t1 (c1.heap r)).2 = .launch := by
      apply dispatch_launches
      · rw [hsched]; exact hdue
      · rw [hready]; simp [STATUS_READY, STATUS_STOPPED]
      · rw [hready]; simp [STATUS_READY, STATUS_CLOSED]
      · rw [hready]; simp [STATUS_READY, STATUS_RUNNING]
    have hheap2 : (checkEntries d c1 t1).heap r = (dispatch d t1 (c1.heap r)).1 := by
      rw [checkEntries_heap d c1 t1 hwf1.refs, if_pos hmem]
    have hl2 : launches (checkEntries d c1 t1) r = 1 := by
      rw [checkEntries_launches d c1 t1 hwf1.refs, if_pos ⟨hmem, hv⟩, hl0]
    have hi2 : inflight (checkEntries d c1 t1) r = 1 := by
      rw [checkEntries_inflight d c1 t1 hwf1.refs, if_pos ⟨hmem, hv⟩, hi0]
    have hbusy : ((checkEntries d c1 t1).heap r).status = STATUS_CLOSED ∨
        ((checkEntries d c1 t1).heap r).status = STATUS_STOPPED ∨
        (((checkEntries d c1 t1).heap r).status = STATUS_RUNNING ∧
          ((checkEntries d c1 t1).heap r).singleton = true) := by
      rw [hheap2]
      rcases dispatch_cases d t1 (c1.heap r) with ⟨-, hnl⟩ | ⟨-, -, -, -, -, hnew⟩
      · exact absurd hv hnl
      · rcases hnew with hn | hn
        · exact Or.inr (Or.inr ⟨hn, by rw [(dispatch_keeps d t1 _).2.1]; exact hflag⟩)
        · exact Or.inl hn
    have hidle2 := dispatch_idle d t2 _ hbusy
    obtain ⟨a1, a2, a3⟩ := checkEntries_quiet d (checkEntries d c1 t1) t2 r hidle2.1 hidle2.2
    have hidle3 := dispatch_idle d t3 ((checkEntries d (checkEntries d c1 t1) t2).heap r)
      (by rw [a1]; exact hbusy)
    obtain ⟨b1, b2, b3⟩ :=
      checkEntries_quiet d (checkEntries d (checkEntries d c1 t1) t2) t3 r hidle3.1 hidle3.2
    have hrun3 : run d c1 [.check t1, .check t2, .check t3]
        = checkEntries d (checkEntries d (checkEntries d c1 t1) t2) t3 := by
      rw [run_cons, run_cons, run_cons, run_nil, step_check, step_check, step_check]
    rw [hrun3]
    exact ⟨hl0, by rw [b2, a2, hl2], by rw [b3, a3, hi2]⟩

/-- Witness for C17: the singleton "b" over three due passes. -/
theorem running_singleton_consumes_no_run_witness :
    (WF New ∧
      AddSingleton sampleDeps New 1541289600000000000 "* * * * * *" 1 ["b"]
        = (.ok 0, sampleSingleton) ∧
      sampleDeps.meet "* * * * * *" 1 = true) ∧
    launches (run sampleDeps sampleSingleton [.check 1, .check 2, .check 3]) 0 = 1 :=
  ⟨⟨WF_New, rfl, rfl⟩,
   ((running_singleton_consumes_no_run sampleDeps).2 New 1541289600000000000 "* * * * * *" 1
      ["b"] 0 sampleSingleton 1 2 3 WF_New rfl rfl).2.1⟩


/-! ## The order of the scan -/

theorem scan_running_count (d : Deps) (t : Nat) (l : List (String × Ref))
    (acc : Cron × List String) (hnd : (l.map Prod.snd).Nodup) (inv : Invocation) :
    (scan d t l acc).1.running.count inv
      = acc.1.running.count inv
        + if inv.entry ∈ l.map Prod.snd ∧ (dispatch d t (acc.1.heap inv.entry)).2 = .launch
            ∧ inv.ordinal = acc.1.launched.count inv.entry + 1 then 1 else 0 := by
  induction l generalizing acc with
  | nil => simp [scan_nil]
  | cons kv l ih =>
    rw [scan_cons]
    simp only [List.map_cons, List.nodup_cons] at hnd
    rw [ih _ hnd.2, checkEntry_heap, checkEntry_running, checkEntry_launched]
    rcases inv with ⟨en, ord⟩
    simp only
    by_cases hr : en = kv.2
    · subst hr
      rw [Function.update_same]
      by_cases hv : (dispatch d t (acc.1.heap kv.2)).2 = .launch
      · by_cases ho : ord = acc.1.launched.count kv.2 + 1
        · subst ho
          simp [hnd.1, hv, List.count_append, List.count_singleton]
        · have hne : ¬ acc.1.launched.count kv.2 + 1 = ord := fun h => ho h.symm
          simp [hnd.1, hv, ho, hne, List.count_append, List.count_singleton]
      · simp [hnd.1, hv]
    · have hr2 : ¬ kv.2 = en := fun h => hr h.symm
      rw [Function.update_noteq hr]
      have hm : (en ∈ kv.2 :: List.map Prod.snd l) ↔ en ∈ List.map Prod.snd l := by
        rw [List.mem_cons]
        exact ⟨fun h => h.resolve_left hr, Or.inr⟩
      by_cases hv : (dispatch d t (acc.1.heap kv.2)).2 = .launch
      · rw [if_pos hv, if_pos hv]
        have hc : List.count en (acc.1.launched ++ [kv.2]) = List.count en acc.1.launched := by
          simp [List.count_append, List.count_singleton, hr2]
        have hc2 : List.count (⟨en, ord⟩ : Invocation)
            (acc.1.running ++ [⟨kv.2, List.count kv.2 acc.1.launched + 1⟩])
            = List.count ⟨en, ord⟩ acc.1.running := by
          simp [List.count_append, List.count_singleton, hr2]
        rw [hc, hc2]
        simp only [List.map_cons, hm]
      · rw [if_neg hv, if_neg hv]
        simp only [List.map_cons, hm]

theorem checkEntries_running_count (d : Deps) (c : Cron) (t : Nat)
    (hnd : (c.entries.map Prod.snd).Nodup) (inv : Invocation) :
    (checkEntries d c t).running.count inv
      = c.running.count inv
        + if inv.entry ∈ c.entries.map Prod.snd ∧ (dispatch d t (c.heap inv.entry)).2 = .launch
            ∧ inv.ordinal = c.launched.count inv.entry + 1 then 1 else 0 := by
  rw [checkEntries_eq]
  exact scan_running_count d t c.entries (c, []) hnd inv

theorem mapGet_perm (l l1 : List (String × Ref)) (hnd : (l.map Prod.fst).Nodup)
    (hp : l1.Perm l) (k : String) : mapGet l1 k = mapGet l k := by
  cases h : mapGet l k with
  | none =>
    rw [mapGet_none] at h ⊢
    intro hk
    exact h ((hp.map Prod.fst).mem_iff.1 hk)
  | some r =>
    have hmem := mapGet_mem l k r h
    exact mapGet_of_mem l1 ((hp.map Prod.fst).nodup_iff.2 hnd) k r (hp.mem_iff.2 hmem)

/-- The loop body's verdict and the status and counter it leaves depend on the entry's
singleton flag, status, counter and due-ness alone. -/
theorem dispatch_depends (d : Deps) (t : Nat) (e1 e2 : Entry)
    (hflag : e1.singleton = e2.singleton) (hstatus : e1.status = e2.status)
    (htimes : e1.times = e2.times) (hdue : d.meet e1.schedule t = d.meet e2.schedule t) :
    (dispatch d t e1).2 = (dispatch d t e2).2 ∧
    (dispatch d t e1).1.status = (dispatch d t e2).1.status ∧
    (dispatch d t e1).1.times = (dispatch d t e2).1.times := by
  unfold dispatch
  simp only [Entry.IsSingleton]
  rw [hflag, hstatus, htimes, hdue]
  split_ifs <;> simp [hstatus, htimes]


/-- C19: a pass over a well-formed registry gives the same outcome for every order in which
the entries are scanned: the same entry objects, the same launches and running invocations
(up to their order in the logs), the same registry (up to order) and the same result of
every `Search`. Each registered entry ends as the loop body leaves its own object, is
launched once or not at all and is removed or kept by the loop body's verdict on it, and
that verdict, with the status and counter left, depends on the entry's singleton flag,
status, counter and due-ness alone. -/
theorem pass_is_order_independent (d : Deps) (c : Cron) (hwf : WF c) (t : Nat)
    (l1 : List (String × Ref)) (hperm : l1.Perm c.entries) :
    (checkEntries d { c with entries := l1 } t).heap = (checkEntries d c t).heap ∧
    (checkEntries d { c with entries := l1 } t).launched.Perm (checkEntries d c t).launched ∧
    (checkEntries d { c with entries := l1 } t).running.Perm (checkEntries d c t).running ∧
    (checkEntries d { c with entries := l1 } t).entries.Perm (checkEntries d c t).entries ∧
    (∀ k, Search (checkEntries d { c with entries := l1 } t) k
      = Search (checkEntries d c t) k) ∧
    (∀ k r, (k, r) ∈ c.entries →
      (checkEntries d c t).heap r = (dispatch d t (c.heap r)).1 ∧
      launches (checkEntries d c t) r
        = launches c r + (if (dispatch d t (c.heap r)).2 = .launch then 1 else 0) ∧
      Search (checkEntries d c t) k
        = if (dispatch d t (c.heap r)).2 = .remove then none else some r) ∧
    (∀ e1 e2 : Entry, e1.singleton = e2.singleton → e1.status = e2.status →
      e1.times = e2.times → d.meet e1.schedule t = d.meet e2.schedule t →
      (dispatch d t e1).2 = (dispatch d t e2).2 ∧
      (dispatch d t e1).1.status = (dispatch d t e2).1.status ∧
      (dispatch d t e1).1.times = (dispatch d t e2).1.times) := by
  have hrefs1 : (l1.map Prod.snd).Nodup := (hperm.map Prod.snd).nodup_iff.2 hwf.refs
  have hkeys1 : (l1.map Prod.fst).Nodup := (hperm.map Prod.fst).nodup_iff.2 hwf.keys
  have hmemiff : ∀ r, r ∈ l1.map Prod.snd ↔ r ∈ c.entries.map Prod.snd :=
    fun r => (hperm.map Prod.snd).mem_iff
  have hwf1 : WF { c with entries := l1 } :=
    ⟨hkeys1, hrefs1, fun kv hkv => hwf.alloc kv (hperm.mem_iff.1 hkv),
      fun kv hkv => hwf.named kv (hperm.mem_iff.1 hkv), hwf.goroutines, hwf.logged⟩
  have hheap : (checkEntries d { c with entries := l1 } t).heap = (checkEntries d c t).heap := by
    funext r
    have h1 := checkEntries_heap d { c with entries := l1 } t hrefs1 r
    have h2 := checkEntries_heap d c t hwf.refs r
    simp only [hmemiff] at h1
    rw [h1, h2]
  have hsearch0 : ∀ k, Search { c with entries := l1 } k = Search c k :=
    fun k => mapGet_perm c.entries l1 hwf.keys hperm k
  refine ⟨hheap, ?_, ?_, ?_, ?_, ?_, fun e1 e2 => dispatch_depends d t e1 e2⟩
  · rw [List.perm_iff_count]
    intro r
    have h1 := checkEntries_launches d { c with entries := l1 } t hrefs1 r
    have h2 := checkEntries_launches d c t hwf.refs r
    unfold launches at h1 h2
    simp only [hmemiff] at h1
    rw [h1, h2]
  · rw [List.perm_iff_count]
    intro inv
    have h1 := checkEntries_running_count d { c with entries := l1 } t hrefs1 inv
    have h2 := checkEntries_running_count d c t hwf.refs inv
    simp only [hmemiff] at h1
    rw [h1, h2]
  · have hrk : ∀ k, k ∈ (scan d t l1 ({ c with entries := l1 }, [])).2
        ↔ k ∈ (scan d t c.entries (c, [])).2 := by
      intro k
      rw [scan_removeKeys d t l1 _ hrefs1 k, scan_removeKeys d t c.entries _ hwf.refs k]
      simp only [hperm.mem_iff]
    rw [checkEntries_entries, checkEntries_entries]
    have hfil : l1.filter (fun kv => decide (kv.1 ∉ (scan d t l1 ({ c with entries := l1 }, [])).2))
        = l1.filter (fun kv => decide (kv.1 ∉ (scan d t c.entries (c, [])).2)) := by
      apply List.filter_congr
      intro kv _
      simp only [hrk]
    show (l1.filter _).Perm _
    rw [hfil]
    exact hperm.filter _
  · intro k
    rw [checkEntries_Search d _ t hwf1 k, checkEntries_Search d c t hwf k, hsearch0 k]
  · intro k r hmem
    have hs : Search c k = some r := mapGet_of_mem _ hwf.keys _ _ hmem
    have hr : r ∈ c.entries.map Prod.snd := List.mem_map.2 ⟨(k, r), hmem, rfl⟩
    refine ⟨?_, ?_, ?_⟩
    · rw [checkEntries_heap d c t hwf.refs, if_pos hr]
    · rw [checkEntries_launches d c t hwf.refs]
      simp only [hr, true_and]
    · rw [checkEntries_Search d c t hwf k, hs]

/-- Witness for C19: the two entries of the sample manager scanned in the reverse order. -/
theorem pass_is_order_independent_witness :
    (WF sampleTwo ∧ sampleTwo.entries.reverse.Perm sampleTwo.entries) ∧
    (checkEntries sampleDeps { sampleTwo with entries := sampleTwo.entries.reverse } 1).heap
      = (checkEntries sampleDeps sampleTwo 1).heap :=
  ⟨⟨WF_run _ _ _ WF_New, List.reverse_perm _⟩,
   (pass_is_order_independent sampleDeps sampleTwo (WF_run _ _ _ WF_New) 1
      sampleTwo.entries.reverse (List.reverse_perm _)).1⟩


/-! ## The loop body and the deferred function, cut at their atomic operations -/

/-- The loop body is its tests followed, when they let the iteration go on, by the part
from the swap of line 221. -/
theorem dispatch_split (d : Deps) (t : Nat) (e : Entry) :
    dispatch d t e
      = match dispatchTests d t e with
        | some v => (e, v)
        | none => dispatchSwap d e := by
  unfold dispatch dispatchTests dispatchSwap
  split_ifs <;> rfl

theorem checkEntry_split (d : Deps) (t : Nat) (acc : Cron × List String) (kv : String × Ref)
    (h : dispatchTests d t (acc.1.heap kv.2) = none) :
    checkEntry d t acc kv = checkEntryResume d acc kv := by
  have hd := dispatch_split d t (acc.1.heap kv.2)
  rw [h] at hd
  simp only at hd
  unfold checkEntry checkEntryResume
  rw [hd]
  rcases hq : dispatchSwap d (acc.1.heap kv.2) with ⟨e, v⟩
  have hne : v ≠ .remove := by
    intro hv
    subst hv
    unfold dispatchSwap at hq
    simp only [Entry.IsSingleton] at hq
    split_ifs at hq <;> simp at hq
  cases v with
  | skip => rfl
  | remove => exact absurd rfl hne
  | launch => rfl

/-- The deferred function is its read of line 237 followed by lines 238-245 on what was read. -/
theorem completion_split (c : Cron) (r : Ref) :
    completion c r = completionAct c r (c.heap r).status := rfl

theorem complete_split (c : Cron) (inv : Invocation) :
    complete c inv = completeAct c inv (c.heap inv.entry).status := rfl

end gcron
